import Mathlib

/-! AliceVision: L-infinity triangulation constraints and image pair list I/O.

A shallow embedding of

* `src/aliceVision/linearProgramming/lInfinityCV/triangulation.hpp`
  (`EncodeTriangulation`, `Triangulation_L1_ConstraintBuilder::Build`), over any type of
  scalars with the arithmetic operations of the source: a linearly ordered field stands for
  exact real arithmetic, and `F64` for the `double` of the source with its rounding;
* `src/aliceVision/matchingImageCollection/ImagePairListIO.cpp`
  (`loadPairs`, `savePairs`), over lists of characters standing for file contents.
-/

namespace AliceVision

/-! ## Triangulation (`triangulation.hpp`) -/

section

variable {K : Type} [Add K] [Sub K] [Mul K] [Neg K]

/-- `Mat34`: a 3x4 projection matrix `[R | t]`; `P i j` is the coefficient in row `i`,
column `j`, so `R = P.block<3,3>(0,0)` and `t = P.block<3,1>(0,3)`. -/
abbrev Mat34 (K : Type) := Fin 3 → Fin 4 → K

/-- `Mat2X`: a matrix with 2 rows and a dynamic number of columns, kept as the list of
its columns; `x_ij.col(i)` is the `i`-th entry `(pt(0), pt(1))`. -/
abbrev Mat2X (K : Type) := List (K × K)

/-- `Vec`: a dynamic column vector. -/
abbrev Vec (K : Type) := List K

/-- `Mat`: a dynamic matrix, with its dimensions and the list of its rows. -/
structure Mat (K : Type) where
  rows : Nat
  cols : Nat
  data : List (List K)
  deriving DecidableEq

/-- `R.row(k)` for `R = P.block<3,3>(0,0)`. -/
def Rrow (P : Mat34 K) (k : Fin 3) : List K := [P k 0, P k 1, P k 2]

/-- Coefficient-wise difference of two row vectors. -/
def rowSub (a b : List K) : List K := List.zipWith (fun x y => x - y) a b

/-- Coefficient-wise sum of two row vectors. -/
def rowAdd (a b : List K) : List K := List.zipWith (fun x y => x + y) a b

/-- Scalar multiple of a row vector. -/
def rowSmul (c : K) (a : List K) : List K := a.map (fun x => c * x)

/-- Opposite of a row vector. -/
def rowNeg (a : List K) : List K := a.map (fun x => -x)

/-- The five rows written to `A.block<1,3>(cpt + k, 0)`, `k = 0..4`, for one view
(lines 62-66 of `triangulation.hpp`). -/
def viewRows (P : Mat34 K) (pt : K × K) (gamma : K) : List (List K) :=
  [ rowSub (rowSub (Rrow P 0) (rowSmul pt.1 (Rrow P 2))) (rowSmul gamma (Rrow P 2)),
    rowSub (rowSub (Rrow P 1) (rowSmul pt.2 (Rrow P 2))) (rowSmul gamma (Rrow P 2)),
    rowNeg (Rrow P 2),
    rowSub (rowAdd (rowNeg (Rrow P 0)) (rowSmul pt.1 (Rrow P 2))) (rowSmul gamma (Rrow P 2)),
    rowSub (rowAdd (rowNeg (Rrow P 1)) (rowSmul pt.2 (Rrow P 2))) (rowSmul gamma (Rrow P 2)) ]

/-- The five entries written to `C(cpt + k)`, `k = 0..4`, for one view
(lines 69-73 of `triangulation.hpp`), with `t(k) = P k 3`. -/
def viewRhs (P : Mat34 K) (pt : K × K) (gamma : K) : List K :=
  [ -(P 0 3) + pt.1 * P 2 3 + gamma * P 2 3,
    -(P 1 3) + pt.2 * P 2 3 + gamma * P 2 3,
    P 2 3,
    P 0 3 - pt.1 * P 2 3 + gamma * P 2 3,
    P 1 3 - pt.2 * P 2 3 + gamma * P 2 3 ]

/-- The `for (int i = 0; i < nbCamera; ++i)` loop of `EncodeTriangulation`, run on the
views that remain from index `i` on. Iteration `i` fills rows `cpt .. cpt + 4` with
`cpt = 5 * i`, so the rows come out as the successive blocks of five. Reading
`x_ij.col(i)` beyond the last column is Eigen's index assertion: `none`. -/
def encodeLoop (x_ij : Mat2X K) (gamma : K) : List (Mat34 K) → Nat → Option (List (List K) × List K)
  | [], _ => some ([], [])
  | P :: rest, i =>
    match x_ij[i]? with
    | none => none
    | some pt =>
      match encodeLoop x_ij gamma rest (i + 1) with
      | none => none
      | some (A, C) => some (viewRows P pt gamma ++ A, viewRhs P pt gamma ++ C)

/-- `EncodeTriangulation(Pi, x_ij, gamma, A, C)`: `A` becomes a `5 * nbCamera` by 3 matrix and
`C` a vector of `5 * nbCamera` entries; every coefficient of both is assigned by the loop, so
the outcome does not depend on what `A` and `C` held before. -/
def EncodeTriangulation (Pi : List (Mat34 K)) (x_ij : Mat2X K) (gamma : K) :
    Option (Mat K × Vec K) :=
  match encodeLoop x_ij gamma Pi 0 with
  | none => none
  | some (A, C) => some ({ rows := 5 * Pi.length, cols := 3, data := A }, C)

end

section

variable {K : Type} [LinearOrderedField K]

/-- `LPConstraints::eLP_SIGN`. -/
inductive eLP_SIGN where
  | LP_LESS_OR_EQUAL
  | LP_GREATER_OR_EQUAL
  | LP_EQUAL
  | LP_FREE
  deriving DecidableEq, Repr

/-- Modelled from the spec: the `LPConstraints` record is declared in `ISolver.hpp`, which is
not among the sources; these are the five members `Build` assigns (constraint matrix,
right-hand side called objective, per-row relation, per-variable bounds, `nbParams`). -/
structure LPConstraints (K : Type) where
  _constraintMat : Mat K
  _Cst_objective : Vec K
  _vec_sign : List eLP_SIGN
  _vec_bounds : List (K × K)
  _nbParams : Nat

/-- `Triangulation_L1_ConstraintBuilder`: the stored projection matrices and observations. -/
structure Triangulation_L1_ConstraintBuilder (K : Type) where
  _vec_Pi : List (Mat34 K)
  _x_ij : Mat2X K

/-- `Triangulation_L1_ConstraintBuilder::Build(gamma, constraint)`: the returned flag and the
constraints object after the call (`none` when `EncodeTriangulation` hits the index
assertion). -/
def Triangulation_L1_ConstraintBuilder.Build (b : Triangulation_L1_ConstraintBuilder K)
    (gamma : K) (constraint : LPConstraints K) : Option (Bool × LPConstraints K) :=
  match EncodeTriangulation b._vec_Pi b._x_ij gamma with
  | none => none
  | some (A, C) =>
    some (true,
      { constraint with
        _constraintMat := A
        _Cst_objective := C
        _nbParams := 3
        _vec_bounds := List.replicate 1 (-(10 ^ 30 : K), (10 ^ 30 : K))
        _vec_sign := List.replicate A.rows eLP_SIGN.LP_LESS_OR_EQUAL })

/-- Dot product of a matrix row with the vector of unknowns. -/
def dot (a X : List K) : K := (List.zipWith (fun x y => x * y) a X).sum

/-- The point `X` satisfies every row of `A * X <= C`. -/
def Feasible (A : Mat K) (C : Vec K) (X : List K) : Prop :=
  ∀ p ∈ A.data.zip C, dot p.1 X ≤ p.2

/-- Coordinate `k` of `R * X + t` for the view `P = [R | t]` and the point `(X0, X1, X2)`. -/
def camCoord (P : Mat34 K) (X0 X1 X2 : K) (k : Fin 3) : K :=
  P k 0 * X0 + P k 1 * X1 + P k 2 * X2 + P k 3

/-- The per-view condition in camera coordinates `(x, y, z) = R * X + t`: non-negative depth
and both linearised reprojection errors within `gamma * z`. -/
def ViewBound (P : Mat34 K) (pt : K × K) (gamma X0 X1 X2 : K) : Prop :=
  0 ≤ camCoord P X0 X1 X2 2 ∧
  |camCoord P X0 X1 X2 0 - pt.1 * camCoord P X0 X1 X2 2| ≤ gamma * camCoord P X0 X1 X2 2 ∧
  |camCoord P X0 X1 X2 1 - pt.2 * camCoord P X0 X1 X2 2| ≤ gamma * camCoord P X0 X1 X2 2

/-- The reprojection condition of one view: horizontal and vertical reprojection errors
`|x / z - u|` and `|y / z - v|` at most `gamma`. -/
def ReprojBound (P : Mat34 K) (pt : K × K) (gamma X0 X1 X2 : K) : Prop :=
  |camCoord P X0 X1 X2 0 / camCoord P X0 X1 X2 2 - pt.1| ≤ gamma ∧
  |camCoord P X0 X1 X2 1 / camCoord P X0 X1 X2 2 - pt.2| ≤ gamma

end

/-! ## The `double` of the source (IEEE 754 binary64)

`Mat34`, `Mat2X`, `Mat` and `Vec` hold `double`s. Every `operator+`, `operator-` and
`operator*` on them gives the exact result rounded to nearest, ties to even; the unary minus
is exact. Each operation of an expression is rounded on its own, in the order the expression
is written (no fused multiply-add). The definitions of the rows above, taken at the scalar
type `F64`, compute what the source computes. -/

/-- A finite `double`: the number `m * 2 ^ e`. -/
structure Dbl where
  m : Int
  e : Int
  deriving DecidableEq

/-- The exact value of a finite `double`. -/
def Dbl.toRat (d : Dbl) : ℚ := d.m * (2 : ℚ) ^ d.e

/-- The number of binary digits of `n` added to `acc`, counted in at most `fuel` steps. -/
def bitLengthAux : Nat → Nat → Nat → Nat
  | 0, _, acc => acc
  | fuel + 1, n, acc => if n = 0 then acc else bitLengthAux fuel (n / 2) (acc + 1)

/-- The number of binary digits of `n` (0 for 0). -/
def bitLength (n : Nat) : Nat := bitLengthAux n n 0

/-- Rounding of the exact result `m * 2 ^ e` of an operation to binary64, to nearest with
ties to even: the result keeps 53 significant bits, or fewer when its last bit would fall
below `2 ^ -1074` (subnormal results), and is `none` when the rounded magnitude reaches
`2 ^ 1024` (overflow). -/
def Dbl.round (m e : Int) : Option Dbl :=
  if m = 0 then some ⟨0, 0⟩
  else
    let len : Int := (bitLength m.natAbs : Nat)
    let e2 : Int := if -1074 ≤ e + len - 53 then e + len - 53 else -1074
    if e2 ≤ e then
      if 1024 < e + len then none else some ⟨m, e⟩
    else
      let sh := (e2 - e).toNat
      let q := m.natAbs / 2 ^ sh
      let r := m.natAbs % 2 ^ sh
      let q1 := if 2 ^ (sh - 1) < r ∨ (r = 2 ^ (sh - 1) ∧ q % 2 = 1) then q + 1 else q
      if 1024 < e2 + ((bitLength q1 : Nat) : Int) then none
      else some ⟨if 0 < m then (q1 : Int) else -(q1 : Int), e2⟩

/-- A `double`: a finite value, or `none` for a value that is not finite (the result of an
overflow, and whatever is computed from such a result). -/
structure F64 where
  val : Option Dbl
  deriving DecidableEq

/-- A finite value as a `double`. -/
def F64.ofDbl (x : Dbl) : F64 := ⟨some x⟩

/-- A binary operation on `double`, from its effect on finite operands. -/
def F64.lift2 (f : Dbl → Dbl → Option Dbl) (a b : F64) : F64 :=
  match a.val, b.val with
  | some x, some y => ⟨f x y⟩
  | _, _ => ⟨none⟩

/-- Unary minus of `double`: exact. -/
instance : Neg F64 := ⟨fun a => ⟨a.val.map fun x => ⟨-x.m, x.e⟩⟩⟩

/-- `operator*` of `double`: the exact product, rounded. -/
instance : Mul F64 := ⟨F64.lift2 fun x y => Dbl.round (x.m * y.m) (x.e + y.e)⟩

/-- `operator+` of `double`: the exact sum, rounded. -/
instance : Add F64 := ⟨F64.lift2 fun x y =>
  if x.e ≤ y.e then Dbl.round (x.m + y.m * 2 ^ (y.e - x.e).toNat) x.e
  else Dbl.round (x.m * 2 ^ (x.e - y.e).toNat + y.m) y.e⟩

/-- `operator-` of `double`: the sum with the opposite. -/
instance : Sub F64 := ⟨fun a b => a + -b⟩

/-- A view whose coefficients are finite `double`s, as the `Mat34` the source computes
with. -/
def doubleView (P : Mat34 Dbl) : Mat34 F64 := fun i j => F64.ofDbl (P i j)

/-- The same view with the exact values of its coefficients. -/
def exactView (P : Mat34 Dbl) : Mat34 ℚ := fun i j => (P i j).toRat

/-- The point `X` satisfies every row of a system `A * X <= C` held in `double`s: every
coefficient is finite, and `X` satisfies the rows in exact arithmetic on their values. -/
def FeasibleD (A : Mat F64) (C : Vec F64) (X : List ℚ) : Prop :=
  ∃ (a : List (List Dbl)) (c : List Dbl),
    A.data = a.map (List.map F64.ofDbl) ∧ C = c.map F64.ofDbl ∧
    Feasible ⟨A.rows, A.cols, a.map (List.map Dbl.toRat)⟩ (c.map Dbl.toRat) X

/-- The view `[I | 0]` in `double`s. -/
def identityViewD : Mat34 Dbl := fun i j => if i.val = j.val then ⟨1, 0⟩ else ⟨0, 0⟩

/-- The view `[I | (0, 0, -0.2)]` in `double`s, `-0.2` being the `double` nearest to it. -/
def shiftedViewD : Mat34 Dbl := fun i j =>
  if i.val = j.val then ⟨1, 0⟩
  else if i.val = 2 ∧ j.val = 3 then ⟨-3602879701896397, -54⟩ else ⟨0, 0⟩

/-- The view of rows `(0.5, 0.5, 0.5 | 0.5)`, `(-0.5, 1, 1 | 0)` and `(1, 0.1, 0.3 | 1)` in
`double`s, `0.1` and `0.3` being the `double`s nearest to them. -/
def skewViewD : Mat34 Dbl := fun i j =>
  match i.val, j.val with
  | 0, _ => ⟨1, -1⟩
  | 1, 0 => ⟨-1, -1⟩
  | 1, 1 => ⟨1, 0⟩
  | 1, 2 => ⟨1, 0⟩
  | 1, _ => ⟨0, 0⟩
  | _, 0 => ⟨1, 0⟩
  | _, 1 => ⟨3602879701896397, -55⟩
  | _, 2 => ⟨5404319552844595, -54⟩
  | _, _ => ⟨1, 0⟩

/-! ## Image pair list I/O (`ImagePairListIO.cpp`) -/

/-- `Pair`: a pair of image indices. Its component type `IndexT` is declared outside the
sources; an index is kept as a natural number below `2 ^ w`, `w` the bit width of `IndexT`,
which the definitions below take as a parameter. -/
abbrev Pair := Nat × Nat

/-- `PairSet` (`std::set<Pair>`): a finite set of pairs, iterated in ascending order. -/
abbrev PairSet := Finset Pair

/-- `std::pair`'s `operator<=` on `Pair`: lexicographic on (first, second). -/
def pairLE (a b : Pair) : Prop := a.1 < b.1 ∨ (a.1 = b.1 ∧ a.2 ≤ b.2)

instance : DecidableRel pairLE := fun a b => by unfold pairLE; exact inferInstance

instance : IsTrans Pair pairLE :=
  ⟨fun a b c h1 h2 => by unfold pairLE at *; omega⟩

instance : IsAntisymm Pair pairLE :=
  ⟨fun a b h1 h2 => by
    unfold pairLE at h1 h2
    exact Prod.ext (by omega) (by omega)⟩

instance : IsTotal Pair pairLE :=
  ⟨fun a b => by unfold pairLE; omega⟩

/-- `std::isspace` in the classic locale: space, `\t`, `\n`, `\v`, `\f`, `\r`. -/
def isSpace (c : Char) : Bool :=
  c == ' ' || c == '\t' || c == '\n' || c == Char.ofNat 11 || c == Char.ofNat 12 || c == '\r'

/-- `boost::is_any_of("\t ")`. -/
def isSep (c : Char) : Bool := c == '\t' || c == ' '

/-- The successive results of `std::getline(in, sValue)` on a stream holding `content`:
the pieces between newline characters; a final piece is a line only when it is not empty. -/
def getLines : List Char → List (List Char)
  | [] => []
  | c :: cs =>
    if c = '\n' then [] :: getLines cs
    else
      match getLines cs with
      | [] => [[c]]
      | l :: ls => (c :: l) :: ls

/-- `boost::trim(sValue)`: drop the white space at both ends. -/
def trim (s : List Char) : List Char :=
  ((s.dropWhile isSpace).reverse.dropWhile isSpace).reverse

/-- `boost::split` with `token_compress_on`, the flag telling that the previous
character was a separator (adjacent separators count as one). -/
def splitFrom : Bool → List Char → List (List Char)
  | _, [] => [[]]
  | prevSep, c :: cs =>
    if isSep c then
      if prevSep then splitFrom true cs else [] :: splitFrom true cs
    else
      match splitFrom false cs with
      | [] => [[c]]
      | t :: ts => (c :: t) :: ts

/-- `boost::split(vec_str, sValue, boost::is_any_of("\t "), boost::token_compress_on)`. -/
def split (s : List Char) : List (List Char) := splitFrom false s

/-- Value of a decimal digit character. -/
def digitVal (c : Char) : Nat := c.toNat - 48

/-- `oss.clear(); oss.str(tok); oss >> I;` for `size_t I` (64 bits, C++11 rules), as the
value of `I` afterwards, `prev` being the value `I` held before. The extraction first skips
the leading white space of the token; when nothing is left (an empty token or one made of
white space only) it fails before anything is stored, and `I` keeps `prev`. Otherwise it
takes an optional sign and the longest run of decimal digits: no digit stores 0, a magnitude
above the largest `size_t` stores that largest value, and a minus sign negates modulo
`2 ^ 64`. -/
def extractSizeT (prev : Nat) (tok : List Char) : Nat :=
  let s := tok.dropWhile isSpace
  if s.isEmpty then prev
  else
    let neg : Bool := s.head? == some '-'
    let body := if s.head? == some '-' || s.head? == some '+' then s.tail else s
    let ds := body.takeWhile Char.isDigit
    if ds.isEmpty then 0
    else
      let v := ds.foldl (fun a c => 10 * a + digitVal c) 0
      if 2 ^ 64 ≤ v then 2 ^ 64 - 1
      else if neg then (2 ^ 64 - v) % 2 ^ 64
      else v

/-- Conversion of the `std::pair<size_t, size_t>` built by `std::make_pair` to `Pair`:
each component is reduced to the `w` bits of `IndexT`. -/
def toPair (w : Nat) (p : Nat × Nat) : Pair := (p.1 % 2 ^ w, p.2 % 2 ^ w)

/-- `Pair pairToInsert = (I < J) ? std::make_pair(I, J) : std::make_pair(J, I);` -/
def pairToInsert (w I J : Nat) : Pair := toPair w (if I < J then (I, J) else (J, I))

/-- The loop `for (size_t i = 1; i < str_size; ++i)` over the target tokens of one line,
`J` being the value the variable `J` holds when the loop reaches the token (each `oss >> J`
starts from what the variable held after the previous token): the flag is `false` when the
loop leaves through `return false`, and the set is the caller's `pairs` as the loop leaves
it. -/
def targetLoop (w I : Nat) : Nat → List (List Char) → PairSet → Bool × PairSet
  | _, [], pairs => (true, pairs)
  | J, tok :: toks, pairs =>
    let J1 := extractSizeT J tok
    if I = J1 then (false, pairs)
    else targetLoop w I J1 toks (insert (pairToInsert w I J1) pairs)

/-- Conversion of an `int` to `size_t` in the comparisons with `nbLine`. -/
def toSizeT (x : Int) : Nat := (x % 2 ^ 64).toNat

/-- The loop `for (; std::getline(in, sValue); ++nbLine)` of `loadPairs` on the lines that
remain, `nbLine` being the index of the first of them. The body declares `size_t I, J;`
without an initialiser, after the two range checks and the token count check: `uninit k` is
the pair of values the two variables hold at that declaration for the `k`-th of the lines
that get that far, whatever the memory holds then. -/
def lineLoop (w : Nat) (rangeStart rangeSize : Int) :
    (Nat → Nat × Nat) → List (List Char) → Nat → PairSet → Bool × PairSet
  | _, [], _, pairs => (true, pairs)
  | uninit, sValue :: rest, nbLine, pairs =>
    if rangeStart ≠ -1 ∧ rangeSize ≠ 0 ∧ nbLine < toSizeT rangeStart then
      lineLoop w rangeStart rangeSize uninit rest (nbLine + 1) pairs
    else if rangeStart ≠ -1 ∧ rangeSize ≠ 0 ∧ toSizeT (rangeStart + rangeSize) ≤ nbLine then
      (true, pairs)
    else
      let vec_str := split (trim sValue)
      if vec_str.length < 2 then (false, pairs)
      else
        match targetLoop w (extractSizeT (uninit 0).1 vec_str.headI) (uninit 0).2
            vec_str.tail pairs with
        | (false, pairs1) => (false, pairs1)
        | (true, pairs1) =>
          lineLoop w rangeStart rangeSize (fun k => uninit (k + 1)) rest (nbLine + 1) pairs1

/-- `loadPairs(sFileName, pairs, rangeStart, rangeSize)`: `file` is the content of the file
called `sFileName`, `none` when it cannot be opened, and `uninit` gives the values of the
uninitialised `I` and `J` (see `lineLoop`); the result is the returned flag and the caller's
set after the call. -/
def loadPairs (w : Nat) (uninit : Nat → Nat × Nat) (file : Option (List Char))
    (pairs : PairSet) (rangeStart rangeSize : Int) : Bool × PairSet :=
  match file with
  | none => (false, pairs)
  | some content => lineLoop w rangeStart rangeSize uninit (getLines content) 0 pairs

/-- What `outStream << iterP->first << ' ' << iterP->second << '\n'` appends. -/
def pairRecord (p : Pair) : List Char :=
  Nat.toDigits 10 p.1 ++ ' ' :: Nat.toDigits 10 p.2 ++ ['\n']

/-- The loop of `savePairs` over `pairs.begin() .. pairs.end()`, appending to the stream. -/
def writeLoop : List Pair → List Char → List Char
  | [], out => out
  | p :: ps, out => writeLoop ps (out ++ pairRecord p)

/-- The elements of a `PairSet` in the order `pairs.begin() .. pairs.end()` visits them:
ascending for `std::pair`'s comparison. -/
def iterate (pairs : PairSet) : List Pair :=
  Quot.liftOn pairs.val (fun l => l.insertionSort pairLE) (fun _ _ h =>
    List.eq_of_perm_of_sorted
      (((List.perm_insertionSort pairLE _).trans h).trans (List.perm_insertionSort pairLE _).symm)
      (List.sorted_insertionSort pairLE _) (List.sorted_insertionSort pairLE _))

/-- `savePairs(sFileName, pairs)`: `opened` tells whether the output file could be opened;
the result is the returned flag and the text written (no write error is modelled, so
`outStream.bad()` is false). -/
def savePairs (opened : Bool) (pairs : PairSet) : Bool × List Char :=
  if opened then (true, writeLoop (iterate pairs) []) else (false, [])

/-! ### Vocabulary for statements about pair list files -/

/-- The tokens of a line: `vec_str` after `boost::trim` and `boost::split`. -/
def tokens (line : List Char) : List (List Char) := split (trim line)

/-- The from index `I` read from the first token of a line. The first token of a line of
at least 2 tokens starts with a character that is not white space, so the read stores a value
whatever `I` held before. -/
def fromIndex (line : List Char) : Nat := extractSizeT 0 (tokens line).headI

/-- The successive values of `J` after each `oss >> J` over the given tokens, `J` being the
value before the first of them. -/
def readTargets : Nat → List (List Char) → List Nat
  | _, [] => []
  | J, tok :: toks => extractSizeT J tok :: readTargets (extractSizeT J tok) toks

/-- The target indices `J` read from the tokens after the first, in order, `j` being the
value of the uninitialised `J` when the line is reached. -/
def targetIndices (j : Nat) (line : List Char) : List Nat := readTargets j (tokens line).tail

/-- The line has fewer than 2 tokens. -/
def UnderSpecified (line : List Char) : Prop := (tokens line).length < 2

instance : DecidablePred UnderSpecified := fun line => by
  unfold UnderSpecified; exact inferInstance

/-- Some target index of the line equals its from index. -/
def SelfPair (j : Nat) (line : List Char) : Prop := fromIndex line ∈ targetIndices j line

instance (j : Nat) : DecidablePred (SelfPair j) := fun line => by
  unfold SelfPair; exact inferInstance

/-- The line has at least 2 tokens and no self pair. -/
def WellFormed (j : Nat) (line : List Char) : Prop := ¬ UnderSpecified line ∧ ¬ SelfPair j line

instance (j : Nat) : DecidablePred (WellFormed j) := fun line => by
  unfold WellFormed; exact inferInstance

/-- The pairs `(I, J)` of a line as read, before any ordering: the from index with each target
index, in order. -/
def rawPairs (j : Nat) (line : List Char) : List (Nat × Nat) :=
  (targetIndices j line).map fun J => (fromIndex line, J)

/-- The pairs inserted for the targets of a line, in order. -/
def linePairs (w j : Nat) (line : List Char) : List Pair :=
  (targetIndices j line).map (pairToInsert w (fromIndex line))

/-- The pairs inserted for a line before the loader leaves it through `return false`:
none for an under-specified line, else those of the targets before the first self pair. -/
def pairsBeforeError (w j : Nat) (line : List Char) : List Pair :=
  if UnderSpecified line then []
  else ((targetIndices j line).takeWhile (fun J => decide (J ≠ fromIndex line))).map
    (pairToInsert w (fromIndex line))

/-- The lines the loop body gets to declare `I` and `J` for, each with the value the
uninitialised `J` holds there. -/
def withUninit : (Nat → Nat × Nat) → List (List Char) → List (Nat × List Char)
  | _, [] => []
  | uninit, l :: ls => ((uninit 0).2, l) :: withUninit (fun k => uninit (k + 1)) ls

/-- The pairs `(I, J)` as read of all the lines of a file, in order. -/
def fileRawPairs (uninit : Nat → Nat × Nat) (content : List Char) : List (Nat × Nat) :=
  (withUninit uninit (getLines content)).flatMap fun jl => rawPairs jl.1 jl.2

/-- The ordered pair `(min(I, J), max(I, J))`. -/
def normPair (I J : Nat) : Pair := (min I J, max I J)

/-- The decimal numeral of an index, as `operator<<` writes it. -/
def decimal (n : Nat) : List Char := (Nat.repr n).data

/-- A non-empty run of decimal digit characters. -/
def IsNumeral (ds : List Char) : Prop := ds ≠ [] ∧ ∀ c ∈ ds, c.isDigit = true

/-- A character that may pad a line: white space other than the newline. -/
def isPad (c : Char) : Bool := isSpace c && !(c == '
')

/-- One record of a pair list file with its layout: leading padding, the from index, the
targets each preceded by its separator run, trailing padding. -/
structure RecordLine where
  lead : List Char
  src : Nat
  targets : List (List Char × Nat)
  trail : List Char

/-- The text of a record line. -/
def RecordLine.render (r : RecordLine) : List Char :=
  r.lead ++ decimal r.src ++ (r.targets.flatMap fun st => st.1 ++ decimal st.2) ++ r.trail

/-- The layout the file format allows, for indices of `w` bits: padding at both ends, at least
one target, every target different from the from index and preceded by a non-empty run of
spaces and tabs, every index below `2 ^ w`. -/
def RecordLine.Valid (w : Nat) (r : RecordLine) : Prop :=
  (∀ c ∈ r.lead, isPad c = true) ∧ (∀ c ∈ r.trail, isPad c = true) ∧
  r.src < 2 ^ w ∧ r.targets ≠ [] ∧
  ∀ st ∈ r.targets, st.1 ≠ [] ∧ (∀ c ∈ st.1, isSep c = true) ∧ st.2 ≠ r.src ∧ st.2 < 2 ^ w

instance (w : Nat) : DecidablePred (RecordLine.Valid w) := fun r => by
  unfold RecordLine.Valid; exact inferInstance

/-- The pairs a record stands for. -/
def RecordLine.pairs (r : RecordLine) : List Pair :=
  r.targets.map fun st => normPair r.src st.2

/-- The record line `savePairs` writes for a pair: no padding, one space before the target. -/
def savedRecord (p : Pair) : RecordLine := ⟨[], p.1, [([' '], p.2)], []⟩

/-- Strict lexicographic order on pairs: `std::pair`'s `operator<`. -/
def pairLT (a b : Pair) : Prop := a.1 < b.1 ∨ (a.1 = b.1 ∧ a.2 < b.2)

/-- A file made of the given lines, each ended by a newline, the last one only when
`finalNewline` is set. -/
def fileOf (finalNewline : Bool) : List (List Char) → List Char
  | [] => []
  | [l] => if finalNewline then l ++ ['\n'] else l
  | l :: ls => l ++ '\n' :: fileOf finalNewline ls

/-! ### Vocabulary for statements about the line range and about tokens -/

/-- The lines `loadPairs` processes, out of the lines of the file: all of them when
`rangeStart = -1` or `rangeSize = 0`, else those whose index `nbLine` is neither below
`rangeStart` nor at or beyond `rangeStart + rangeSize`, the bounds being compared as
`size_t`. -/
def processedLines (rangeStart rangeSize : Int) (lines : List (List Char)) :
    List (List Char) :=
  if rangeStart = -1 ∨ rangeSize = 0 then lines
  else (lines.drop (toSizeT rangeStart)).take
    (toSizeT (rangeStart + rangeSize) - toSizeT rangeStart)

/-- A token without any decimal digit. -/
def NonNumeric (tok : List Char) : Prop := ∀ c ∈ tok, c.isDigit = false

instance : DecidablePred NonNumeric := fun tok => by
  unfold NonNumeric; exact inferInstance

/-! ### Vocabulary for further statements about triangulation -/

section

variable {K : Type} [LinearOrderedField K]

/-- The perspective projection `(x / z, y / z)` of the point `(X0, X1, X2)` through the
view `P`. -/
def project (P : Mat34 K) (X0 X1 X2 : K) : K × K :=
  (camCoord P X0 X1 X2 0 / camCoord P X0 X1 X2 2,
    camCoord P X0 X1 X2 1 / camCoord P X0 X1 X2 2)

/-- Total squared reprojection residual of the point over the views, each paired with its
observation. -/
def squaredResidual (Pi : List (Mat34 K)) (x_ij : Mat2X K) (X0 X1 X2 : K) : K :=
  ((Pi.zip x_ij).map fun q =>
    ((project q.1 X0 X1 X2).1 - q.2.1) ^ 2 + ((project q.1 X0 X1 X2).2 - q.2.2) ^ 2).sum

/-- Successive calls `Build(gamma, constraint)` of one builder on one constraints object, for
the bounds of the list in order: the object after the last call (`none` when a call hits the
index assertion). The builder itself is passed along unchanged, `Build` assigning none of its
members. -/
def buildSeq (b : Triangulation_L1_ConstraintBuilder K) :
    List K → LPConstraints K → Option (LPConstraints K)
  | [], c => some c
  | g :: gs, c =>
    match b.Build g c with
    | none => none
    | some (_, c1) => buildSeq b gs c1

end

/-- The view `[I | 0]` over the rationals, for examples. -/
def identityView : Mat34 ℚ := fun i j => if i.val = j.val then 1 else 0

/-! ## Bisection driver -/

section

variable {K : Type} [LinearOrderedField K] {Sol : Type}

/-- Modelled from the spec: the state of the bisection driver (`bisectionLP.hpp` is not among
the sources): the bracket `low`, `high`, the output buffer, and the number of iterations
done. -/
structure BisectionState (K Sol : Type) where
  low : K
  high : K
  best : Sol
  iter : Nat

/-- Modelled from the spec: the loop of the bisection driver (`bisectionLP.hpp` is not among
the sources). `oracle mid` stands for building the constraints at `mid`, configuring the
solver and solving: the solution when feasible. The first argument counts the iterations
left before the maximum is reached. Each round stops when `high - low < eps`; else it
computes `mid = (low + high) / 2`, and if feasible sets `high = mid` and stores the solution
in the buffer, else sets `low = mid`. -/
def bisectionLoop (oracle : K → Option Sol) (eps : K) :
    Nat → BisectionState K Sol → BisectionState K Sol
  | 0, st => st
  | left + 1, st =>
    if st.high - st.low < eps then st
    else
      match oracle ((st.low + st.high) / 2) with
      | some s =>
        bisectionLoop oracle eps left
          { low := st.low, high := (st.low + st.high) / 2, best := s, iter := st.iter + 1 }
      | none =>
        bisectionLoop oracle eps left
          { low := (st.low + st.high) / 2, high := st.high, best := st.best,
            iter := st.iter + 1 }

/-- Modelled from the spec: the bisection driver `BisectionLP` (`bisectionLP.hpp` is not among
the sources), called with the bracket `high`, `low`, the tolerance and the maximum number of
iterations. The bracket is checked once at `high` before iterating: infeasible there, the
driver returns false and leaves the buffer alone; else it runs the loop. The result is the
returned flag and the final state, whose `best` is the output buffer and whose `high` is the
tightest feasible bound found. -/
def BisectionLP (oracle : K → Option Sol) (buffer : Sol) (high low eps : K)
    (maxIteration : Nat) : Bool × BisectionState K Sol :=
  match oracle high with
  | none => (false, { low := low, high := high, best := buffer, iter := 0 })
  | some s =>
    (true, bisectionLoop oracle eps maxIteration { low := low, high := high, best := s, iter := 0 })

end

/-! ## Gain and offset constraint builder -/

section

variable {K : Type} [LinearOrderedField K]

/-- Modelled from the spec: the `LPConstraintsSparse` record (declared in `ISolver.hpp`, not
among the sources): the constraint matrix in triplet form `(row, column, value)`, the
right-hand side, the per-row relation, the per-variable bounds and `nbParams`. -/
structure LPConstraintsSparse (K : Type) where
  _constraintMat : List (Nat × Nat × K)
  _Cst_objective : Vec K
  _vec_sign : List eLP_SIGN
  _vec_bounds : List (K × K)
  _nbParams : Nat

/-- Modelled from the spec: `relativeColorHistogramEdge`, an ordered pair of image indices
with its two histograms, the histograms being kept as the list of the matched pairs of
representative intensity values `(v_I, v_J)` (the binning utilities are outside the core). -/
structure relativeColorHistogramEdge (K : Type) where
  I : Nat
  J : Nat
  matched : List (K × K)

/-- Modelled from the spec: the data of `GainOffsetConstraintBuilder`
(`GainOffsetConstraintBuilder.hpp` is not among the sources): the number of images, the edges
and the images to fix. -/
structure GainOffsetConstraintBuilder (K : Type) where
  numImages : Nat
  edges : List (relativeColorHistogramEdge K)
  indexToFix : List Nat

/-- Modelled from the spec: the two rows of one matched pair of an edge `(I, J)`, as lists of
`(column, coefficient)`, bounding the signed discrepancy between `gain_I * v_I + offset_I` and
`gain_J * v_J + offset_J` by the last unknown `gamma` (column `2 * numImages`); both rows are
`<= 0`. The unknowns are laid out `[gain_0, offset_0, gain_1, offset_1, ..., gamma]`. -/
def edgeRows (numImages : Nat) (e : relativeColorHistogramEdge K) : List (List (Nat × K)) :=
  e.matched.flatMap fun v =>
    [ [(2 * e.I, v.1), (2 * e.I + 1, 1), (2 * e.J, -v.2), (2 * e.J + 1, -1),
        (2 * numImages, -1)],
      [(2 * e.I, -v.1), (2 * e.I + 1, -1), (2 * e.J, v.2), (2 * e.J + 1, 1),
        (2 * numImages, -1)] ]

/-- Modelled from the spec: pinning of the images to fix, one after the other: the bounds of
the gain become `(1, 1)` and those of the offset `(0, 0)`. -/
def pinBounds : List (K × K) → List Nat → List (K × K)
  | bounds, [] => bounds
  | bounds, i :: rest => pinBounds ((bounds.set (2 * i) (1, 1)).set (2 * i + 1) (0, 0)) rest

/-- Modelled from the spec: `GainOffsetConstraintBuilder::Build(constraint)`, the constraints
it leaves: the rows of all the edges in `<=` form, `nbParams = 2 * numImages + 1`, and the
bounds, `free` for every unknown (the spec leaves the range of the unpinned unknowns open)
except those of the images to fix. -/
def GainOffsetConstraintBuilder.Build (b : GainOffsetConstraintBuilder K) (free : K × K) :
    LPConstraintsSparse K :=
  { _constraintMat :=
      (b.edges.flatMap (edgeRows b.numImages)).enum.flatMap fun r =>
        r.2.map fun t => (r.1, t.1, t.2)
    _Cst_objective := List.replicate (b.edges.flatMap (edgeRows b.numImages)).length 0
    _vec_sign :=
      List.replicate (b.edges.flatMap (edgeRows b.numImages)).length eLP_SIGN.LP_LESS_OR_EQUAL
    _vec_bounds := pinBounds (List.replicate (2 * b.numImages + 1) free) b.indexToFix
    _nbParams := 2 * b.numImages + 1 }

/-- The value of row `r` of a sparse constraint matrix at the vector `x`. -/
def sparseRowValue (c : LPConstraintsSparse K) (r : Nat) (x : List K) : K :=
  ((c._constraintMat.filter fun t => t.1 == r).map fun t => t.2.2 * x.getD t.2.1 0).sum

/-- The relation of a row holds between its value and its right-hand side. -/
def signHolds (s : eLP_SIGN) (v rhs : K) : Prop :=
  match s with
  | eLP_SIGN.LP_LESS_OR_EQUAL => v ≤ rhs
  | eLP_SIGN.LP_GREATER_OR_EQUAL => rhs ≤ v
  | eLP_SIGN.LP_EQUAL => v = rhs
  | eLP_SIGN.LP_FREE => True

/-- The vector `x` is a solution of the sparse linear program: it has `nbParams` entries,
each within its bounds, and satisfies every row. -/
def IsSolutionSparse (c : LPConstraintsSparse K) (x : List K) : Prop :=
  x.length = c._nbParams ∧
  (∀ (k : Nat) (bd : K × K), c._vec_bounds[k]? = some bd →
    bd.1 ≤ x.getD k 0 ∧ x.getD k 0 ≤ bd.2) ∧
  (∀ (r : Nat) (s : eLP_SIGN) (rhs : K), c._vec_sign[r]? = some s →
    c._Cst_objective[r]? = some rhs → signHolds s (sparseRowValue c r x) rhs)

end

/-! ## Theorems: triangulation -/

section

variable {K : Type} [LinearOrderedField K]

theorem viewRows_feasible_iff (P : Mat34 K) (pt : K × K) (gamma X0 X1 X2 : K) :
    (∀ p ∈ (viewRows P pt gamma).zip (viewRhs P pt gamma), dot p.1 [X0, X1, X2] ≤ p.2) ↔
      ViewBound P pt gamma X0 X1 X2 := by
  simp only [viewRows, viewRhs, Rrow, rowSub, rowAdd, rowSmul, rowNeg, dot, ViewBound, camCoord,
    List.zip_cons_cons, List.zip_nil_right, List.mem_cons, List.mem_singleton, List.not_mem_nil,
    or_false, forall_eq_or_imp, forall_eq, List.zipWith_cons_cons, List.zipWith_nil_right,
    List.zipWith_nil_left, List.map_cons, List.map_nil, List.sum_cons, List.sum_nil, abs_le]
  constructor
  · rintro ⟨h0, h1, h2, h3, h4⟩
    refine ⟨by linarith, ⟨by linarith, by linarith⟩, ⟨by linarith, by linarith⟩⟩
  · rintro ⟨h2, ⟨h3, h0⟩, ⟨h4, h1⟩⟩
    refine ⟨by linarith, by linarith, by linarith, by linarith, by linarith⟩

theorem viewBound_iff_reproj (P : Mat34 K) (pt : K × K) (gamma X0 X1 X2 : K)
    (hz : 0 < camCoord P X0 X1 X2 2) :
    ViewBound P pt gamma X0 X1 X2 ↔ ReprojBound P pt gamma X0 X1 X2 := by
  unfold ViewBound ReprojBound
  have key : ∀ a u : K, |a - u * camCoord P X0 X1 X2 2| ≤ gamma * camCoord P X0 X1 X2 2 ↔
      |a / camCoord P X0 X1 X2 2 - u| ≤ gamma := by
    intro a u
    have h1 : a / camCoord P X0 X1 X2 2 - u =
        (a - u * camCoord P X0 X1 X2 2) / camCoord P X0 X1 X2 2 := by
      field_simp
      ring
    rw [h1, abs_div, abs_of_pos hz, div_le_iff₀ hz]
  rw [key, key]
  constructor
  · rintro ⟨_, h⟩; exact h
  · intro h; exact ⟨hz.le, h⟩

theorem encodeLoop_spec (x_ij : Mat2X K) (gamma X0 X1 X2 : K) :
    ∀ (Ps : List (Mat34 K)) (i : Nat), i + Ps.length ≤ x_ij.length →
      ∃ A C, encodeLoop x_ij gamma Ps i = some (A, C) ∧
        A.length = 5 * Ps.length ∧ C.length = 5 * Ps.length ∧ (∀ r ∈ A, r.length = 3) ∧
        ((∀ p ∈ A.zip C, dot p.1 [X0, X1, X2] ≤ p.2) ↔
          ∀ (j : Nat) (P : Mat34 K) (pt : K × K), Ps[j]? = some P → x_ij[i + j]? = some pt →
            ViewBound P pt gamma X0 X1 X2) := by
  intro Ps
  induction Ps with
  | nil =>
    intro i _
    refine ⟨[], [], rfl, rfl, rfl, by simp, ?_⟩
    simp
  | cons P rest ih =>
    intro i hi
    simp only [List.length_cons] at hi
    obtain ⟨A, C, hAC, hA, hC, hcols, hiff⟩ := ih (i + 1) (by omega)
    have hlt : i < x_ij.length := by omega
    obtain ⟨pt, hpt⟩ : ∃ pt, x_ij[i]? = some pt := ⟨x_ij[i], List.getElem?_eq_getElem hlt⟩
    refine ⟨viewRows P pt gamma ++ A, viewRhs P pt gamma ++ C, ?_, ?_, ?_, ?_, ?_⟩
    · simp only [encodeLoop, hpt, hAC]
    · simp [viewRows, hA]; omega
    · simp [viewRhs, hC]; omega
    · intro r hr
      rcases List.mem_append.1 hr with h | h
      · simp only [viewRows, List.mem_cons, List.mem_singleton, List.not_mem_nil, or_false] at h
        rcases h with h | h | h | h | h <;> subst h <;>
          simp [Rrow, rowSub, rowAdd, rowSmul, rowNeg]
      · exact hcols r h
    · rw [List.zip_append (by simp [viewRows, viewRhs])]
      simp only [List.mem_append, or_imp, forall_and]
      rw [viewRows_feasible_iff, hiff]
      constructor
      · rintro ⟨h0, hrest⟩ j Q q hQ hq
        cases j with
        | zero =>
          simp only [List.getElem?_cons_zero, Option.some.injEq] at hQ
          simp only [Nat.add_zero, hpt, Option.some.injEq] at hq
          subst hQ; subst hq; exact h0
        | succ j =>
          simp only [List.getElem?_cons_succ] at hQ
          exact hrest j Q q hQ (by rw [← hq]; congr 1; omega)
      · intro h
        refine ⟨h 0 P pt (by simp) (by simpa using hpt), ?_⟩
        intro j Q q hQ hq
        exact h (j + 1) Q q (by simpa using hQ) (by rw [← hq]; congr 1; omega)

/-- C1: with as many observations as projection matrices, `EncodeTriangulation` yields rows
`A * X <= C` that a point `X = (X0, X1, X2)` satisfies exactly when in every view
`(x, y, z) = R * X + t` has `z >= 0`, `|x - u * z| <= gamma * z` and `|y - v * z| <= gamma * z`;
and for a point of positive depth in every view, exactly when both reprojection errors
`|x / z - u|` and `|y / z - v|` are at most `gamma` in every view. -/
theorem encodeTriangulation_feasible_iff (Pi : List (Mat34 K)) (x_ij : Mat2X K)
    (gamma X0 X1 X2 : K) (hN : x_ij.length = Pi.length) :
    ∃ A C, EncodeTriangulation Pi x_ij gamma = some (A, C) ∧
      (Feasible A C [X0, X1, X2] ↔
        ∀ (i : Nat) (P : Mat34 K) (pt : K × K), Pi[i]? = some P → x_ij[i]? = some pt → ViewBound P pt gamma X0 X1 X2) ∧
      ((∀ P ∈ Pi, 0 < camCoord P X0 X1 X2 2) →
        (Feasible A C [X0, X1, X2] ↔
          ∀ (i : Nat) (P : Mat34 K) (pt : K × K), Pi[i]? = some P → x_ij[i]? = some pt →
            ReprojBound P pt gamma X0 X1 X2)) := by
  obtain ⟨A, C, hAC, _, _, _, hiff⟩ :=
    encodeLoop_spec x_ij gamma X0 X1 X2 Pi 0 (by omega)
  simp only [Nat.zero_add] at hiff
  refine ⟨{ rows := 5 * Pi.length, cols := 3, data := A }, C, ?_, hiff, ?_⟩
  · simp only [EncodeTriangulation, hAC]
  · intro hz
    unfold Feasible
    rw [hiff]
    constructor
    · intro h i P pt hP hpt
      exact (viewBound_iff_reproj P pt gamma X0 X1 X2
        (hz P (List.getElem?_mem hP))).1 (h i P pt hP hpt)
    · intro h i P pt hP hpt
      exact (viewBound_iff_reproj P pt gamma X0 X1 X2
        (hz P (List.getElem?_mem hP))).2 (h i P pt hP hpt)

/-- Witness for C1: one view `[I | 0]` observing `(0, 0)` with bound `1`. -/
theorem encodeTriangulation_feasible_iff_witness :
    ([(0, 0)] : Mat2X ℚ).length = [(fun i j => if i.val = j.val then 1 else 0 : Mat34 ℚ)].length ∧
    ∃ A C, EncodeTriangulation [(fun i j => if i.val = j.val then 1 else 0 : Mat34 ℚ)]
        [(0, 0)] 1 = some (A, C) ∧
      (Feasible A C [0, 0, 1] ↔
        ∀ (i : Nat) (P : Mat34 ℚ) (pt : ℚ × ℚ),
          [(fun i j => if i.val = j.val then 1 else 0 : Mat34 ℚ)][i]? = some P →
          ([(0, 0)] : Mat2X ℚ)[i]? = some pt → ViewBound P pt 1 0 0 1) ∧
      ((∀ P ∈ [(fun i j => if i.val = j.val then 1 else 0 : Mat34 ℚ)],
          0 < camCoord P 0 0 1 2) →
        (Feasible A C [0, 0, 1] ↔
          ∀ (i : Nat) (P : Mat34 ℚ) (pt : ℚ × ℚ),
            [(fun i j => if i.val = j.val then 1 else 0 : Mat34 ℚ)][i]? = some P →
            ([(0, 0)] : Mat2X ℚ)[i]? = some pt → ReprojBound P pt 1 0 0 1)) :=
  ⟨rfl, encodeTriangulation_feasible_iff _ _ 1 0 0 1 rfl⟩

/-- C10: for a builder holding `N` projection matrices and `N` observations, `Build`
returns true and leaves a constraint matrix of `5 * N` rows (each of 3 coefficients) and
3 columns, a right-hand side of `5 * N` entries, `5 * N` relations all `<=`, and
`nbParams = 3`. -/
theorem build_shape (b : Triangulation_L1_ConstraintBuilder K) (gamma : K)
    (c : LPConstraints K) (hN : b._x_ij.length = b._vec_Pi.length) :
    ∃ c1, b.Build gamma c = some (true, c1) ∧
      c1._constraintMat.rows = 5 * b._vec_Pi.length ∧
      c1._constraintMat.cols = 3 ∧
      c1._constraintMat.data.length = 5 * b._vec_Pi.length ∧
      (∀ r ∈ c1._constraintMat.data, r.length = 3) ∧
      c1._Cst_objective.length = 5 * b._vec_Pi.length ∧
      c1._vec_sign = List.replicate (5 * b._vec_Pi.length) eLP_SIGN.LP_LESS_OR_EQUAL ∧
      c1._vec_sign.length = c1._constraintMat.rows ∧
      c1._nbParams = 3 := by
  obtain ⟨A, C, hAC, hA, hC, hcols, _⟩ :=
    encodeLoop_spec b._x_ij gamma 0 0 0 b._vec_Pi 0 (by omega)
  refine ⟨{ c with
      _constraintMat := { rows := 5 * b._vec_Pi.length, cols := 3, data := A }
      _Cst_objective := C
      _nbParams := 3
      _vec_bounds := List.replicate 1 (-(10 ^ 30 : K), (10 ^ 30 : K))
      _vec_sign := List.replicate (5 * b._vec_Pi.length) eLP_SIGN.LP_LESS_OR_EQUAL }, ?_, ?_⟩
  · simp only [Triangulation_L1_ConstraintBuilder.Build, EncodeTriangulation, hAC]
  · exact ⟨rfl, rfl, hA, hcols, hC, rfl, by simp, rfl⟩

/-- Witness for C10: a builder with one view. -/
theorem build_shape_witness :
    ([(0, 0)] : Mat2X ℚ).length = [(fun i j => if i.val = j.val then 1 else 0 : Mat34 ℚ)].length ∧
    ∃ c1, (Triangulation_L1_ConstraintBuilder.mk
        [(fun i j => if i.val = j.val then 1 else 0 : Mat34 ℚ)] [(0, 0)]).Build 1
        ⟨⟨0, 0, []⟩, [], [], [], 0⟩ = some (true, c1) ∧
      c1._constraintMat.rows = 5 * 1 ∧
      c1._constraintMat.cols = 3 ∧
      c1._constraintMat.data.length = 5 * 1 ∧
      (∀ r ∈ c1._constraintMat.data, r.length = 3) ∧
      c1._Cst_objective.length = 5 * 1 ∧
      c1._vec_sign = List.replicate (5 * 1) eLP_SIGN.LP_LESS_OR_EQUAL ∧
      c1._vec_sign.length = c1._constraintMat.rows ∧
      c1._nbParams = 3 :=
  ⟨rfl, build_shape (Triangulation_L1_ConstraintBuilder.mk
    [(fun i j => if i.val = j.val then 1 else 0 : Mat34 ℚ)] [(0, 0)]) 1
    ⟨⟨0, 0, []⟩, [], [], [], 0⟩ rfl⟩

end

/-! ## Theorems: image pair list I/O -/

theorem targetLoop_eq (w I : Nat) : ∀ (toks : List (List Char)) (J : Nat) (S : PairSet),
    targetLoop w I J toks S =
      (decide (I ∉ readTargets J toks),
        S ∪ (((readTargets J toks).takeWhile (fun J1 => decide (J1 ≠ I))).map
          (pairToInsert w I)).toFinset) := by
  intro toks
  induction toks with
  | nil => intro J S; simp [targetLoop, readTargets]
  | cons tok toks ih =>
    intro J S
    by_cases h : I = extractSizeT J tok
    · simp [targetLoop, readTargets, h]
    · have h2 : extractSizeT J tok ≠ I := fun e => h e.symm
      simp only [targetLoop, readTargets, h, if_false, ih, List.mem_cons, not_or]
      rw [List.takeWhile_cons_of_pos (by simpa using h2)]
      simp only [List.map_cons, List.toFinset_cons, Finset.insert_eq]
      congr 1
      · simp [h]
      · ext p; simp only [Finset.mem_union, Finset.mem_singleton]; tauto

theorem isSep_isSpace {c : Char} (h : isSep c = true) : isSpace c = true := by
  simp only [isSep, Bool.or_eq_true, beq_iff_eq] at h
  rcases h with h | h <;> rw [h] <;> decide

theorem trim_head {s : List Char} {c : Char} {cs : List Char} (h : trim s = c :: cs) :
    isSpace c = false := by
  have hp : trim s <+: s.dropWhile isSpace := List.rdropWhile_prefix isSpace _
  obtain ⟨t, ht⟩ := hp
  rw [h] at ht
  have hne : s.dropWhile isSpace ≠ [] := by rw [← ht]; simp
  have hnot := List.head_dropWhile_not isSpace s hne
  have hhead : (s.dropWhile isSpace).head hne = c := by
    simp only [← ht, List.cons_append, List.head_cons]
  rw [hhead] at hnot
  simpa using hnot

theorem splitFrom_head (c : Char) (cs : List Char) (hc : isSep c = false) :
    ∃ t ts, splitFrom false (c :: cs) = (c :: t) :: ts := by
  cases h : splitFrom false cs with
  | nil => exact ⟨[], [], by simp [splitFrom, hc, h]⟩
  | cons t ts => exact ⟨t, ts, by simp [splitFrom, hc, h]⟩

theorem extractSizeT_prev (p q : Nat) (tok : List Char)
    (h : tok.dropWhile isSpace ≠ []) : extractSizeT p tok = extractSizeT q tok := by
  unfold extractSizeT
  have : (tok.dropWhile isSpace).isEmpty = false := by
    cases hd : tok.dropWhile isSpace with
    | nil => exact absurd hd h
    | cons a l => rfl
  simp only [this, Bool.false_eq_true, if_false]

theorem extractSizeT_blank (p : Nat) (tok : List Char) (h : ∀ c ∈ tok, isSpace c = true) :
    extractSizeT p tok = p := by
  unfold extractSizeT
  rw [List.dropWhile_eq_nil_iff.2 h]
  rfl

/-- The first token of a line of at least 2 tokens is read whatever `I` held before. -/
theorem head_token_reads (line : List Char) (hu : ¬ UnderSpecified line) (p : Nat) :
    extractSizeT p (tokens line).headI = fromIndex line := by
  unfold fromIndex
  apply extractSizeT_prev
  unfold UnderSpecified tokens split at hu
  unfold tokens split
  cases ht : trim line with
  | nil => rw [ht] at hu; exact absurd (by decide) hu
  | cons c cs =>
    have hc := trim_head ht
    have hsep : isSep c = false := by
      cases hs : isSep c with
      | false => rfl
      | true => rw [isSep_isSpace hs] at hc; exact absurd hc (by decide)
    obtain ⟨t, ts, e⟩ := splitFrom_head c cs hsep
    rw [e]
    simp [List.headI, hc]

theorem lineLoop_step (w : Nat) (rs rz : Int) (uninit : Nat → Nat × Nat) (l : List Char)
    (rest : List (List Char)) (n : Nat) (S : PairSet)
    (h1 : ¬ (rs ≠ -1 ∧ rz ≠ 0 ∧ n < toSizeT rs))
    (h2 : ¬ (rs ≠ -1 ∧ rz ≠ 0 ∧ toSizeT (rs + rz) ≤ n)) :
    lineLoop w rs rz uninit (l :: rest) n S =
      if UnderSpecified l then (false, S)
      else if SelfPair (uninit 0).2 l then
        (false, S ∪ (pairsBeforeError w (uninit 0).2 l).toFinset)
      else lineLoop w rs rz (fun k => uninit (k + 1)) rest (n + 1)
        (S ∪ (linePairs w (uninit 0).2 l).toFinset) := by
  rw [lineLoop]
  simp only [h1, h2, if_false]
  by_cases hu : UnderSpecified l
  · have hu2 := hu
    unfold UnderSpecified tokens at hu2
    simp [hu, hu2]
  · have hu2 := hu
    unfold UnderSpecified tokens at hu2
    have hI := head_token_reads l hu (uninit 0).1
    unfold tokens at hI
    simp only [hu, hu2, if_false, hI, targetLoop_eq]
    by_cases hs : SelfPair (uninit 0).2 l
    · have hs2 := hs
      unfold SelfPair targetIndices tokens at hs2
      simp only [hs, hs2, if_true, not_true, decide_False, pairsBeforeError, hu, if_false,
        targetIndices, tokens]
    · have hs2 := hs
      unfold SelfPair targetIndices tokens at hs2
      have htw : ((readTargets (uninit 0).2 (split (trim l)).tail).takeWhile
          (fun J => decide (J ≠ fromIndex l))) =
          readTargets (uninit 0).2 (split (trim l)).tail := by
        rw [List.takeWhile_eq_self_iff]
        intro J hJ
        simp only [decide_eq_true_eq]
        rintro rfl
        exact hs2 hJ
      simp only [hs, hs2, if_false, not_false_eq_true, decide_True, htw, linePairs,
        targetIndices, tokens]

theorem lineLoop_whole_cons (w : Nat) (rs rz : Int) (h : rs = -1 ∨ rz = 0)
    (uninit : Nat → Nat × Nat) (l : List Char) (rest : List (List Char)) (n : Nat)
    (S : PairSet) :
    lineLoop w rs rz uninit (l :: rest) n S =
      if UnderSpecified l then (false, S)
      else if SelfPair (uninit 0).2 l then
        (false, S ∪ (pairsBeforeError w (uninit 0).2 l).toFinset)
      else lineLoop w rs rz (fun k => uninit (k + 1)) rest (n + 1)
        (S ∪ (linePairs w (uninit 0).2 l).toFinset) := by
  apply lineLoop_step
  · rintro ⟨a, b, _⟩; rcases h with h | h <;> contradiction
  · rintro ⟨a, b, _⟩; rcases h with h | h <;> contradiction

theorem withUninit_mem (l : List Char) : ∀ (lines : List (List Char)) (uninit : Nat → Nat × Nat),
    l ∈ lines → ∃ j, (j, l) ∈ withUninit uninit lines := by
  intro lines
  induction lines with
  | nil => intro _ h; simp at h
  | cons a rest ih =>
    intro uninit h
    rcases List.mem_cons.1 h with e | e
    · exact ⟨(uninit 0).2, by simp [withUninit, e]⟩
    · obtain ⟨j, hj⟩ := ih (fun k => uninit (k + 1)) e
      exact ⟨j, by simp [withUninit, hj]⟩

theorem withUninit_line_mem : ∀ (lines : List (List Char)) (uninit : Nat → Nat × Nat)
    (jl : Nat × List Char), jl ∈ withUninit uninit lines → jl.2 ∈ lines := by
  intro lines
  induction lines with
  | nil => intro _ jl h; simp [withUninit] at h
  | cons a rest ih =>
    intro uninit jl h
    simp only [withUninit, List.mem_cons] at h
    rcases h with e | e
    · rw [e]; simp
    · exact List.mem_cons_of_mem _ (ih _ jl e)

theorem lineLoop_wellFormed (w : Nat) (rs rz : Int) (h : rs = -1 ∨ rz = 0) :
    ∀ (lines : List (List Char)) (uninit : Nat → Nat × Nat) (n : Nat) (S : PairSet),
      (∀ jl ∈ withUninit uninit lines, WellFormed jl.1 jl.2) →
      lineLoop w rs rz uninit lines n S =
        (true, S ∪ ((withUninit uninit lines).flatMap fun jl => linePairs w jl.1 jl.2).toFinset) := by
  intro lines
  induction lines with
  | nil => intro uninit n S _; simp [lineLoop, withUninit]
  | cons l rest ih =>
    intro uninit n S hwf
    have hl : WellFormed (uninit 0).2 l := hwf ((uninit 0).2, l) (by simp [withUninit])
    rw [lineLoop_whole_cons w rs rz h, if_neg hl.1, if_neg hl.2,
      ih _ _ _ (fun jl h1 => hwf jl (by simp [withUninit, h1]))]
    simp [withUninit, List.flatMap_cons, List.toFinset_append, Finset.union_assoc]

theorem lineLoop_fail (w : Nat) (rs rz : Int) (h : rs = -1 ∨ rz = 0) :
    ∀ (pre : List (List Char)) (uninit : Nat → Nat × Nat) (bad : List Char)
      (post : List (List Char)) (n : Nat) (S : PairSet),
      (∀ jl ∈ withUninit uninit pre, WellFormed jl.1 jl.2) →
      ¬ WellFormed (uninit pre.length).2 bad →
      lineLoop w rs rz uninit (pre ++ bad :: post) n S =
        (false, S ∪ ((withUninit uninit pre).flatMap fun jl => linePairs w jl.1 jl.2).toFinset ∪
          (pairsBeforeError w (uninit pre.length).2 bad).toFinset) := by
  intro pre
  induction pre with
  | nil =>
    intro uninit bad post n S _ hbad
    rw [List.nil_append, lineLoop_whole_cons w rs rz h]
    simp only [List.length_nil] at hbad ⊢
    by_cases hu : UnderSpecified bad
    · simp [hu, pairsBeforeError, withUninit]
    · have hs : SelfPair (uninit 0).2 bad := by
        by_contra hs; exact hbad ⟨hu, hs⟩
      simp [hu, hs, withUninit]
  | cons l rest ih =>
    intro uninit bad post n S hwf hbad
    have hl : WellFormed (uninit 0).2 l := hwf ((uninit 0).2, l) (by simp [withUninit])
    rw [List.cons_append, lineLoop_whole_cons w rs rz h, if_neg hl.1, if_neg hl.2,
      ih (fun k => uninit (k + 1)) bad post _ _
        (fun jl h1 => hwf jl (by simp [withUninit, h1])) hbad]
    simp [withUninit, List.flatMap_cons, List.toFinset_append, Finset.union_assoc]

theorem exists_first_bad : ∀ (lines : List (List Char)) (uninit : Nat → Nat × Nat),
    (∃ jl ∈ withUninit uninit lines, ¬ WellFormed jl.1 jl.2) →
    ∃ pre bad post, lines = pre ++ bad :: post ∧
      (∀ jl ∈ withUninit uninit pre, WellFormed jl.1 jl.2) ∧
      ¬ WellFormed (uninit pre.length).2 bad := by
  intro lines
  induction lines with
  | nil => rintro uninit ⟨jl, hjl, _⟩; simp [withUninit] at hjl
  | cons l rest ih =>
    rintro uninit ⟨jl, hjl, hbad⟩
    by_cases hl : WellFormed (uninit 0).2 l
    · have : ∃ jl2 ∈ withUninit (fun k => uninit (k + 1)) rest, ¬ WellFormed jl2.1 jl2.2 := by
        simp only [withUninit, List.mem_cons] at hjl
        rcases hjl with e | e
        · rw [e] at hbad; exact absurd hl hbad
        · exact ⟨jl, e, hbad⟩
      obtain ⟨pre, bad, post, e, hpre, hb⟩ := ih _ this
      refine ⟨l :: pre, bad, post, by simp [e], ?_, hb⟩
      intro jl2 hjl2
      simp only [withUninit, List.mem_cons] at hjl2
      rcases hjl2 with e2 | e2
      · rw [e2]; exact hl
      · exact hpre jl2 e2
    · exact ⟨[], l, rest, rfl, by simp [withUninit], hl⟩

theorem lineLoop_bad_false (w : Nat) (rs rz : Int) (h : rs = -1 ∨ rz = 0)
    (lines : List (List Char)) (uninit : Nat → Nat × Nat) (n : Nat) (S : PairSet)
    (hb : ∃ jl ∈ withUninit uninit lines, ¬ WellFormed jl.1 jl.2) :
    (lineLoop w rs rz uninit lines n S).1 = false := by
  obtain ⟨pre, bad, post, e, hpre, hbad⟩ := exists_first_bad lines uninit hb
  rw [e, lineLoop_fail w rs rz h pre uninit bad post n S hpre hbad]

theorem digitChar_isDigit : ∀ m : Fin 10,
    (Nat.digitChar m.val).isDigit = true ∧ digitVal (Nat.digitChar m.val) = m.val := by
  decide

theorem toDigitsCore_numeral : ∀ (fuel n : Nat) (tl : List Char), n < fuel →
    ∃ ds, Nat.toDigitsCore 10 fuel n tl = ds ++ tl ∧ IsNumeral ds ∧
      ds.foldl (fun a c => 10 * a + digitVal c) 0 = n := by
  intro fuel
  induction fuel with
  | zero => intro n tl h; omega
  | succ fuel ih =>
    intro n tl hn
    set d := Nat.digitChar (n % 10) with hdef
    have hd : d.isDigit = true ∧ digitVal d = n % 10 :=
      digitChar_isDigit ⟨n % 10, Nat.mod_lt n (by decide)⟩
    by_cases h0 : n / 10 = 0
    · refine ⟨[d], ?_, ⟨by simp, ?_⟩, ?_⟩
      · simp [Nat.toDigitsCore, h0, hdef]
      · intro c hc; rw [List.mem_singleton.1 hc]; exact hd.1
      · simp only [List.foldl_cons, List.foldl_nil, hd.2]; omega
    · have hlt : n / 10 < fuel := by omega
      rcases ih (n / 10) (d :: tl) hlt with ⟨hi, hhi, hnum, hval⟩
      refine ⟨hi ++ [d], ?_, ⟨by simp, ?_⟩, ?_⟩
      · simp [Nat.toDigitsCore, h0, ← hdef, hhi]
      · intro c hc
        rcases List.mem_append.1 hc with h | h
        · exact hnum.2 c h
        · rw [List.mem_singleton.1 h]; exact hd.1
      · simp only [List.foldl_append, List.foldl_cons, List.foldl_nil, hval, hd.2]; omega

theorem decimal_numeral (n : Nat) :
    IsNumeral (decimal n) ∧ (decimal n).foldl (fun a c => 10 * a + digitVal c) 0 = n := by
  obtain ⟨ds, hds, hnum, hval⟩ := toDigitsCore_numeral (n + 1) n [] (by omega)
  have : decimal n = ds := by
    simp [decimal, Nat.repr, Nat.toDigits, hds, List.asString]
  rw [this]; exact ⟨hnum, hval⟩

theorem isDigit_not_space {c : Char} (h : c.isDigit = true) :
    isSpace c = false ∧ isSep c = false ∧ c ≠ '-' ∧ c ≠ '+' ∧ c ≠ '\n' := by
  have h1 : 48 ≤ c.val.toNat ∧ c.val.toNat ≤ 57 := by
    simp only [Char.isDigit, Bool.and_eq_true, decide_eq_true_eq] at h
    exact ⟨h.1, h.2⟩
  have key : ∀ d : Char, (d.val.toNat < 48 ∨ 57 < d.val.toNat) → c ≠ d := by
    rintro d hd rfl; omega
  have e1 := key ' ' (by decide)
  have e2 := key '\t' (by decide)
  have e3 := key '\n' (by decide)
  have e4 := key (Char.ofNat 11) (by decide)
  have e5 := key (Char.ofNat 12) (by decide)
  have e6 := key '\r' (by decide)
  have e7 := key '-' (by decide)
  have e8 := key '+' (by decide)
  refine ⟨?_, ?_, e7, e8, e3⟩
  · simp [isSpace, e1, e2, e3, e4, e5, e6]
  · simp [isSep, e1, e2]

theorem extractSizeT_numeral_prefix {ds : List Char} (h : IsNumeral ds) (rest : List Char)
    (hrest : ∀ c ∈ rest.head?, c.isDigit = false)
    (hv : ds.foldl (fun a c => 10 * a + digitVal c) 0 < 2 ^ 64) (p : Nat) :
    extractSizeT p (ds ++ rest) = ds.foldl (fun a c => 10 * a + digitVal c) 0 := by
  obtain ⟨hne, hdig⟩ := h
  have hrt : rest.takeWhile Char.isDigit = [] := by
    cases rest with
    | nil => rfl
    | cons a r =>
      have := hrest a (by simp)
      simp [List.takeWhile_cons, this]
  have htw : List.takeWhile Char.isDigit (ds ++ rest) = ds := by
    rw [List.takeWhile_append_of_pos hdig, hrt, List.append_nil]
  obtain ⟨c, cs, rfl⟩ := List.exists_cons_of_ne_nil hne
  have hc := isDigit_not_space (hdig c (List.mem_cons_self _ _))
  have hdw : List.dropWhile isSpace (c :: cs ++ rest) = c :: cs ++ rest := by
    rw [List.cons_append, List.dropWhile_cons_of_neg (by simp [hc.1])]
  unfold extractSizeT
  simp only [hdw]
  simp only [List.cons_append, List.isEmpty_cons, Bool.false_eq_true, if_false,
    List.head?_cons]
  have hm : (some c == some '-') = false := by simpa using hc.2.2.1
  have hp : (some c == some '+') = false := by simpa using hc.2.2.2.1
  simp only [hm, hp, Bool.or_false, Bool.false_eq_true, if_false]
  rw [← List.cons_append, htw]
  simp only [List.isEmpty_cons, Bool.false_eq_true, if_false]
  rw [if_neg (by omega)]

theorem extractSizeT_numeral {ds : List Char} (h : IsNumeral ds)
    (hv : ds.foldl (fun a c => 10 * a + digitVal c) 0 < 2 ^ 64) (p : Nat) :
    extractSizeT p ds = ds.foldl (fun a c => 10 * a + digitVal c) 0 := by
  have := extractSizeT_numeral_prefix h [] (by simp) hv p
  rwa [List.append_nil] at this

theorem extractSizeT_decimal {n : Nat} (h : n < 2 ^ 64) (p : Nat) :
    extractSizeT p (decimal n) = n := by
  have := decimal_numeral n
  rw [extractSizeT_numeral this.1 (by rw [this.2]; exact h), this.2]

theorem getLines_line_cons (l rest : List Char) (h : '\n' ∉ l) :
    getLines (l ++ '\n' :: rest) = l :: getLines rest := by
  induction l with
  | nil => simp [getLines]
  | cons c l ih =>
    have hc : c ≠ '\n' := fun e => h (by simp [e])
    have hl : '\n' ∉ l := fun e => h (List.mem_cons_of_mem _ e)
    simp [getLines, hc, ih hl]

theorem getLines_single (l : List Char) (h : '\n' ∉ l) (hne : l ≠ []) :
    getLines l = [l] := by
  induction l with
  | nil => exact absurd rfl hne
  | cons c l ih =>
    have hc : c ≠ '\n' := fun e => h (by simp [e])
    have hl : '\n' ∉ l := fun e => h (List.mem_cons_of_mem _ e)
    by_cases hnil : l = []
    · subst hnil; simp [getLines, hc]
    · simp [getLines, hc, ih hl hnil]

theorem getLines_fileOf (b : Bool) : ∀ (lines : List (List Char)),
    (∀ l ∈ lines, '\n' ∉ l ∧ l ≠ []) → getLines (fileOf b lines) = lines := by
  intro lines
  induction lines with
  | nil => intro _; rfl
  | cons l ls ih =>
    intro h
    have hl := h l (List.mem_cons_self _ _)
    have hls := ih (fun l1 h1 => h l1 (List.mem_cons_of_mem _ h1))
    cases ls with
    | nil =>
      cases b
      · simp [fileOf, getLines_single l hl.1 hl.2]
      · simp [fileOf, getLines_line_cons l [] hl.1, getLines]
    | cons l2 ls2 =>
      rw [fileOf, getLines_line_cons l _ hl.1, hls]
      simp

theorem dropWhile_all_append {p : Char → Bool} (l1 l2 : List Char)
    (h : ∀ c ∈ l1, p c = true) : (l1 ++ l2).dropWhile p = l2.dropWhile p := by
  induction l1 with
  | nil => rfl
  | cons c l ih =>
    rw [List.cons_append, List.dropWhile_cons_of_pos (h c (List.mem_cons_self _ _))]
    exact ih (fun c1 h1 => h c1 (List.mem_cons_of_mem _ h1))

theorem trim_padded (lead core trail : List Char) (c1 : Char) (cs : List Char) (c2 : Char)
    (init : List Char) (hl : ∀ c ∈ lead, isSpace c = true) (ht : ∀ c ∈ trail, isSpace c = true)
    (h1 : core = c1 :: cs) (hc1 : isSpace c1 = false)
    (h2 : core = init ++ [c2]) (hc2 : isSpace c2 = false) :
    trim (lead ++ core ++ trail) = core := by
  unfold trim
  rw [List.append_assoc, dropWhile_all_append lead _ hl]
  have e1 : (core ++ trail).dropWhile isSpace = core ++ trail := by
    rw [h1, List.cons_append, List.dropWhile_cons_of_neg (by simp [hc1])]
  rw [e1, List.reverse_append, dropWhile_all_append trail.reverse _
    (fun c hc => ht c (List.mem_reverse.1 hc))]
  have e2 : core.reverse.dropWhile isSpace = core.reverse := by
    rw [h2, List.reverse_append, List.reverse_singleton, List.singleton_append,
      List.dropWhile_cons_of_neg (by simp [hc2])]
  rw [e2, List.reverse_reverse]

theorem splitFrom_token (tok rest t : List Char) (ts : List (List Char))
    (htok : ∀ c ∈ tok, isSep c = false) (hrest : splitFrom false rest = t :: ts) :
    splitFrom false (tok ++ rest) = (tok ++ t) :: ts := by
  induction tok with
  | nil => simpa using hrest
  | cons c tok ih =>
    have hc := htok c (List.mem_cons_self _ _)
    have := ih (fun c1 h1 => htok c1 (List.mem_cons_of_mem _ h1))
    simp [splitFrom, hc, this]

theorem splitFrom_true_seps (seps rest : List Char) (h : ∀ c ∈ seps, isSep c = true) :
    splitFrom true (seps ++ rest) = splitFrom true rest := by
  induction seps with
  | nil => rfl
  | cons c seps ih =>
    have hc := h c (List.mem_cons_self _ _)
    simp [splitFrom, hc, ih (fun c1 h1 => h c1 (List.mem_cons_of_mem _ h1))]

theorem splitFrom_true_nonsep (c : Char) (cs : List Char) (h : isSep c = false) :
    splitFrom true (c :: cs) = splitFrom false (c :: cs) := by
  simp [splitFrom, h]

theorem splitFrom_seps_token (seps : List Char) (c : Char) (cs : List Char)
    (hne : seps ≠ []) (h : ∀ c ∈ seps, isSep c = true) (hc : isSep c = false) :
    splitFrom false (seps ++ c :: cs) = [] :: splitFrom false (c :: cs) := by
  obtain ⟨s, seps1, rfl⟩ := List.exists_cons_of_ne_nil hne
  have hs := h s (List.mem_cons_self _ _)
  rw [List.cons_append, splitFrom]
  simp only [hs, if_true, Bool.false_eq_true, if_false]
  rw [splitFrom_true_seps seps1 _ (fun c1 h1 => h c1 (List.mem_cons_of_mem _ h1)),
    splitFrom_true_nonsep c cs hc]

theorem isPad_spec {c : Char} (h : isPad c = true) : isSpace c = true ∧ c ≠ '\n' := by
  simpa [isPad] using h

theorem isSep_ne_newline {c : Char} (h : isSep c = true) : c ≠ '\n' := by
  rintro rfl; exact absurd h (by decide)

theorem split_numerals : ∀ (targets : List (List Char × Nat)) (tok : List Char),
    (∀ c ∈ tok, isSep c = false) →
    (∀ st ∈ targets, st.1 ≠ [] ∧ ∀ c ∈ st.1, isSep c = true) →
    splitFrom false (tok ++ targets.flatMap fun st => st.1 ++ decimal st.2) =
      tok :: targets.map fun st => decimal st.2 := by
  intro targets
  induction targets with
  | nil =>
    intro tok htok _
    simpa using splitFrom_token tok [] [] [] htok rfl
  | cons st rest ih =>
    intro tok htok hv
    have hst := hv st (List.mem_cons_self _ _)
    have hnum := (decimal_numeral st.2).1
    obtain ⟨c, cs, hcs⟩ := List.exists_cons_of_ne_nil hnum.1
    have hdsep : ∀ c ∈ decimal st.2, isSep c = false :=
      fun c hc => (isDigit_not_space (hnum.2 c hc)).2.1
    have hrec := ih (decimal st.2) hdsep (fun s hs => hv s (List.mem_cons_of_mem _ hs))
    have hc : isSep c = false := hdsep c (by rw [hcs]; exact List.mem_cons_self _ _)
    have e : splitFrom false (st.1 ++ (decimal st.2 ++
        rest.flatMap fun st => st.1 ++ decimal st.2)) =
        [] :: decimal st.2 :: rest.map fun st => decimal st.2 := by
      rw [← hrec, hcs, List.cons_append]
      exact splitFrom_seps_token st.1 c _ hst.1 hst.2 hc
    have := splitFrom_token tok _ [] _ htok e
    simpa [List.flatMap_cons, List.append_assoc] using this

theorem numerals_end : ∀ (targets : List (List Char × Nat)) (tok : List Char),
    IsNumeral tok →
    ∃ init c2, (tok ++ targets.flatMap fun st => st.1 ++ decimal st.2) = init ++ [c2] ∧
      isSpace c2 = false := by
  intro targets
  induction targets with
  | nil =>
    intro tok htok
    refine ⟨tok.dropLast, tok.getLast htok.1, ?_, ?_⟩
    · simp [List.dropLast_append_getLast]
    · exact (isDigit_not_space (htok.2 _ (List.getLast_mem htok.1))).1
  | cons st rest ih =>
    intro tok _
    obtain ⟨init, c2, e, hc2⟩ := ih (decimal st.2) (decimal_numeral st.2).1
    refine ⟨tok ++ st.1 ++ init, c2, ?_, hc2⟩
    simp only [List.flatMap_cons, List.append_assoc]
    rw [e]

theorem tokens_render (w : Nat) (r : RecordLine) (hr : r.Valid w) :
    tokens r.render = decimal r.src :: r.targets.map fun st => decimal st.2 := by
  obtain ⟨hlead, htrail, _, _, htg⟩ := hr
  have hnum := (decimal_numeral r.src).1
  obtain ⟨c1, cs, hcs⟩ := List.exists_cons_of_ne_nil hnum.1
  have hc1 := (isDigit_not_space (hnum.2 c1 (by rw [hcs]; exact List.mem_cons_self _ _))).1
  obtain ⟨init, c2, e, hc2⟩ := numerals_end r.targets (decimal r.src) hnum
  have htrim : trim r.render =
      decimal r.src ++ r.targets.flatMap fun st => st.1 ++ decimal st.2 := by
    unfold RecordLine.render
    rw [List.append_assoc r.lead]
    exact trim_padded r.lead _ r.trail c1
      (cs ++ r.targets.flatMap fun st => st.1 ++ decimal st.2) c2 init
      (fun c hc => (isPad_spec (hlead c hc)).1) (fun c hc => (isPad_spec (htrail c hc)).1)
      (by rw [hcs]; rfl) hc1 e hc2
  unfold tokens split
  rw [htrim]
  exact split_numerals r.targets (decimal r.src)
    (fun c hc => (isDigit_not_space (hnum.2 c hc)).2.1)
    (fun st hst => ⟨(htg st hst).1, (htg st hst).2.1⟩)

theorem render_no_newline (w : Nat) (r : RecordLine) (hr : r.Valid w) :
    '\n' ∉ r.render ∧ r.render ≠ [] := by
  obtain ⟨hlead, htrail, _, _, htg⟩ := hr
  have hdec : ∀ n, '\n' ∉ decimal n := fun n hmem =>
    (isDigit_not_space ((decimal_numeral n).1.2 _ hmem)).2.2.2.2 rfl
  constructor
  · unfold RecordLine.render
    simp only [List.mem_append, List.mem_flatMap, not_or, not_exists, not_and]
    refine ⟨⟨⟨fun h => (isPad_spec (hlead _ h)).2 rfl, hdec _⟩, ?_⟩,
      fun h => (isPad_spec (htrail _ h)).2 rfl⟩
    intro st hst
    exact ⟨fun h => isSep_ne_newline ((htg st hst).2.1 _ h) rfl, hdec _⟩
  · unfold RecordLine.render
    have := (decimal_numeral r.src).1.1
    simp [this]

theorem pairToInsert_normPair {w I J : Nat} (hI : I < 2 ^ w) (hJ : J < 2 ^ w) :
    pairToInsert w I J = normPair I J := by
  unfold pairToInsert normPair toPair
  by_cases h : I < J
  · simp only [h, if_true, Nat.mod_eq_of_lt hI, Nat.mod_eq_of_lt hJ]
    exact Prod.ext (by simp only [Nat.min_def]; split <;> omega)
      (by simp only [Nat.max_def]; split <;> omega)
  · simp only [h, if_false, Nat.mod_eq_of_lt hI, Nat.mod_eq_of_lt hJ]
    exact Prod.ext (by simp only [Nat.min_def]; split <;> omega)
      (by simp only [Nat.max_def]; split <;> omega)

theorem readTargets_decimal : ∀ (targets : List (List Char × Nat)) (j : Nat),
    (∀ st ∈ targets, st.2 < 2 ^ 64) →
    readTargets j (targets.map fun st => decimal st.2) = targets.map fun st => st.2 := by
  intro targets
  induction targets with
  | nil => intro j _; rfl
  | cons st rest ih =>
    intro j h
    have e := extractSizeT_decimal (h st (List.mem_cons_self _ _)) j
    simp only [List.map_cons, readTargets, e]
    rw [ih _ (fun s hs => h s (List.mem_cons_of_mem _ hs))]

theorem record_indices (w : Nat) (hw : w ≤ 64) (r : RecordLine) (hr : r.Valid w) (j : Nat) :
    fromIndex r.render = r.src ∧ (targetIndices j r.render = r.targets.map fun st => st.2) ∧
      WellFormed j r.render := by
  have htok := tokens_render w r hr
  obtain ⟨_, _, hsrc, hne, htg⟩ := hr
  have hpow : (2 : Nat) ^ w ≤ 2 ^ 64 := Nat.pow_le_pow_right (by decide) hw
  have hfrom : fromIndex r.render = r.src := by
    unfold fromIndex
    rw [htok]
    exact extractSizeT_decimal (by omega) 0
  have htargets : targetIndices j r.render = r.targets.map fun st => st.2 := by
    unfold targetIndices
    rw [htok, List.tail_cons]
    exact readTargets_decimal r.targets j
      (fun st hst => by have := (htg st hst).2.2.2; omega)
  refine ⟨hfrom, htargets, ?_, ?_⟩
  · unfold UnderSpecified
    rw [htok]
    obtain ⟨st, rest, e⟩ := List.exists_cons_of_ne_nil hne
    simp [e]
  · unfold SelfPair
    rw [hfrom, htargets]
    simp only [List.mem_map, not_exists, not_and]
    intro st hst e
    exact (htg st hst).2.2.1 e

theorem record_line_facts (w : Nat) (hw : w ≤ 64) (r : RecordLine) (hr : r.Valid w) (j : Nat) :
    WellFormed j r.render ∧ linePairs w j r.render = r.pairs := by
  obtain ⟨hfrom, htargets, hwf⟩ := record_indices w hw r hr j
  obtain ⟨_, _, hsrc, hne, htg⟩ := hr
  refine ⟨hwf, ?_⟩
  unfold linePairs RecordLine.pairs
  rw [hfrom, htargets, List.map_map]
  apply List.map_congr_left
  intro st hst
  exact pairToInsert_normPair hsrc (htg st hst).2.2.2

theorem record_lines_pairs (w : Nat) (hw : w ≤ 64) : ∀ (records : List RecordLine)
    (uninit : Nat → Nat × Nat), (∀ r ∈ records, r.Valid w) →
    ((withUninit uninit (records.map RecordLine.render)).flatMap fun jl =>
      linePairs w jl.1 jl.2) = records.flatMap RecordLine.pairs := by
  intro records
  induction records with
  | nil => intro _ _; rfl
  | cons r l ih =>
    intro uninit h
    simp only [List.map_cons, withUninit, List.flatMap_cons]
    rw [(record_line_facts w hw r (h r (List.mem_cons_self _ _)) _).2,
      ih _ (fun r1 h1 => h r1 (List.mem_cons_of_mem _ h1))]

/-- Shared core of the record format and round trip results: a file made of valid record
lines loads, over its whole range, to the given set united with the pairs of the records. -/
theorem loadPairs_records (w : Nat) (hw : w ≤ 64) (uninit : Nat → Nat × Nat) (rs rz : Int)
    (hr : rs = -1 ∨ rz = 0) (b : Bool) (records : List RecordLine)
    (hv : ∀ r ∈ records, r.Valid w) (S : PairSet) :
    loadPairs w uninit (some (fileOf b (records.map RecordLine.render))) S rs rz =
      (true, S ∪ (records.flatMap RecordLine.pairs).toFinset) := by
  unfold loadPairs
  simp only
  rw [getLines_fileOf b _ (by
    intro l hl
    obtain ⟨r, hrm, rfl⟩ := List.mem_map.1 hl
    exact render_no_newline w r (hv r hrm))]
  rw [lineLoop_wellFormed w rs rz hr _ uninit 0 S (by
    intro jl hjl
    obtain ⟨r, hrm, e⟩ := List.mem_map.1 (withUninit_line_mem _ _ jl hjl)
    rw [← e]
    exact (record_line_facts w hw r (hv r hrm) jl.1).1), record_lines_pairs w hw records uninit hv]

theorem writeLoop_eq : ∀ (ps : List Pair) (out : List Char),
    writeLoop ps out = out ++ ps.flatMap pairRecord := by
  intro ps
  induction ps with
  | nil => intro out; simp [writeLoop]
  | cons p ps ih => intro out; simp [writeLoop, ih, List.flatMap_cons]

theorem pairRecord_eq (p : Pair) : pairRecord p = (savedRecord p).render ++ ['\n'] := by
  simp [pairRecord, savedRecord, RecordLine.render, decimal, Nat.repr, List.asString]

theorem fileOf_true : ∀ (lines : List (List Char)),
    fileOf true lines = lines.flatMap fun l => l ++ ['\n'] := by
  intro lines
  induction lines with
  | nil => rfl
  | cons l ls ih =>
    cases ls with
    | nil => simp [fileOf]
    | cons l2 ls2 =>
      show l ++ '\n' :: fileOf true (l2 :: ls2) = _
      rw [ih]; simp [List.flatMap_cons]

theorem savePairs_text (pairs : PairSet) :
    (savePairs true pairs).2 = fileOf true ((iterate pairs).map fun p => (savedRecord p).render) := by
  simp only [savePairs, if_true, writeLoop_eq, List.nil_append, fileOf_true, List.flatMap_map]
  congr 1
  funext p
  exact pairRecord_eq p

theorem iterate_eq (pairs : PairSet) :
    ∃ l : List Pair, pairs.val = (l : Multiset Pair) ∧ iterate pairs = l.insertionSort pairLE := by
  rcases pairs with ⟨⟨l⟩, h⟩
  exact ⟨l, rfl, rfl⟩

theorem mem_iterate (pairs : PairSet) (p : Pair) : p ∈ iterate pairs ↔ p ∈ pairs := by
  obtain ⟨l, hl, e⟩ := iterate_eq pairs
  rw [e, (List.perm_insertionSort pairLE l).mem_iff, ← Finset.mem_val, hl, Multiset.mem_coe]

theorem iterate_nodup (pairs : PairSet) : (iterate pairs).Nodup := by
  obtain ⟨l, hl, e⟩ := iterate_eq pairs
  have h := pairs.nodup
  rw [hl, Multiset.coe_nodup] at h
  rw [e]
  exact (List.perm_insertionSort pairLE l).nodup_iff.2 h

theorem iterate_length (pairs : PairSet) : (iterate pairs).length = pairs.card := by
  obtain ⟨l, hl, e⟩ := iterate_eq pairs
  rw [e, (List.perm_insertionSort pairLE l).length_eq, Finset.card, hl, Multiset.coe_card]

theorem iterate_sorted (pairs : PairSet) : (iterate pairs).Pairwise pairLT := by
  have h1 : (iterate pairs).Pairwise pairLE := by
    obtain ⟨l, hl, e⟩ := iterate_eq pairs
    rw [e]
    exact List.sorted_insertionSort pairLE l
  have h2 : (iterate pairs).Pairwise (fun a b => a ≠ b) := iterate_nodup pairs
  refine (h1.and h2).imp ?_
  rintro a b ⟨hle, hne⟩
  unfold pairLE at hle
  unfold pairLT
  rcases hle with h | ⟨h3, h4⟩
  · exact Or.inl h
  · refine Or.inr ⟨h3, lt_of_le_of_ne h4 ?_⟩
    intro e; exact hne (Prod.ext h3 e)

theorem iterate_toFinset (pairs : PairSet) : (iterate pairs).toFinset = pairs := by
  ext p; simp [mem_iterate]

theorem savedRecord_valid (w : Nat) (p : Pair) (h : p.1 < p.2 ∧ p.2 < 2 ^ w) :
    (savedRecord p).Valid w := by
  refine ⟨by simp [savedRecord], by simp [savedRecord], ?_, by simp [savedRecord], ?_⟩
  · simp only [savedRecord]; omega
  · intro st hst
    simp only [savedRecord, List.mem_singleton] at hst
    subst hst
    refine ⟨by simp, ?_, ?_, h.2⟩
    · intro c hc; rw [List.mem_singleton.1 hc]; decide
    · simp only [savedRecord]; omega

/-- C2: pair-list round trip. For a pair set of `w`-bit indices (`w <= 64`) whose pairs all
have first < second, the empty set included, `savePairs` succeeds and `loadPairs`, reading the
written text over its whole range into an empty set, returns true and yields the original
set, whatever the uninitialised variables of the loader hold. -/
theorem loadPairs_savePairs_roundtrip (w : Nat) (hw : w ≤ 64) (uninit : Nat → Nat × Nat)
    (pairs : PairSet) (rs rz : Int) (hr : rs = -1 ∨ rz = 0)
    (h : ∀ p ∈ pairs, p.1 < p.2 ∧ p.2 < 2 ^ w) :
    (savePairs true pairs).1 = true ∧
      loadPairs w uninit (some (savePairs true pairs).2) ∅ rs rz = (true, pairs) := by
  refine ⟨by simp [savePairs], ?_⟩
  have hv : ∀ r ∈ (iterate pairs).map savedRecord, r.Valid w := by
    intro r hrm
    obtain ⟨p, hp, rfl⟩ := List.mem_map.1 hrm
    exact savedRecord_valid w p (h p ((mem_iterate pairs p).1 hp))
  have key := loadPairs_records w hw uninit rs rz hr true ((iterate pairs).map savedRecord) hv ∅
  rw [List.map_map] at key
  rw [savePairs_text]
  refine key.trans ?_
  have hps : ∀ ps : List Pair, (∀ p ∈ ps, p.1 < p.2) →
      (ps.map savedRecord).flatMap RecordLine.pairs = ps := by
    intro ps
    induction ps with
    | nil => intro _; rfl
    | cons p ps ih =>
      intro hlt
      have hp := hlt p (List.mem_cons_self _ _)
      have e : normPair p.1 p.2 = p := by
        unfold normPair
        exact Prod.ext (by simp only [Nat.min_def]; split <;> omega)
          (by simp only [Nat.max_def]; split <;> omega)
      rw [List.map_cons, List.flatMap_cons, ih (fun q hq => hlt q (List.mem_cons_of_mem _ hq))]
      simp [RecordLine.pairs, savedRecord, e]
  rw [hps _ (fun p hp => (h p ((mem_iterate pairs p).1 hp)).1), iterate_toFinset,
    Finset.empty_union]

/-- Witness for C2: the set holding (1, 2) and (3, 10), with 32-bit indices. -/
theorem loadPairs_savePairs_roundtrip_witness :
    (savePairs true {(1, 2), (3, 10)}).1 = true ∧
      loadPairs 32 (fun _ => (7, 7)) (some (savePairs true {(1, 2), (3, 10)}).2) ∅ (-1) 0 =
        (true, {(1, 2), (3, 10)}) :=
  loadPairs_savePairs_roundtrip 32 (by decide) (fun _ => (7, 7)) {(1, 2), (3, 10)} (-1) 0
    (Or.inl rfl) (by decide)

theorem readTargets_mem (tok : List Char) (h : tok.dropWhile isSpace ≠ []) :
    ∀ (toks : List (List Char)) (j : Nat), tok ∈ toks →
      extractSizeT 0 tok ∈ readTargets j toks := by
  intro toks
  induction toks with
  | nil => intro _ hm; simp at hm
  | cons a rest ih =>
    intro j hm
    rcases List.mem_cons.1 hm with e | e
    · subst e
      simp [readTargets, extractSizeT_prev 0 j tok h]
    · simp only [readTargets, List.mem_cons]
      exact Or.inr (ih _ e)

/-- C3: self-pair rejection. Loading a file over its whole range returns false as soon as
some line of it has a target index equal to its from index; such is every line with a target
token, not made of white space only, that reads as the index its first token reads as. -/
theorem loadPairs_selfPair_false (w : Nat) (uninit : Nat → Nat × Nat) (content : List Char)
    (S : PairSet) (rs rz : Int) (hr : rs = -1 ∨ rz = 0) :
    ((∃ jl ∈ withUninit uninit (getLines content), SelfPair jl.1 jl.2) →
      (loadPairs w uninit (some content) S rs rz).1 = false) ∧
    ((∃ l ∈ getLines content, ∃ tok ∈ (tokens l).tail, tok.dropWhile isSpace ≠ [] ∧
        extractSizeT 0 tok = fromIndex l) →
      (loadPairs w uninit (some content) S rs rz).1 = false) := by
  have main : (∃ jl ∈ withUninit uninit (getLines content), SelfPair jl.1 jl.2) →
      (loadPairs w uninit (some content) S rs rz).1 = false := by
    rintro ⟨jl, hjl, hs⟩
    exact lineLoop_bad_false w rs rz hr (getLines content) uninit 0 S
      ⟨jl, hjl, fun hwf => hwf.2 hs⟩
  refine ⟨main, ?_⟩
  rintro ⟨l, hl, tok, htok, hnb, he⟩
  obtain ⟨j, hj⟩ := withUninit_mem l (getLines content) uninit hl
  refine main ⟨(j, l), hj, ?_⟩
  unfold SelfPair targetIndices
  rw [← he]
  exact readTargets_mem tok hnb _ j htok

/-- Witness for C3: a file whose second line is `1 2 1`. -/
theorem loadPairs_selfPair_false_witness :
    (∃ l ∈ getLines "4 5\n1 2 1\n".toList, ∃ tok ∈ (tokens l).tail,
        tok.dropWhile isSpace ≠ [] ∧ extractSizeT 0 tok = fromIndex l) ∧
      (loadPairs 32 (fun _ => (7, 7)) (some "4 5\n1 2 1\n".toList) ∅ (-1) 0).1 = false :=
  ⟨by decide, (loadPairs_selfPair_false 32 (fun _ => (7, 7)) _ ∅ (-1) 0 (Or.inl rfl)).2
    (by decide)⟩

theorem getLines_blank_end : ∀ (content : List Char),
    ∃ ls, ls ≠ [] ∧ getLines (content ++ ['\n', '\n']) = ls ++ [[]] := by
  intro content
  induction content with
  | nil => exact ⟨[[]], by simp, by simp [getLines]⟩
  | cons c cs ih =>
    obtain ⟨ls, hne, e⟩ := ih
    rw [List.cons_append]
    generalize cs ++ ['\n', '\n'] = t at e
    by_cases hc : c = '\n'
    · refine ⟨[] :: ls, by simp, ?_⟩
      simp only [getLines, hc, if_true, e, List.cons_append]
    · obtain ⟨l, ls1, rfl⟩ := List.exists_cons_of_ne_nil hne
      refine ⟨(c :: l) :: ls1, by simp, ?_⟩
      simp only [List.cons_append] at e
      simp only [getLines, hc, if_false, e, List.cons_append]

theorem underSpecified_of_blank (l : List Char) (h : ∀ c ∈ l, isSpace c = true) :
    UnderSpecified l := by
  have : trim l = [] := by
    unfold trim
    rw [List.dropWhile_eq_nil_iff.2 h]
    rfl
  unfold UnderSpecified tokens
  rw [this]
  decide

theorem underSpecified_of_single (l : List Char) (h : ∀ c ∈ trim l, isSep c = false) :
    UnderSpecified l := by
  have := splitFrom_token (trim l) [] [] [] h rfl
  unfold UnderSpecified tokens split
  rw [List.append_nil] at this
  rw [this]
  simp

/-- C4: under-specified line rejection. Loading a file over its whole range returns false
when some line has fewer than 2 tokens after trimming; such are the lines made of white
space only (the empty line included) and the lines whose trimmed text has no space or tab
(a single index), and a file ending in an extra blank line always has one. -/
theorem loadPairs_underSpecified_false (w : Nat) (uninit : Nat → Nat × Nat)
    (content : List Char) (S : PairSet) (rs rz : Int) (hr : rs = -1 ∨ rz = 0) :
    ((∃ l ∈ getLines content, UnderSpecified l) →
      (loadPairs w uninit (some content) S rs rz).1 = false) ∧
    (loadPairs w uninit (some (content ++ ['\n', '\n'])) S rs rz).1 = false ∧
    (∀ l : List Char, (∀ c ∈ l, isSpace c = true) → UnderSpecified l) ∧
    (∀ l : List Char, (∀ c ∈ trim l, isSep c = false) → UnderSpecified l) := by
  have main : ∀ content : List Char, (∃ l ∈ getLines content, UnderSpecified l) →
      (loadPairs w uninit (some content) S rs rz).1 = false := by
    rintro content ⟨l, hl, hu⟩
    obtain ⟨j, hj⟩ := withUninit_mem l (getLines content) uninit hl
    exact lineLoop_bad_false w rs rz hr (getLines content) uninit 0 S
      ⟨(j, l), hj, fun hwf => hwf.1 hu⟩
  refine ⟨main content, ?_, underSpecified_of_blank, underSpecified_of_single⟩
  apply main
  obtain ⟨ls, _, e⟩ := getLines_blank_end content
  exact ⟨[], by rw [e]; simp, underSpecified_of_blank [] (by simp)⟩

/-- Witness for C4: a file whose second line is the single index `7`. -/
theorem loadPairs_underSpecified_false_witness :
    ((∃ l ∈ getLines "1 2\n7\n".toList, UnderSpecified l) →
      (loadPairs 32 (fun _ => (7, 7)) (some "1 2\n7\n".toList) ∅ (-1) 0).1 = false) ∧
    (loadPairs 32 (fun _ => (7, 7)) (some ("1 2\n7\n".toList ++ ['\n', '\n'])) ∅ (-1) 0).1 =
      false ∧
    (∀ l : List Char, (∀ c ∈ l, isSpace c = true) → UnderSpecified l) ∧
    (∀ l : List Char, (∀ c ∈ trim l, isSep c = false) → UnderSpecified l) :=
  loadPairs_underSpecified_false 32 (fun _ => (7, 7)) "1 2\n7\n".toList ∅ (-1) 0 (Or.inl rfl)

/-- C9: writer format. The text `savePairs` writes is the concatenation, over the pairs in
strictly ascending lexicographic order, each pair of the set exactly once, of the decimal
first index, one space, the decimal second index and one newline; it has one line per pair
and is empty for the empty set. -/
theorem savePairs_format (pairs : PairSet) :
    savePairs true pairs =
      (true, (iterate pairs).flatMap fun p => decimal p.1 ++ [' '] ++ decimal p.2 ++ ['\n']) ∧
    (iterate pairs).Pairwise pairLT ∧
    (iterate pairs).Nodup ∧
    (∀ p, p ∈ iterate pairs ↔ p ∈ pairs) ∧
    (∀ n : Nat, IsNumeral (decimal n) ∧
      (decimal n).foldl (fun a c => 10 * a + digitVal c) 0 = n) ∧
    getLines (savePairs true pairs).2 =
      (iterate pairs).map (fun p => decimal p.1 ++ [' '] ++ decimal p.2) ∧
    (getLines (savePairs true pairs).2).length = pairs.card ∧
    (savePairs true ∅).2 = [] := by
  have hlines : getLines (savePairs true pairs).2 =
      (iterate pairs).map (fun p => decimal p.1 ++ [' '] ++ decimal p.2) := by
    rw [savePairs_text]
    have hrender : ∀ p : Pair, (savedRecord p).render = decimal p.1 ++ [' '] ++ decimal p.2 := by
      intro p; simp [savedRecord, RecordLine.render]
    rw [getLines_fileOf]
    · exact List.map_congr_left (fun p _ => hrender p)
    · intro l hl
      obtain ⟨p, _, rfl⟩ := List.mem_map.1 hl
      rw [hrender]
      have hdec : ∀ n, '\n' ∉ decimal n := fun n hmem =>
        (isDigit_not_space ((decimal_numeral n).1.2 _ hmem)).2.2.2.2 rfl
      refine ⟨?_, by simp⟩
      simp only [List.mem_append, List.mem_singleton, not_or]
      exact ⟨⟨hdec _, by decide⟩, hdec _⟩
  refine ⟨?_, iterate_sorted pairs, iterate_nodup pairs, mem_iterate pairs, decimal_numeral,
    hlines, ?_, by decide⟩
  · simp only [savePairs, if_true, writeLoop_eq, List.nil_append]
    congr 2
    funext p
    simp [pairRecord, decimal, Nat.repr, List.asString]
  · rw [hlines, List.length_map, iterate_length]

theorem lineLoop_true_wellFormed (w : Nat) (rs rz : Int) (hr : rs = -1 ∨ rz = 0)
    (lines : List (List Char)) (uninit : Nat → Nat × Nat) (n : Nat) (S : PairSet)
    (h : (lineLoop w rs rz uninit lines n S).1 = true) :
    ∀ jl ∈ withUninit uninit lines, WellFormed jl.1 jl.2 := by
  intro jl hjl
  by_contra hbad
  rw [lineLoop_bad_false w rs rz hr lines uninit n S ⟨jl, hjl, hbad⟩] at h
  exact Bool.false_ne_true h

theorem failed_load_decomposition (w : Nat) (uninit : Nat → Nat × Nat) (content : List Char)
    (S : PairSet) (rs rz : Int) (hr : rs = -1 ∨ rz = 0)
    (hfail : (loadPairs w uninit (some content) S rs rz).1 = false) :
    ∃ pre bad post, getLines content = pre ++ bad :: post ∧
      (∀ jl ∈ withUninit uninit pre, WellFormed jl.1 jl.2) ∧
      (UnderSpecified bad ∨ SelfPair (uninit pre.length).2 bad) ∧
      (loadPairs w uninit (some content) S rs rz).2 =
        S ∪ ((withUninit uninit pre).flatMap fun jl => linePairs w jl.1 jl.2).toFinset ∪
          (pairsBeforeError w (uninit pre.length).2 bad).toFinset := by
  have hex : ∃ jl ∈ withUninit uninit (getLines content), ¬ WellFormed jl.1 jl.2 := by
    by_contra hno
    have hall : ∀ jl ∈ withUninit uninit (getLines content), WellFormed jl.1 jl.2 := by
      intro jl hjl
      by_contra hb
      exact hno ⟨jl, hjl, hb⟩
    have := lineLoop_wellFormed w rs rz hr (getLines content) uninit 0 S hall
    simp only [loadPairs] at hfail
    rw [this] at hfail
    exact Bool.false_ne_true hfail.symm
  obtain ⟨pre, bad, post, e, hpre, hbad⟩ := exists_first_bad _ _ hex
  refine ⟨pre, bad, post, e, hpre, ?_, ?_⟩
  · by_cases hu : UnderSpecified bad
    · exact Or.inl hu
    · right
      by_contra hs
      exact hbad ⟨hu, hs⟩
  · simp only [loadPairs]
    rw [e, lineLoop_fail w rs rz hr pre uninit bad post 0 S hpre hbad]

/-- C5, counterexample: on the file `1 2`, `3 3` the load returns false and the set, empty
before the call, holds the pair (1, 2) read before the error. -/
theorem loadPairs_failed_not_atomic :
    (loadPairs 32 (fun _ => (0, 0)) (some "1 2\n3 3\n".toList) ∅ (-1) 0).1 = false ∧
      (loadPairs 32 (fun _ => (0, 0)) (some "1 2\n3 3\n".toList) ∅ (-1) 0).2 ≠ ∅ ∧
      (1, 2) ∈ (loadPairs 32 (fun _ => (0, 0)) (some "1 2\n3 3\n".toList) ∅ (-1) 0).2 := by
  decide

/-- C5, amended: when `loadPairs`, reading a file over its whole range, returns false, the
lines split at the first line that is under-specified or has a self pair, and the output set
is its content before the call united with the pairs of the lines before that one and with
the pairs of the failing line's targets that precede its first self pair: what was
inserted before the error is kept. The target indices of a line are the values `J` takes
token after token, a token of white space only leaving it as it was. -/
theorem loadPairs_failed_keeps_inserted (w : Nat) (uninit : Nat → Nat × Nat)
    (content : List Char) (S : PairSet) (rs rz : Int) (hr : rs = -1 ∨ rz = 0)
    (hfail : (loadPairs w uninit (some content) S rs rz).1 = false) :
    ∃ pre bad post, getLines content = pre ++ bad :: post ∧
      (∀ jl ∈ withUninit uninit pre, WellFormed jl.1 jl.2) ∧
      (UnderSpecified bad ∨ SelfPair (uninit pre.length).2 bad) ∧
      (loadPairs w uninit (some content) S rs rz).2 =
        S ∪ ((withUninit uninit pre).flatMap fun jl => linePairs w jl.1 jl.2).toFinset ∪
          (pairsBeforeError w (uninit pre.length).2 bad).toFinset :=
  failed_load_decomposition w uninit content S rs rz hr hfail

/-- Witness for C5 (amended): the file `1 2 \r 3`, `4 4` loaded into the empty set, which
ends with the pairs (1, 2) and (1, 3). -/
theorem loadPairs_failed_keeps_inserted_witness :
    (∃ pre bad post, getLines "1 2 \r 3\n4 4\n".toList = pre ++ bad :: post ∧
      (∀ jl ∈ withUninit (fun _ => (0, 0)) pre, WellFormed jl.1 jl.2) ∧
      (UnderSpecified bad ∨ SelfPair 0 bad) ∧
      (loadPairs 32 (fun _ => (0, 0)) (some "1 2 \r 3\n4 4\n".toList) ∅ (-1) 0).2 =
        ∅ ∪ ((withUninit (fun _ => (0, 0)) pre).flatMap fun jl =>
          linePairs 32 jl.1 jl.2).toFinset ∪
          (pairsBeforeError 32 0 bad).toFinset) ∧
    loadPairs 32 (fun _ => (0, 0)) (some "1 2 \r 3\n4 4\n".toList) ∅ (-1) 0 =
      (false, {(1, 2), (1, 3)}) :=
  ⟨loadPairs_failed_keeps_inserted 32 (fun _ => (0, 0)) "1 2 \r 3\n4 4\n".toList ∅ (-1) 0
    (Or.inl rfl) (by decide), by decide⟩

theorem loadPairs_single_line (w : Nat) (uninit : Nat → Nat × Nat) (S : PairSet)
    (rs rz : Int) (hr : rs = -1 ∨ rz = 0)
    (I J : Nat) (hI : I < 2 ^ 64) (hJ : J < 2 ^ 64) (hne : I ≠ J) :
    loadPairs w uninit (some (decimal I ++ ' ' :: decimal J)) S rs rz =
      (true, S ∪ {pairToInsert w I J}) := by
  have hv : (savedRecord (I, J)).Valid 64 := by
    refine ⟨by simp [savedRecord], by simp [savedRecord], hI, by simp [savedRecord], ?_⟩
    intro st hst
    simp only [savedRecord, List.mem_singleton] at hst
    subst hst
    refine ⟨by simp, ?_, fun e => hne e.symm, hJ⟩
    intro c hc; rw [List.mem_singleton.1 hc]; decide
  have hrender : (savedRecord (I, J)).render = decimal I ++ ' ' :: decimal J := by
    simp [savedRecord, RecordLine.render]
  obtain ⟨hfrom, htargets, hwf⟩ := record_indices 64 (le_refl _) _ hv (uninit 0).2
  have hnl := render_no_newline 64 _ hv
  rw [hrender] at hfrom htargets hwf hnl
  unfold loadPairs
  simp only
  rw [getLines_single _ hnl.1 hnl.2,
    lineLoop_wellFormed w rs rz hr _ uninit 0 S (by simpa [withUninit] using hwf)]
  simp [withUninit, linePairs, hfrom, htargets, savedRecord]

/-- C6, the code at a failing input: with 32-bit indices the one-line file `1 4294967297`
passes the self pair check, which compares the 64-bit values read, and the load succeeds with
the pair (1, 1) stored: 4294967297 becomes 1 when the pair of `size_t` is converted to
`Pair`. The stored pair is not `(min(I, J), max(I, J))` and its components are equal. -/
theorem loadPairs_index_narrowing (uninit : Nat → Nat × Nat) :
    loadPairs 32 uninit (some "1 4294967297".toList) ∅ (-1) 0 = (true, {(1, 1)}) := by
  have h := loadPairs_single_line 32 uninit ∅ (-1) 0 (Or.inl rfl) 1 4294967297
    (by decide) (by decide) (by decide)
  have e1 : decimal 1 ++ ' ' :: decimal 4294967297 = "1 4294967297".toList := by decide
  have e2 : pairToInsert 32 1 4294967297 = (1, 1) := by decide
  rw [e1, e2] at h
  rw [h]
  rfl

theorem pairToInsert_minmax (w I J : Nat) :
    pairToInsert w I J = toPair w (min I J, max I J) := by
  unfold pairToInsert
  by_cases h : I < J
  · rw [if_pos h, min_eq_left (le_of_lt h), max_eq_right (le_of_lt h)]
  · rw [if_neg h, min_eq_right (not_lt.1 h), max_eq_left (not_lt.1 h)]

theorem linePairs_rawPairs (w j : Nat) (l : List Char) :
    linePairs w j l = (rawPairs j l).map fun q => toPair w (min q.1 q.2, max q.1 q.2) := by
  unfold linePairs rawPairs
  rw [List.map_map]
  apply List.map_congr_left
  intro J _
  exact pairToInsert_minmax w _ J

theorem flatMap_linePairs (w : Nat) (ls : List (Nat × List Char)) :
    (ls.flatMap fun jl => linePairs w jl.1 jl.2) =
      (ls.flatMap fun jl => rawPairs jl.1 jl.2).map
        fun q => toPair w (min q.1 q.2, max q.1 q.2) := by
  induction ls with
  | nil => rfl
  | cons a rest ih =>
    rw [List.flatMap_cons, List.flatMap_cons, List.map_append, ih, linePairs_rawPairs]

/-- C7: duplicate pairs are not fatal. For a file all of whose lines have at least 2 tokens
and no self pair, read over its whole range into any set `S`, `loadPairs` returns true and
the set becomes `S` united with the set of the pairs `(min(I, J), max(I, J))` (as the index
type holds them) over the pairs `(I, J)` read from the lines, however often and in whichever
orientation a pair occurs and whether or not it was in `S`; so every such file in which the
same unordered pairs occur, in any orientation and any number of times, in particular the
file with the repeated occurrences removed, gives the same result. -/
theorem loadPairs_duplicates (w : Nat) (uninit : Nat → Nat × Nat) (content : List Char)
    (S : PairSet) (rs rz : Int) (hr : rs = -1 ∨ rz = 0)
    (hwf : ∀ jl ∈ withUninit uninit (getLines content), WellFormed jl.1 jl.2) :
    loadPairs w uninit (some content) S rs rz =
      (true, S ∪ ((fileRawPairs uninit content).map
        fun q => toPair w (min q.1 q.2, max q.1 q.2)).toFinset) ∧
    (∀ (uninit2 : Nat → Nat × Nat) (content2 : List Char),
      (∀ jl ∈ withUninit uninit2 (getLines content2), WellFormed jl.1 jl.2) →
      (∀ I J : Nat,
        ((I, J) ∈ fileRawPairs uninit2 content2 ∨ (J, I) ∈ fileRawPairs uninit2 content2) ↔
        ((I, J) ∈ fileRawPairs uninit content ∨ (J, I) ∈ fileRawPairs uninit content)) →
      loadPairs w uninit2 (some content2) S rs rz = loadPairs w uninit (some content) S rs rz) := by
  have main : ∀ (u : Nat → Nat × Nat) (c : List Char),
      (∀ jl ∈ withUninit u (getLines c), WellFormed jl.1 jl.2) →
      loadPairs w u (some c) S rs rz =
        (true, S ∪ ((fileRawPairs u c).map
          fun q => toPair w (min q.1 q.2, max q.1 q.2)).toFinset) := by
    intro u c hc
    simp only [loadPairs, fileRawPairs]
    rw [lineLoop_wellFormed w rs rz hr _ u 0 S hc, flatMap_linePairs]
  have hsub : ∀ (u1 : Nat → Nat × Nat) (c1 : List Char) (u2 : Nat → Nat × Nat)
      (c2 : List Char), (∀ I J : Nat, (I, J) ∈ fileRawPairs u1 c1 →
        ((I, J) ∈ fileRawPairs u2 c2 ∨ (J, I) ∈ fileRawPairs u2 c2)) →
      ∀ p, p ∈ (fileRawPairs u1 c1).map (fun q => toPair w (min q.1 q.2, max q.1 q.2)) →
        p ∈ (fileRawPairs u2 c2).map (fun q => toPair w (min q.1 q.2, max q.1 q.2)) := by
    intro u1 c1 u2 c2 h p hp
    obtain ⟨q, hq, rfl⟩ := List.mem_map.1 hp
    rcases h q.1 q.2 hq with h1 | h1
    · exact List.mem_map.2 ⟨(q.1, q.2), h1, rfl⟩
    · refine List.mem_map.2 ⟨(q.2, q.1), h1, ?_⟩
      simp only [min_comm, max_comm]
  refine ⟨main uninit content hwf, ?_⟩
  intro uninit2 content2 hwf2 hsame
  rw [main uninit content hwf, main uninit2 content2 hwf2]
  congr 2
  ext p
  simp only [List.mem_toFinset]
  constructor
  · exact hsub uninit2 content2 uninit content (fun I J h => (hsame I J).1 (Or.inl h)) p
  · exact hsub uninit content uninit2 content2 (fun I J h => (hsame I J).2 (Or.inl h)) p

/-- Witness for C7: the pair (1, 2) occurs three times in the file, in both orientations,
and is already in the set; the file `2 1`, `1 3` holds the same unordered pairs once each and
loads to the same set. -/
theorem loadPairs_duplicates_witness :
    (loadPairs 32 (fun _ => (0, 0)) (some "1 2 2\n2 1\n3 1\n".toList) {(1, 2)} (-1) 0 =
      (true, {(1, 2)} ∪ ((fileRawPairs (fun _ => (0, 0)) "1 2 2\n2 1\n3 1\n".toList).map
        fun q => toPair 32 (min q.1 q.2, max q.1 q.2)).toFinset) ∧
    (∀ (uninit2 : Nat → Nat × Nat) (content2 : List Char),
      (∀ jl ∈ withUninit uninit2 (getLines content2), WellFormed jl.1 jl.2) →
      (∀ I J : Nat,
        ((I, J) ∈ fileRawPairs uninit2 content2 ∨ (J, I) ∈ fileRawPairs uninit2 content2) ↔
        ((I, J) ∈ fileRawPairs (fun _ => (0, 0)) "1 2 2\n2 1\n3 1\n".toList ∨
          (J, I) ∈ fileRawPairs (fun _ => (0, 0)) "1 2 2\n2 1\n3 1\n".toList)) →
      loadPairs 32 uninit2 (some content2) {(1, 2)} (-1) 0 =
        loadPairs 32 (fun _ => (0, 0)) (some "1 2 2\n2 1\n3 1\n".toList) {(1, 2)} (-1) 0)) ∧
    loadPairs 32 (fun _ => (0, 0)) (some "1 2 2\n2 1\n3 1\n".toList) {(1, 2)} (-1) 0 =
      (true, {(1, 2), (1, 3)}) ∧
    loadPairs 32 (fun _ => (0, 0)) (some "2 1\n1 3\n".toList) {(1, 2)} (-1) 0 =
      (true, {(1, 2), (1, 3)}) :=
  ⟨loadPairs_duplicates 32 (fun _ => (0, 0)) "1 2 2\n2 1\n3 1\n".toList {(1, 2)} (-1) 0
    (Or.inl rfl) (by decide), by decide, by decide⟩

/-- C8: record format of the loader. A file whose lines are records of the allowed layout
(a from index, then one or more targets different from it, each after a non-empty run of
spaces and tabs, with optional padding at both ends, the indices fitting `w <= 64` bits),
with or without a final newline, loads over its whole range into the empty set with result
true and exactly the set of the pairs `(min(from, to), max(from, to))`, whatever the
uninitialised variables of the loader hold; two such files with the same indices and any
separator runs and padding load to the same set. -/
theorem loadPairs_record_format (w : Nat) (hw : w ≤ 64) (uninit : Nat → Nat × Nat)
    (rs rz : Int) (hr : rs = -1 ∨ rz = 0) (b : Bool) (records : List RecordLine)
    (hv : ∀ r ∈ records, r.Valid w) :
    loadPairs w uninit (some (fileOf b (records.map RecordLine.render))) ∅ rs rz =
      (true, (records.flatMap fun r => r.targets.map fun st =>
        (min r.src st.2, max r.src st.2)).toFinset) ∧
    (∀ (uninit2 : Nat → Nat × Nat) (b2 : Bool) (records2 : List RecordLine),
      (∀ r ∈ records2, r.Valid w) →
      records2.map (fun r => (r.src, r.targets.map Prod.snd)) =
        records.map (fun r => (r.src, r.targets.map Prod.snd)) →
      loadPairs w uninit2 (some (fileOf b2 (records2.map RecordLine.render))) ∅ rs rz =
        loadPairs w uninit (some (fileOf b (records.map RecordLine.render))) ∅ rs rz) := by
  have hpairs : ∀ rec : List RecordLine, rec.flatMap RecordLine.pairs =
      (rec.map (fun r => (r.src, r.targets.map Prod.snd))).flatMap
        (fun q => q.2.map (normPair q.1)) := by
    intro rec
    rw [List.flatMap_map]
    congr 1
    funext r
    simp [RecordLine.pairs, List.map_map, Function.comp_def]
  constructor
  · rw [loadPairs_records w hw uninit rs rz hr b records hv ∅, Finset.empty_union]
    rfl
  · intro uninit2 b2 records2 hv2 hsame
    rw [loadPairs_records w hw uninit rs rz hr b records hv ∅,
      loadPairs_records w hw uninit2 rs rz hr b2 records2 hv2 ∅, hpairs records,
      hpairs records2, hsame]

/-- Witness for C8: two records with mixed runs of spaces and tabs and padding, no final
newline. -/
theorem loadPairs_record_format_witness :
    loadPairs 32 (fun _ => (7, 7)) (some (fileOf false (List.map RecordLine.render
        ([⟨[' '], 4, [([' ', '\t'], 2), (['\t'], 9)], ['\r']⟩,
          ⟨[], 1, [([' ', ' '], 3)], []⟩] : List RecordLine)))) ∅ (-1) 0 =
      (true, (([⟨[' '], 4, [([' ', '\t'], 2), (['\t'], 9)], ['\r']⟩,
          ⟨[], 1, [([' ', ' '], 3)], []⟩] : List RecordLine).flatMap fun r =>
            r.targets.map fun st => (min r.src st.2, max r.src st.2)).toFinset) ∧
    (∀ (uninit2 : Nat → Nat × Nat) (b2 : Bool) (records2 : List RecordLine),
      (∀ r ∈ records2, r.Valid 32) →
      records2.map (fun r => (r.src, r.targets.map Prod.snd)) =
        List.map (fun r : RecordLine => (r.src, r.targets.map Prod.snd))
          ([⟨[' '], 4, [([' ', '\t'], 2), (['\t'], 9)], ['\r']⟩,
            ⟨[], 1, [([' ', ' '], 3)], []⟩] : List RecordLine) →
      loadPairs 32 uninit2 (some (fileOf b2 (records2.map RecordLine.render))) ∅ (-1) 0 =
        loadPairs 32 (fun _ => (7, 7)) (some (fileOf false (List.map RecordLine.render
          ([⟨[' '], 4, [([' ', '\t'], 2), (['\t'], 9)], ['\r']⟩,
            ⟨[], 1, [([' ', ' '], 3)], []⟩] : List RecordLine)))) ∅ (-1) 0) :=
  loadPairs_record_format 32 (by decide) (fun _ => (7, 7)) (-1) 0 (Or.inl rfl) false
    [⟨[' '], 4, [([' ', '\t'], 2), (['\t'], 9)], ['\r']⟩, ⟨[], 1, [([' ', ' '], 3)], []⟩]
    (by decide)

/-! ## Theorems: further properties of the triangulation constraints -/

theorem encodeLoop_cheirality_row {K : Type} [Add K] [Sub K] [Mul K] [Neg K]
    (x_ij : Mat2X K) (gamma : K) :
    ∀ (Ps : List (Mat34 K)) (i : Nat) (A : List (List K)) (C : List K),
      encodeLoop x_ij gamma Ps i = some (A, C) →
      ∀ P ∈ Ps, (rowNeg (Rrow P 2), P 2 3) ∈ A.zip C := by
  intro Ps
  induction Ps with
  | nil => intro i A C _ P hP; simp at hP
  | cons Q rest ih =>
    intro i A C h P hP
    simp only [encodeLoop] at h
    cases hpt : x_ij[i]? with
    | none => simp [hpt] at h
    | some pt =>
      cases hrec : encodeLoop x_ij gamma rest (i + 1) with
      | none => simp [hpt, hrec] at h
      | some AC =>
        obtain ⟨A1, C1⟩ := AC
        simp only [hpt, hrec, Option.some.injEq, Prod.mk.injEq] at h
        obtain ⟨rfl, rfl⟩ := h
        rw [List.zip_append (by simp [viewRows, viewRhs])]
        rcases List.mem_cons.1 hP with e | e
        · subst e
          exact List.mem_append_left _ (by simp [viewRows, viewRhs])
        · exact List.mem_append_right _ (ih (i + 1) A1 C1 hrec P e)

theorem ofDbl_injective : Function.Injective F64.ofDbl := by
  intro x y h
  simpa [F64.ofDbl] using h

/-- The cheirality row in `double` arithmetic: `-R.row(2)` and `t(2)` are computed without
rounding, so a point that satisfies the rows built in `double`s for views of finite
coefficients has non-negative depth in each of them. -/
theorem cheirality_double (PD : List (Mat34 Dbl)) (x_ij : Mat2X F64) (gamma : F64)
    (A : Mat F64) (C : Vec F64) (X0 X1 X2 : ℚ)
    (h : EncodeTriangulation (PD.map doubleView) x_ij gamma = some (A, C))
    (hf : FeasibleD A C [X0, X1, X2]) :
    ∀ P ∈ PD, 0 ≤ camCoord (exactView P) X0 X1 X2 2 := by
  intro P hP
  obtain ⟨a, c, ha, hc, hfe⟩ := hf
  unfold EncodeTriangulation at h
  cases hl : encodeLoop x_ij gamma (PD.map doubleView) 0 with
  | none => simp [hl] at h
  | some AC =>
    obtain ⟨A1, C1⟩ := AC
    simp only [hl, Option.some.injEq, Prod.mk.injEq] at h
    obtain ⟨rfl, rfl⟩ := h
    have hmem := encodeLoop_cheirality_row x_ij gamma _ 0 A1 C1 hl (doubleView P)
      (List.mem_map_of_mem _ hP)
    simp only at ha
    rw [ha, hc, List.zip_map] at hmem
    obtain ⟨⟨r, v⟩, hrv, e⟩ := List.mem_map.1 hmem
    simp only [Prod.map, Prod.mk.injEq] at e
    obtain ⟨er, ev⟩ := e
    have hr : r = [⟨-(P 2 0).m, (P 2 0).e⟩, ⟨-(P 2 1).m, (P 2 1).e⟩,
        ⟨-(P 2 2).m, (P 2 2).e⟩] := by
      apply List.map_injective_iff.2 ofDbl_injective
      rw [er]; rfl
    have hv : v = P 2 3 := ofDbl_injective (by rw [ev]; rfl)
    have hrow := hfe (r.map Dbl.toRat, v.toRat) (by
      simp only [List.zip_map]
      exact List.mem_map.2 ⟨(r, v), hrv, rfl⟩)
    subst hr hv
    simp only [dot, List.map_cons, List.map_nil, List.zipWith_cons_cons,
      List.zipWith_nil_right, List.sum_cons, List.sum_nil, Dbl.toRat] at hrow
    simp only [camCoord, exactView, Dbl.toRat]
    push_cast at hrow
    linarith

theorem view_of_mem {α β : Type} (Pi : List α) (x_ij : List β) (h : Pi.length ≤ x_ij.length)
    (P : α) (hP : P ∈ Pi) : ∃ (i : Nat) (pt : β), Pi[i]? = some P ∧ x_ij[i]? = some pt := by
  obtain ⟨i, hi⟩ := List.mem_iff_getElem?.1 hP
  have hlt : i < Pi.length := by
    by_contra hge
    rw [List.getElem?_eq_none (by omega)] at hi
    exact Option.noConfusion hi
  exact ⟨i, x_ij[i], hi, List.getElem?_eq_getElem (by omega)⟩

section

variable {K : Type} [LinearOrderedField K]

theorem encodeLoop_none (x_ij : Mat2X K) (gamma : K) :
    ∀ (Ps : List (Mat34 K)) (i : Nat), i ≤ x_ij.length → x_ij.length < i + Ps.length →
      encodeLoop x_ij gamma Ps i = none := by
  intro Ps
  induction Ps with
  | nil => intro i h1 h2; simp at h2; omega
  | cons P rest ih =>
    intro i h1 h2
    simp only [List.length_cons] at h2
    cases hpt : x_ij[i]? with
    | none => simp [encodeLoop, hpt]
    | some pt =>
      have hlt : i < x_ij.length := by
        by_contra hge
        rw [List.getElem?_eq_none (by omega)] at hpt
        exact Option.noConfusion hpt
      have := ih (i + 1) (by omega) (by omega)
      simp [encodeLoop, hpt, this]

theorem encode_some_length (Pi : List (Mat34 K)) (x_ij : Mat2X K) (gamma : K) (A : Mat K)
    (C : Vec K) (h : EncodeTriangulation Pi x_ij gamma = some (A, C)) :
    Pi.length ≤ x_ij.length := by
  by_contra hlt
  have := encodeLoop_none x_ij gamma Pi 0 (by omega) (by omega)
  simp [EncodeTriangulation, this] at h

theorem encode_some_of_length (Pi : List (Mat34 K)) (x_ij : Mat2X K) (gamma : K)
    (h : Pi.length ≤ x_ij.length) : ∃ A C, EncodeTriangulation Pi x_ij gamma = some (A, C) := by
  obtain ⟨A, C, hAC, _⟩ := encodeLoop_spec x_ij gamma 0 0 0 Pi 0 (by omega)
  exact ⟨{ rows := 5 * Pi.length, cols := 3, data := A }, C, by
    simp only [EncodeTriangulation, hAC]⟩

theorem feasible_iff_of_encode (Pi : List (Mat34 K)) (x_ij : Mat2X K) (gamma : K) (A : Mat K)
    (C : Vec K) (h : EncodeTriangulation Pi x_ij gamma = some (A, C)) (X0 X1 X2 : K) :
    Feasible A C [X0, X1, X2] ↔
      ∀ (i : Nat) (P : Mat34 K) (pt : K × K), Pi[i]? = some P → x_ij[i]? = some pt →
        ViewBound P pt gamma X0 X1 X2 := by
  have hlen := encode_some_length Pi x_ij gamma A C h
  obtain ⟨A1, C1, hAC, _, _, _, hiff⟩ :=
    encodeLoop_spec x_ij gamma X0 X1 X2 Pi 0 (by omega)
  simp only [Nat.zero_add] at hiff
  simp only [EncodeTriangulation, hAC, Option.some.injEq, Prod.mk.injEq] at h
  obtain ⟨hA, hC⟩ := h
  subst hA; subst hC
  exact hiff

theorem viewBound_depth (P : Mat34 K) (pt : K × K) (gamma X0 X1 X2 : K)
    (h : ViewBound P pt gamma X0 X1 X2) :
    0 ≤ camCoord P X0 X1 X2 2 ∧
      (camCoord P X0 X1 X2 2 = 0 → camCoord P X0 X1 X2 0 = 0 ∧ camCoord P X0 X1 X2 1 = 0) := by
  obtain ⟨hz, hx, hy⟩ := h
  refine ⟨hz, fun h0 => ?_⟩
  rw [h0] at hx hy
  simp only [mul_zero, sub_zero, abs_nonpos_iff] at hx hy
  exact ⟨hx, hy⟩

theorem viewBound_mono (P : Mat34 K) (pt : K × K) (g1 g2 X0 X1 X2 : K) (hle : g1 ≤ g2)
    (h : ViewBound P pt g1 X0 X1 X2) : ViewBound P pt g2 X0 X1 X2 := by
  obtain ⟨hz, hx, hy⟩ := h
  have := mul_le_mul_of_nonneg_right hle hz
  exact ⟨hz, hx.trans this, hy.trans this⟩

theorem identityView_camCoord (X0 X1 X2 : ℚ) :
    camCoord identityView X0 X1 X2 0 = X0 ∧ camCoord identityView X0 X1 X2 1 = X1 ∧
      camCoord identityView X0 X1 X2 2 = X2 := by
  have e : (3 : Fin 4).val = 3 := rfl
  refine ⟨?_, ?_, ?_⟩ <;> simp [camCoord, identityView, e]

/-- C11, counterexample: for the view `[I | 0]` observing `(0, 0)` with bound 1, the point
`(0, 0, 0)` satisfies every row and its depth is 0, not positive. -/
theorem cheirality_not_strict :
    ∃ A C, EncodeTriangulation [identityView] [(0, 0)] 1 = some (A, C) ∧
      Feasible A C [0, 0, 0] ∧ ¬ 0 < camCoord identityView 0 0 0 2 := by
  obtain ⟨A, C, h⟩ := encode_some_of_length [identityView] [((0 : ℚ), (0 : ℚ))] 1 (by simp)
  refine ⟨A, C, h, ?_, ?_⟩
  · rw [feasible_iff_of_encode _ _ _ A C h]
    intro i P pt hP hpt
    cases i with
    | zero =>
      simp only [List.getElem?_cons_zero, Option.some.injEq] at hP hpt
      subst hP; subst hpt
      simp [ViewBound, identityView_camCoord]
    | succ j => simp at hP
  · simp [identityView_camCoord]

/-- C11, amended: a point that satisfies the rows `EncodeTriangulation` emits has
non-negative depth `(third row of R) * X + t(2) >= 0` in every view, which is what the
cheirality row, the third of the five of a view, says by itself: that row is `-R.row(2)` with
right-hand side `t(2)`. The same holds for the rows computed in the `double` arithmetic of
the source, whose cheirality row is exact. -/
theorem cheirality_nonneg (Pi : List (Mat34 K)) (x_ij : Mat2X K) (gamma : K) (A : Mat K)
    (C : Vec K) (X0 X1 X2 : K) (h : EncodeTriangulation Pi x_ij gamma = some (A, C))
    (hf : Feasible A C [X0, X1, X2]) :
    (∀ P ∈ Pi, 0 ≤ camCoord P X0 X1 X2 2) ∧
    (∀ (P : Mat34 K) (pt : K × K),
      (dot (rowNeg (Rrow P 2)) [X0, X1, X2] ≤ P 2 3 ↔ 0 ≤ camCoord P X0 X1 X2 2) ∧
      (viewRows P pt gamma)[2]? = some (rowNeg (Rrow P 2)) ∧
      (viewRhs P pt gamma)[2]? = some (P 2 3)) ∧
    (∀ (PD : List (Mat34 Dbl)) (xD : Mat2X F64) (gD : F64) (AD : Mat F64) (CD : Vec F64)
      (Y0 Y1 Y2 : ℚ), EncodeTriangulation (PD.map doubleView) xD gD = some (AD, CD) →
      FeasibleD AD CD [Y0, Y1, Y2] → ∀ P ∈ PD, 0 ≤ camCoord (exactView P) Y0 Y1 Y2 2) := by
  refine ⟨?_, ?_, cheirality_double⟩
  · intro P hP
    obtain ⟨i, pt, hi, hpt⟩ := view_of_mem Pi x_ij (encode_some_length Pi x_ij gamma A C h) P hP
    exact (viewBound_depth P pt gamma X0 X1 X2
      ((feasible_iff_of_encode Pi x_ij gamma A C h X0 X1 X2).1 hf i P pt hi hpt)).1
  · intro P pt
    refine ⟨?_, rfl, rfl⟩
    simp only [dot, rowNeg, Rrow, camCoord, List.map_cons, List.map_nil,
      List.zipWith_cons_cons, List.zipWith_nil_right, List.sum_cons, List.sum_nil]
    constructor <;> intro h1 <;> linarith

/-- Witness for C11 (amended): the view `[I | 0]` observing `(0, 0)` with bound 1 and the
point `(0, 0, 0)`. -/
theorem cheirality_nonneg_witness :
    ∃ A C, EncodeTriangulation [identityView] [(0, 0)] 1 = some (A, C) ∧
      Feasible A C [0, 0, 0] ∧
      (∀ P ∈ [identityView], 0 ≤ camCoord P 0 0 0 2) := by
  obtain ⟨A, C, h⟩ := encode_some_of_length [identityView] [((0 : ℚ), (0 : ℚ))] 1 (by simp)
  have hf : Feasible A C [0, 0, 0] := by
    rw [feasible_iff_of_encode _ _ _ A C h]
    intro i P pt hP hpt
    cases i with
    | zero =>
      simp only [List.getElem?_cons_zero, Option.some.injEq] at hP hpt
      subst hP; subst hpt
      simp [ViewBound, identityView_camCoord]
    | succ j => simp at hP
  exact ⟨A, C, h, hf, (cheirality_nonneg [identityView] [(0, 0)] 1 A C 0 0 0 h hf).1⟩

theorem build_eq (b : Triangulation_L1_ConstraintBuilder K) (gamma : K) (c : LPConstraints K) :
    b.Build gamma c =
      (EncodeTriangulation b._vec_Pi b._x_ij gamma).map fun AC =>
        (true, { _constraintMat := AC.1, _Cst_objective := AC.2,
                 _vec_sign := List.replicate AC.1.rows eLP_SIGN.LP_LESS_OR_EQUAL,
                 _vec_bounds := [(-(10 ^ 30 : K), (10 ^ 30 : K))], _nbParams := 3 }) := by
  unfold Triangulation_L1_ConstraintBuilder.Build
  cases EncodeTriangulation b._vec_Pi b._x_ij gamma with
  | none => rfl
  | some AC => rfl

theorem build_some_of_length (b : Triangulation_L1_ConstraintBuilder K) (gamma : K)
    (c : LPConstraints K) (hlen : b._vec_Pi.length ≤ b._x_ij.length) :
    ∃ c1, b.Build gamma c = some (true, c1) := by
  obtain ⟨A, C, h⟩ := encode_some_of_length b._vec_Pi b._x_ij gamma hlen
  rw [build_eq]
  simp only [h, Option.map_some']
  exact ⟨_, rfl⟩

/-- C12, counterexample: a builder holding one projection matrix and two observation
columns: the counts differ and `Build` returns true. -/
theorem build_mismatch_true :
    (Triangulation_L1_ConstraintBuilder.mk [identityView] [(0, 0), (1, 1)])._vec_Pi.length ≠
      (Triangulation_L1_ConstraintBuilder.mk [identityView] [(0, 0), (1, 1)])._x_ij.length ∧
    ∃ c1, (Triangulation_L1_ConstraintBuilder.mk [identityView] [(0, 0), (1, 1)]).Build 1
      ⟨⟨0, 0, []⟩, [], [], [], 0⟩ = some (true, c1) := by
  refine ⟨by decide, ?_⟩
  obtain ⟨A, C, h⟩ := encode_some_of_length [identityView] [((0 : ℚ), (0 : ℚ)), (1, 1)] 1
    (by simp)
  rw [build_eq]
  simp only [h, Option.map_some']
  exact ⟨_, rfl⟩

/-- C12, amended: `Build` never returns false. It returns true whenever the builder holds at
least as many observation columns as projection matrices (the columns beyond the number of
matrices are not read), and with fewer columns it does not return at all, reading a column
out of range. -/
theorem build_never_false (b : Triangulation_L1_ConstraintBuilder K) (gamma : K)
    (c : LPConstraints K) :
    ((∃ c1, b.Build gamma c = some (true, c1)) ↔ b._vec_Pi.length ≤ b._x_ij.length) ∧
    (b.Build gamma c = none ↔ b._x_ij.length < b._vec_Pi.length) ∧
    (∀ c1, b.Build gamma c ≠ some (false, c1)) := by
  by_cases hlen : b._vec_Pi.length ≤ b._x_ij.length
  · obtain ⟨c1, h⟩ := build_some_of_length b gamma c hlen
    refine ⟨⟨fun _ => hlen, fun _ => ⟨c1, h⟩⟩, ⟨fun h1 => ?_, fun h1 => ?_⟩, fun c2 h2 => ?_⟩
    · rw [h] at h1; exact Option.noConfusion h1
    · omega
    · rw [h] at h2
      simp only [Option.some.injEq, Prod.mk.injEq] at h2
      exact Bool.noConfusion h2.1
  · have hnone : b.Build gamma c = none := by
      have := encodeLoop_none b._x_ij gamma b._vec_Pi 0 (by omega) (by omega)
      simp [build_eq, EncodeTriangulation, this]
    refine ⟨⟨fun ⟨c1, h1⟩ => ?_, fun h1 => absurd h1 hlen⟩,
      ⟨fun _ => by omega, fun _ => hnone⟩, fun c2 h2 => ?_⟩
    · rw [hnone] at h1; exact Option.noConfusion h1
    · rw [hnone] at h2; exact Option.noConfusion h2

/-- C13, counterexample: after `Build` on a builder with one view the bounds list has
length 1, not 3. -/
theorem bounds_list_not_three :
    ∃ c1, (Triangulation_L1_ConstraintBuilder.mk [identityView] [(0, 0)]).Build 1
        ⟨⟨0, 0, []⟩, [], [], [], 0⟩ = some (true, c1) ∧
      c1._nbParams = 3 ∧ c1._vec_bounds.length = 1 ∧ c1._vec_bounds.length ≠ c1._nbParams := by
  obtain ⟨A, C, h⟩ := encode_some_of_length [identityView] [((0 : ℚ), (0 : ℚ))] 1 (by simp)
  rw [build_eq]
  simp only [h, Option.map_some']
  exact ⟨_, rfl, rfl, rfl, by simp⟩

/-- C13, amended: after `Build(gamma, c)`, `c` has `nbParams = 3` and its bounds list holds one
pair only, the unbounded range `(-1e30, +1e30)`, standing for all the variables. -/
theorem build_bounds (b : Triangulation_L1_ConstraintBuilder K) (gamma : K)
    (c c1 : LPConstraints K) (r : Bool) (h : b.Build gamma c = some (r, c1)) :
    c1._vec_bounds = [(-(10 ^ 30 : K), (10 ^ 30 : K))] ∧ c1._vec_bounds.length = 1 ∧
      c1._nbParams = 3 := by
  rw [build_eq] at h
  cases hE : EncodeTriangulation b._vec_Pi b._x_ij gamma with
  | none => rw [hE] at h; exact Option.noConfusion h
  | some AC =>
    rw [hE] at h
    simp only [Option.map_some', Option.some.injEq, Prod.mk.injEq] at h
    obtain ⟨_, rfl⟩ := h
    exact ⟨rfl, rfl, rfl⟩

/-- Witness for C13 (amended): a builder with one view. -/
theorem build_bounds_witness :
    ∃ c1 : LPConstraints ℚ,
      (Triangulation_L1_ConstraintBuilder.mk [identityView] [(0, 0)]).Build 1
        ⟨⟨0, 0, []⟩, [], [], [], 0⟩ = some (true, c1) ∧
      c1._vec_bounds = [(-(10 ^ 30 : ℚ), (10 ^ 30 : ℚ))] ∧
      c1._vec_bounds.length = 1 ∧ c1._nbParams = 3 := by
  obtain ⟨c1, h⟩ := build_some_of_length (Triangulation_L1_ConstraintBuilder.mk
    [identityView] [(0, 0)]) 1 ⟨⟨0, 0, []⟩, [], [], [], 0⟩ (by simp)
  exact ⟨c1, h, build_bounds _ 1 _ c1 true h⟩

theorem build_none_of_length (b : Triangulation_L1_ConstraintBuilder K) (gamma : K)
    (c : LPConstraints K) (hlen : ¬ b._vec_Pi.length ≤ b._x_ij.length) :
    b.Build gamma c = none := by
  have := encodeLoop_none b._x_ij gamma b._vec_Pi 0 (by omega) (by omega)
  simp [build_eq, EncodeTriangulation, this]

/-- C14: the builder is stateless with respect to the bound. What `Build` returns and
writes (matrix, right-hand side, relations, bounds, `nbParams`) is a function of the stored
projection matrices, the stored observations and `gamma` alone, whatever the constraints
object held; so `Build(gamma, .)` after any sequence of earlier calls with other bounds on a
constraints object leaves what a first `Build(gamma, .)` leaves on any fresh object. The
stored inputs are only read. -/
theorem build_stateless (b : Triangulation_L1_ConstraintBuilder K) (gamma : K)
    (earlier : List K) (c fresh : LPConstraints K) :
    buildSeq b (earlier ++ [gamma]) c = (b.Build gamma fresh).map Prod.snd ∧
    (∀ used : LPConstraints K, b.Build gamma used = b.Build gamma fresh) ∧
    (∃ F : List (Mat34 K) → Mat2X K → K → Option (Bool × LPConstraints K),
      ∀ (b1 : Triangulation_L1_ConstraintBuilder K) (g : K) (c1 : LPConstraints K),
        b1.Build g c1 = F b1._vec_Pi b1._x_ij g) := by
  refine ⟨?_, fun used => by rw [build_eq, build_eq], ⟨fun Pi x g =>
    (Triangulation_L1_ConstraintBuilder.mk Pi x).Build g fresh, fun b1 g c1 => ?_⟩⟩
  · induction earlier generalizing c with
    | nil =>
      have e : b.Build gamma c = b.Build gamma fresh := by rw [build_eq, build_eq]
      simp only [List.nil_append, buildSeq, e]
      cases b.Build gamma fresh with
      | none => rfl
      | some r => rfl
    | cons g gs ih =>
      by_cases hlen : b._vec_Pi.length ≤ b._x_ij.length
      · obtain ⟨c1, h1⟩ := build_some_of_length b g c hlen
        simp only [List.cons_append, buildSeq, h1]
        exact ih c1
      · simp only [List.cons_append, buildSeq, build_none_of_length b g c hlen,
          build_none_of_length b gamma fresh hlen, Option.map_none']
  · show b1.Build g c1 = (Triangulation_L1_ConstraintBuilder.mk b1._vec_Pi b1._x_ij).Build g fresh
    rw [build_eq, build_eq]

/-- C20, amended: monotonicity in the bound, in exact arithmetic (the scalars of a linearly
ordered field, each operation without rounding). A point that satisfies all the rows built by
`EncodeTriangulation` at `gamma1` satisfies all the rows built at any `gamma2 >= gamma1`
from the same views and observations. -/
theorem encodeTriangulation_mono (Pi : List (Mat34 K)) (x_ij : Mat2X K) (gamma1 gamma2 : K)
    (A1 : Mat K) (C1 : Vec K) (X0 X1 X2 : K) (hle : gamma1 ≤ gamma2)
    (h1 : EncodeTriangulation Pi x_ij gamma1 = some (A1, C1))
    (hf : Feasible A1 C1 [X0, X1, X2]) :
    ∃ A2 C2, EncodeTriangulation Pi x_ij gamma2 = some (A2, C2) ∧
      Feasible A2 C2 [X0, X1, X2] := by
  obtain ⟨A2, C2, h2⟩ := encode_some_of_length Pi x_ij gamma2
    (encode_some_length Pi x_ij gamma1 A1 C1 h1)
  refine ⟨A2, C2, h2, ?_⟩
  rw [feasible_iff_of_encode Pi x_ij gamma2 A2 C2 h2]
  intro i P pt hP hpt
  exact viewBound_mono P pt gamma1 gamma2 X0 X1 X2 hle
    ((feasible_iff_of_encode Pi x_ij gamma1 A1 C1 h1 X0 X1 X2).1 hf i P pt hP hpt)

theorem identity_feasible (gamma : ℚ) (hg : 0 ≤ gamma) (A : Mat ℚ) (C : Vec ℚ)
    (h : EncodeTriangulation [identityView] [(0, 0)] gamma = some (A, C)) :
    Feasible A C [0, 0, 1] := by
  rw [feasible_iff_of_encode _ _ _ A C h]
  intro i P pt hP hpt
  cases i with
  | zero =>
    simp only [List.getElem?_cons_zero, Option.some.injEq] at hP hpt
    subst hP; subst hpt
    simpa [ViewBound, identityView_camCoord] using hg
  | succ j => simp at hP

/-- Witness for C20 (amended): the view `[I | 0]` observing `(0, 0)`, the point `(0, 0, 1)`, bounds
`1 <= 2`. -/
theorem encodeTriangulation_mono_witness :
    ∃ A1 C1, EncodeTriangulation [identityView] [(0, 0)] 1 = some (A1, C1) ∧
      Feasible A1 C1 [0, 0, 1] ∧
      ∃ A2 C2, EncodeTriangulation [identityView] [(0, 0)] 2 = some (A2, C2) ∧
        Feasible A2 C2 [0, 0, 1] := by
  obtain ⟨A1, C1, h1⟩ := encode_some_of_length [identityView] [((0 : ℚ), (0 : ℚ))] 1 (by simp)
  have hf := identity_feasible 1 (by norm_num) A1 C1 h1
  exact ⟨A1, C1, h1, hf,
    encodeTriangulation_mono [identityView] [(0, 0)] 1 2 A1 C1 0 0 1 (by norm_num) h1 hf⟩

theorem reproj_zero_iff (P : Mat34 K) (pt : K × K) (X0 X1 X2 : K) :
    ReprojBound P pt 0 X0 X1 X2 ↔ project P X0 X1 X2 = pt := by
  unfold ReprojBound project
  simp only [abs_nonpos_iff, sub_eq_zero]
  constructor
  · rintro ⟨h1, h2⟩; exact Prod.ext h1 h2
  · intro h; rw [← h]; exact ⟨rfl, rfl⟩

theorem squaredResidual_eq_zero (Pi : List (Mat34 K)) (x_ij : Mat2X K) (X0 X1 X2 : K)
    (h : ∀ (i : Nat) (P : Mat34 K) (pt : K × K), Pi[i]? = some P → x_ij[i]? = some pt →
      project P X0 X1 X2 = pt) : squaredResidual Pi x_ij X0 X1 X2 = 0 := by
  unfold squaredResidual
  apply List.sum_eq_zero
  intro v hv
  obtain ⟨q, hq, rfl⟩ := List.mem_map.1 hv
  obtain ⟨i, hi⟩ := List.mem_iff_getElem?.1 hq
  obtain ⟨h1, h2⟩ := List.getElem?_zip_eq_some.1 hi
  rw [h i q.1 q.2 h1 h2]
  simp

/-- C15, amended: noiseless triangulation, in exact arithmetic (the scalars of a linearly
ordered field, each operation without rounding). When a point has positive depth in every
view and every observation is its exact projection, the point satisfies every row built by
`EncodeTriangulation` at every `gamma >= 0`, in particular at `gamma = 0`; and every point of
positive depth in every view that satisfies the rows built at `gamma = 0` projects exactly onto
every observation, so its total squared reprojection residual is 0, below `1e-4`. -/
theorem noiseless_triangulation (Pi : List (Mat34 K)) (x_ij : Mat2X K) (X0 X1 X2 : K)
    (hN : x_ij.length = Pi.length) (hz : ∀ P ∈ Pi, 0 < camCoord P X0 X1 X2 2)
    (hexact : ∀ (i : Nat) (P : Mat34 K) (pt : K × K), Pi[i]? = some P → x_ij[i]? = some pt →
      pt = project P X0 X1 X2) :
    (∀ gamma : K, 0 ≤ gamma →
      ∃ A C, EncodeTriangulation Pi x_ij gamma = some (A, C) ∧ Feasible A C [X0, X1, X2]) ∧
    (∃ A C, EncodeTriangulation Pi x_ij 0 = some (A, C) ∧ Feasible A C [X0, X1, X2] ∧
      ∀ Y0 Y1 Y2 : K, (∀ P ∈ Pi, 0 < camCoord P Y0 Y1 Y2 2) → Feasible A C [Y0, Y1, Y2] →
        (∀ (i : Nat) (P : Mat34 K) (pt : K × K), Pi[i]? = some P → x_ij[i]? = some pt →
          project P Y0 Y1 Y2 = pt) ∧
        squaredResidual Pi x_ij Y0 Y1 Y2 = 0 ∧
        squaredResidual Pi x_ij Y0 Y1 Y2 < 1 / 10 ^ 4) := by
  have hfeas : ∀ gamma : K, 0 ≤ gamma →
      ∃ A C, EncodeTriangulation Pi x_ij gamma = some (A, C) ∧ Feasible A C [X0, X1, X2] := by
    intro gamma hg
    obtain ⟨A, C, h⟩ := encode_some_of_length Pi x_ij gamma (by omega)
    refine ⟨A, C, h, ?_⟩
    rw [feasible_iff_of_encode Pi x_ij gamma A C h]
    intro i P pt hP hpt
    rw [viewBound_iff_reproj P pt gamma X0 X1 X2 (hz P (List.getElem?_mem hP)),
      hexact i P pt hP hpt]
    simpa [ReprojBound, project] using hg
  refine ⟨hfeas, ?_⟩
  obtain ⟨A, C, h, hf⟩ := hfeas 0 (le_refl _)
  refine ⟨A, C, h, hf, ?_⟩
  intro Y0 Y1 Y2 hY hfY
  have hproj : ∀ (i : Nat) (P : Mat34 K) (pt : K × K), Pi[i]? = some P → x_ij[i]? = some pt →
      project P Y0 Y1 Y2 = pt := by
    intro i P pt hP hpt
    rw [← reproj_zero_iff,
      ← viewBound_iff_reproj P pt 0 Y0 Y1 Y2 (hY P (List.getElem?_mem hP))]
    exact (feasible_iff_of_encode Pi x_ij 0 A C h Y0 Y1 Y2).1 hfY i P pt hP hpt
  have hres := squaredResidual_eq_zero Pi x_ij Y0 Y1 Y2 hproj
  refine ⟨hproj, hres, ?_⟩
  rw [hres]
  positivity

/-- Witness for C15 (amended): the view `[I | 0]` and the point `(2, 4, 2)` observed at `(1, 2)`. -/
theorem noiseless_triangulation_witness :
    (∀ gamma : ℚ, 0 ≤ gamma →
      ∃ A C, EncodeTriangulation [identityView] [(1, 2)] gamma = some (A, C) ∧
        Feasible A C [2, 4, 2]) ∧
    (∃ A C, EncodeTriangulation [identityView] [(1, 2)] 0 = some (A, C) ∧
      Feasible A C [2, 4, 2] ∧
      ∀ Y0 Y1 Y2 : ℚ, (∀ P ∈ [identityView], 0 < camCoord P Y0 Y1 Y2 2) →
        Feasible A C [Y0, Y1, Y2] →
        (∀ (i : Nat) (P : Mat34 ℚ) (pt : ℚ × ℚ), [identityView][i]? = some P →
          ([(1, 2)] : Mat2X ℚ)[i]? = some pt → project P Y0 Y1 Y2 = pt) ∧
        squaredResidual [identityView] [(1, 2)] Y0 Y1 Y2 = 0 ∧
        squaredResidual [identityView] [(1, 2)] Y0 Y1 Y2 < 1 / 10 ^ 4) :=
  noiseless_triangulation [identityView] [(1, 2)] 2 4 2 rfl
    (by simp [identityView_camCoord])
    (by
      intro i P pt hP hpt
      cases i with
      | zero =>
        simp only [List.getElem?_cons_zero, Option.some.injEq] at hP hpt
        subst hP; subst hpt
        simp only [project, identityView_camCoord]
        norm_num
      | succ j => simp at hP)

end

/-! ## Theorems: bisection driver -/

section

variable {K : Type} [LinearOrderedField K] {Sol : Type}

theorem bisectionLoop_spec (oracle : K → Option Sol) (eps : K) :
    ∀ (left : Nat) (st : BisectionState K Sol),
      ∃ k : Nat, (bisectionLoop oracle eps left st).iter = st.iter + k ∧ k ≤ left ∧
        ((bisectionLoop oracle eps left st).high - (bisectionLoop oracle eps left st).low) *
          2 ^ k = st.high - st.low ∧
        ((bisectionLoop oracle eps left st).high - (bisectionLoop oracle eps left st).low < eps ∨
          k = left) ∧
        (oracle st.high = some st.best →
          oracle (bisectionLoop oracle eps left st).high =
            some (bisectionLoop oracle eps left st).best) ∧
        (oracle st.low = none → oracle (bisectionLoop oracle eps left st).low = none) ∧
        (st.low ≤ st.high →
          st.low ≤ (bisectionLoop oracle eps left st).low ∧
          (bisectionLoop oracle eps left st).low ≤ (bisectionLoop oracle eps left st).high ∧
          (bisectionLoop oracle eps left st).high ≤ st.high) := by
  intro left
  induction left with
  | zero =>
    intro st
    exact ⟨0, rfl, le_refl _, by simp [bisectionLoop], Or.inr rfl, fun h => h, fun h => h,
      fun h => ⟨le_refl _, h, le_refl _⟩⟩
  | succ n ih =>
    intro st
    by_cases hstop : st.high - st.low < eps
    · have e : bisectionLoop oracle eps (n + 1) st = st := by simp [bisectionLoop, hstop]
      rw [e]
      exact ⟨0, rfl, Nat.zero_le _, by simp, Or.inl hstop, fun h => h, fun h => h,
        fun h => ⟨le_refl _, h, le_refl _⟩⟩
    · cases hor : oracle ((st.low + st.high) / 2) with
      | some s =>
        have e : bisectionLoop oracle eps (n + 1) st = bisectionLoop oracle eps n
            { low := st.low, high := (st.low + st.high) / 2, best := s, iter := st.iter + 1 } := by
          simp [bisectionLoop, hstop, hor]
        obtain ⟨k, hk, hkn, hw, hend, hbest, hlow, hord⟩ := ih
          { low := st.low, high := (st.low + st.high) / 2, best := s, iter := st.iter + 1 }
        rw [e]
        refine ⟨k + 1, by rw [hk]; simp only; omega, by omega, ?_, ?_, fun _ => hbest hor,
          hlow, fun h => ?_⟩
        · simp only at hw
          rw [pow_succ, ← mul_assoc, hw]; ring
        · rcases hend with h | h
          · exact Or.inl h
          · exact Or.inr (by omega)
        · simp only at hord
          obtain ⟨h1, h2, h3⟩ := hord (by linarith)
          exact ⟨h1, h2, by linarith⟩
      | none =>
        have e : bisectionLoop oracle eps (n + 1) st = bisectionLoop oracle eps n
            { low := (st.low + st.high) / 2, high := st.high, best := st.best,
              iter := st.iter + 1 } := by
          simp [bisectionLoop, hstop, hor]
        obtain ⟨k, hk, hkn, hw, hend, hbest, hlow, hord⟩ := ih
          { low := (st.low + st.high) / 2, high := st.high, best := st.best,
            iter := st.iter + 1 }
        rw [e]
        refine ⟨k + 1, by rw [hk]; simp only; omega, by omega, ?_, ?_, hbest,
          fun _ => hlow hor, fun h => ?_⟩
        · simp only at hw
          rw [pow_succ, ← mul_assoc, hw]; ring
        · rcases hend with h | h
          · exact Or.inl h
          · exact Or.inr (by omega)
        · simp only at hord
          obtain ⟨h1, h2, h3⟩ := hord (by linarith)
          exact ⟨by linarith, h2, h3⟩

/-- C16, counterexample: on the bracket `high = 1`, `low = 0`, feasible everywhere, with
tolerance `1e-8` and at most 20 iterations, the driver returns true after reaching the
maximum number of iterations with a bracket that is not narrower than the tolerance. -/
theorem bisection_cap_before_tolerance :
    (BisectionLP (fun _ : ℚ => some ()) () 1 0 (1 / 10 ^ 8) 20).1 = true ∧
    ¬ ((BisectionLP (fun _ : ℚ => some ()) () 1 0 (1 / 10 ^ 8) 20).2.high -
        (BisectionLP (fun _ : ℚ => some ()) () 1 0 (1 / 10 ^ 8) 20).2.low < 1 / 10 ^ 8) := by
  refine ⟨rfl, ?_⟩
  have e : (BisectionLP (fun _ : ℚ => some ()) () 1 0 (1 / 10 ^ 8) 20).2 =
      bisectionLoop (fun _ : ℚ => some ()) (1 / 10 ^ 8) 20
        { low := 0, high := 1, best := (), iter := 0 } := rfl
  rw [e]
  obtain ⟨k, _, hk, hw, _⟩ := bisectionLoop_spec (fun _ : ℚ => some ()) (1 / 10 ^ 8) 20
    { low := (0 : ℚ), high := 1, best := (), iter := 0 }
  simp only [sub_zero] at hw
  intro hlt
  have h2 : (2 : ℚ) ^ k ≤ 2 ^ 20 := pow_le_pow_right₀ (by norm_num) hk
  have hpos : (0 : ℚ) < 2 ^ k := by positivity
  have h3 := mul_lt_mul_of_pos_right hlt hpos
  rw [hw] at h3
  have h4 : (1 : ℚ) / 10 ^ 8 * 2 ^ k ≤ 1 / 10 ^ 8 * 2 ^ 20 :=
    mul_le_mul_of_nonneg_left h2 (by positivity)
  have h5 : (1 : ℚ) / 10 ^ 8 * 2 ^ 20 < 1 := by norm_num
  linarith

/-- C16, amended: for a bracket feasible at `high` with `low <= high`, the driver returns true
after `k` iterations, `k` at most the maximum; the returned bound is the final `high`, the
buffer holds the solution found at it, and the final bracket lies within the initial one with
width `(high - low) / 2 ^ k`. The final bracket is narrower than the tolerance unless the
maximum number of iterations was reached first, hence always when
`(high - low) / 2 ^ maxIteration` is below the tolerance; and when the initial `low` is
infeasible so is the final `low`. -/
theorem bisection_terminates (oracle : K → Option Sol) (buffer s0 : Sol)
    (high low eps : K) (maxIteration : Nat) (hfeas : oracle high = some s0)
    (hle : low ≤ high) :
    (BisectionLP oracle buffer high low eps maxIteration).1 = true ∧
    (BisectionLP oracle buffer high low eps maxIteration).2.iter ≤ maxIteration ∧
    oracle (BisectionLP oracle buffer high low eps maxIteration).2.high =
      some (BisectionLP oracle buffer high low eps maxIteration).2.best ∧
    ((BisectionLP oracle buffer high low eps maxIteration).2.high -
        (BisectionLP oracle buffer high low eps maxIteration).2.low) *
      2 ^ (BisectionLP oracle buffer high low eps maxIteration).2.iter = high - low ∧
    low ≤ (BisectionLP oracle buffer high low eps maxIteration).2.low ∧
    (BisectionLP oracle buffer high low eps maxIteration).2.low ≤
      (BisectionLP oracle buffer high low eps maxIteration).2.high ∧
    (BisectionLP oracle buffer high low eps maxIteration).2.high ≤ high ∧
    ((BisectionLP oracle buffer high low eps maxIteration).2.high -
        (BisectionLP oracle buffer high low eps maxIteration).2.low < eps ∨
      (BisectionLP oracle buffer high low eps maxIteration).2.iter = maxIteration) ∧
    (high - low < eps * 2 ^ maxIteration →
      (BisectionLP oracle buffer high low eps maxIteration).2.high -
        (BisectionLP oracle buffer high low eps maxIteration).2.low < eps) ∧
    (oracle low = none →
      oracle (BisectionLP oracle buffer high low eps maxIteration).2.low = none) := by
  have e : BisectionLP oracle buffer high low eps maxIteration =
      (true, bisectionLoop oracle eps maxIteration
        { low := low, high := high, best := s0, iter := 0 }) := by
    simp [BisectionLP, hfeas]
  rw [e]
  obtain ⟨k, hk, hkn, hw, hend, hbest, hlow, hord⟩ := bisectionLoop_spec oracle eps maxIteration
    { low := low, high := high, best := s0, iter := 0 }
  simp only [Nat.zero_add] at hk
  simp only at hw hbest hlow hord
  obtain ⟨h1, h2, h3⟩ := hord hle
  refine ⟨rfl, by simp only [hk]; exact hkn, hbest hfeas, by simp only [hk]; exact hw, h1, h2,
    h3, ?_, ?_, hlow⟩
  · rcases hend with h | h
    · exact Or.inl h
    · exact Or.inr (by simp only [hk]; exact h)
  · intro hsmall
    rcases hend with h | h
    · exact h
    · rw [h] at hw
      have hpos : (0 : K) < 2 ^ maxIteration := by positivity
      rw [← hw] at hsmall
      exact lt_of_mul_lt_mul_right hsmall hpos.le

/-- Witness for C16 (amended): the bracket `high = 1`, `low = 0`, feasible exactly from `1 / 3`
on, tolerance `1 / 4`, at most 5 iterations. -/
theorem bisection_terminates_witness :
    (BisectionLP (fun g : ℚ => if 1 / 3 ≤ g then some g else none) 0 1 0 (1 / 4) 5).1 = true ∧
    (BisectionLP (fun g : ℚ => if 1 / 3 ≤ g then some g else none) 0 1 0 (1 / 4) 5).2.iter ≤ 5 ∧
    (BisectionLP (fun g : ℚ => if 1 / 3 ≤ g then some g else none) 0 1 0 (1 / 4) 5).2.high -
      (BisectionLP (fun g : ℚ => if 1 / 3 ≤ g then some g else none) 0 1 0 (1 / 4) 5).2.low <
        1 / 4 :=
  have h := bisection_terminates (fun g : ℚ => if 1 / 3 ≤ g then some g else none) 0 1 1 0
    (1 / 4) 5 (by norm_num) (by norm_num)
  ⟨h.1, h.2.1, h.2.2.2.2.2.2.2.2.1 (by norm_num)⟩

end

/-! ## Theorems: gain and offset constraint builder -/

section

variable {K : Type} [LinearOrderedField K]

theorem pinBounds_length : ∀ (fix : List Nat) (bounds : List (K × K)),
    (pinBounds bounds fix).length = bounds.length := by
  intro fix
  induction fix with
  | nil => intro bounds; rfl
  | cons j rest ih => intro bounds; simp [pinBounds, ih]

theorem pinBounds_keep (i : Nat) : ∀ (fix : List Nat) (bounds : List (K × K)),
    bounds[2 * i]? = some (1, 1) → bounds[2 * i + 1]? = some (0, 0) →
      (pinBounds bounds fix)[2 * i]? = some (1, 1) ∧
      (pinBounds bounds fix)[2 * i + 1]? = some (0, 0) := by
  intro fix
  induction fix with
  | nil => intro bounds h1 h2; exact ⟨h1, h2⟩
  | cons j rest ih =>
    intro bounds h1 h2
    have hlen1 : 2 * i < bounds.length := by
      by_contra hge
      rw [List.getElem?_eq_none (by omega)] at h1
      exact Option.noConfusion h1
    have hlen2 : 2 * i + 1 < bounds.length := by
      by_contra hge
      rw [List.getElem?_eq_none (by omega)] at h2
      exact Option.noConfusion h2
    apply ih
    · rw [List.getElem?_set, if_neg (by omega), List.getElem?_set]
      by_cases hj : 2 * j = 2 * i
      · rw [if_pos hj, if_pos (by omega)]
      · rw [if_neg hj]; exact h1
    · rw [List.getElem?_set]
      by_cases hj : 2 * j + 1 = 2 * i + 1
      · rw [if_pos hj, if_pos (by rw [List.length_set]; omega)]
      · rw [if_neg hj, List.getElem?_set, if_neg (by omega)]; exact h2

theorem pinBounds_fixed (i : Nat) : ∀ (fix : List Nat) (bounds : List (K × K)),
    i ∈ fix → 2 * i + 1 < bounds.length →
      (pinBounds bounds fix)[2 * i]? = some (1, 1) ∧
      (pinBounds bounds fix)[2 * i + 1]? = some (0, 0) := by
  intro fix
  induction fix with
  | nil => intro bounds hmem; simp at hmem
  | cons j rest ih =>
    intro bounds hmem hlen
    by_cases hj : j = i
    · subst hj
      refine pinBounds_keep j rest ((bounds.set (2 * j) (1, 1)).set (2 * j + 1) (0, 0)) ?_ ?_
      · rw [List.getElem?_set, if_neg (by omega), List.getElem?_set, if_pos rfl,
          if_pos (by omega)]
      · rw [List.getElem?_set, if_pos rfl, if_pos (by rw [List.length_set]; omega)]
    · have hrest : i ∈ rest := by
        rcases List.mem_cons.1 hmem with h | h
        · exact absurd h.symm hj
        · exact h
      exact ih _ hrest (by simp only [List.length_set]; exact hlen)

/-- C18: gain/offset pinning. In the linear program built by `GainOffsetConstraintBuilder`
there are `nbParams = 2 * numImages + 1` unknowns laid out
`[gain_0, offset_0, gain_1, offset_1, ..., gamma]` with one bounds pair each, and every
solution has gain 1 and offset 0 for every image of `indexToFix`. -/
theorem gainOffset_pinned (b : GainOffsetConstraintBuilder K) (free : K × K) (x : List K)
    (hsol : IsSolutionSparse (b.Build free) x) (i : Nat) (hi : i ∈ b.indexToFix)
    (hlt : i < b.numImages) :
    x.getD (2 * i) 0 = 1 ∧ x.getD (2 * i + 1) 0 = 0 ∧
    x.length = 2 * b.numImages + 1 ∧ (b.Build free)._nbParams = 2 * b.numImages + 1 ∧
    (b.Build free)._vec_bounds.length = 2 * b.numImages + 1 := by
  obtain ⟨hlen, hbounds, _⟩ := hsol
  have hpin := pinBounds_fixed i b.indexToFix (List.replicate (2 * b.numImages + 1) free) hi
    (by simp only [List.length_replicate]; omega)
  have h1 := hbounds (2 * i) (1, 1) hpin.1
  have h2 := hbounds (2 * i + 1) (0, 0) hpin.2
  refine ⟨le_antisymm h1.2 h1.1, le_antisymm h2.2 h2.1, hlen, rfl, ?_⟩
  show (pinBounds _ _).length = _
  rw [pinBounds_length, List.length_replicate]

/-- Witness for C18: two images joined by one edge with one matched pair `(10, 30)`, image 0
fixed, and the solution gain 1, offset 0 for image 0, gain 1, offset -20 for image 1,
`gamma = 0`. -/
theorem gainOffset_pinned_witness :
    IsSolutionSparse
      ((GainOffsetConstraintBuilder.mk 2 [⟨0, 1, [((10 : ℚ), (30 : ℚ))]⟩] [0]).Build
        (-(10 ^ 30), 10 ^ 30)) [1, 0, 1, -20, 0] ∧
    ([1, 0, 1, -20, 0] : List ℚ).getD (2 * 0) 0 = 1 ∧
    ([1, 0, 1, -20, 0] : List ℚ).getD (2 * 0 + 1) 0 = 0 := by
  have hsol : IsSolutionSparse
      ((GainOffsetConstraintBuilder.mk 2 [⟨0, 1, [((10 : ℚ), (30 : ℚ))]⟩] [0]).Build
        (-(10 ^ 30), 10 ^ 30)) [1, 0, 1, -20, 0] := by
    refine ⟨rfl, ?_, ?_⟩
    · intro k bd hk
      have hb : (GainOffsetConstraintBuilder.Build
          (GainOffsetConstraintBuilder.mk 2 [⟨0, 1, [((10 : ℚ), (30 : ℚ))]⟩] [0])
          (-(10 ^ 30), 10 ^ 30))._vec_bounds =
          [(1, 1), (0, 0), (-(10 ^ 30), 10 ^ 30), (-(10 ^ 30), 10 ^ 30),
            (-(10 ^ 30), 10 ^ 30)] := rfl
      rw [hb] at hk
      rcases k with _ | _ | _ | _ | _ | k <;> simp at hk <;> subst hk <;> norm_num
    · intro r sg rhs hs hrhs
      have h1 : (GainOffsetConstraintBuilder.Build
          (GainOffsetConstraintBuilder.mk 2 [⟨0, 1, [((10 : ℚ), (30 : ℚ))]⟩] [0])
          (-(10 ^ 30), 10 ^ 30))._vec_sign =
          [eLP_SIGN.LP_LESS_OR_EQUAL, eLP_SIGN.LP_LESS_OR_EQUAL] := rfl
      have h2 : (GainOffsetConstraintBuilder.Build
          (GainOffsetConstraintBuilder.mk 2 [⟨0, 1, [((10 : ℚ), (30 : ℚ))]⟩] [0])
          (-(10 ^ 30), 10 ^ 30))._Cst_objective = [0, 0] := rfl
      rw [h1] at hs
      rw [h2] at hrhs
      rcases r with _ | _ | r
      · simp only [List.getElem?_cons_zero, Option.some.injEq] at hs hrhs
        subst hs; subst hrhs
        simp [signHolds, sparseRowValue, GainOffsetConstraintBuilder.Build, edgeRows,
          List.enum, List.enumFrom, List.filter_cons]
        have e : ([1, 0, 1, -20, 0] : List ℚ)[1] = 0 := rfl
        rw [e]
        norm_num
      · simp only [List.getElem?_cons_succ, List.getElem?_cons_zero, Option.some.injEq]
          at hs hrhs
        subst hs; subst hrhs
        simp [signHolds, sparseRowValue, GainOffsetConstraintBuilder.Build, edgeRows,
          List.enum, List.enumFrom, List.filter_cons]
        norm_num
      · simp at hs
  exact ⟨hsol, (gainOffset_pinned _ _ _ hsol 0 (by simp) (by norm_num)).1,
    (gainOffset_pinned _ _ _ hsol 0 (by simp) (by norm_num)).2.1⟩

end

/-! ## Theorems: negative bounds -/

section

variable {K : Type} [LinearOrderedField K]

theorem viewBound_neg (P : Mat34 K) (pt : K × K) (gamma X0 X1 X2 : K) (hg : gamma < 0)
    (h : ViewBound P pt gamma X0 X1 X2) :
    camCoord P X0 X1 X2 0 = 0 ∧ camCoord P X0 X1 X2 1 = 0 ∧ camCoord P X0 X1 X2 2 = 0 := by
  have hz : camCoord P X0 X1 X2 2 = 0 := by
    obtain ⟨hz, hx, _⟩ := h
    have h1 : 0 ≤ gamma * camCoord P X0 X1 X2 2 := le_trans (abs_nonneg _) hx
    by_contra hne
    have hpos : 0 < camCoord P X0 X1 X2 2 := lt_of_le_of_ne hz (Ne.symm hne)
    have := mul_neg_of_neg_of_pos hg hpos
    linarith
  obtain ⟨hx, hy⟩ := (viewBound_depth P pt gamma X0 X1 X2 h).2 hz
  exact ⟨hx, hy, hz⟩

/-- C21, amended: negative bounds admit no visible point, in exact arithmetic (the scalars of
a linearly ordered field, each operation without rounding). For `gamma < 0`, a point that
satisfies the five rows `EncodeTriangulation` emits for a view has `R * X + t = (0, 0, 0)`,
so its depth is exactly 0; hence every feasible point of the rows built for a list of views
has depth 0 in every view, and none has positive depth in any. -/
theorem negative_bound_no_visible_point (P : Mat34 K) (pt : K × K) (gamma X0 X1 X2 : K)
    (hg : gamma < 0)
    (hrows : ∀ p ∈ (viewRows P pt gamma).zip (viewRhs P pt gamma),
      dot p.1 [X0, X1, X2] ≤ p.2) :
    (camCoord P X0 X1 X2 0 = 0 ∧ camCoord P X0 X1 X2 1 = 0 ∧ camCoord P X0 X1 X2 2 = 0) ∧
    ¬ 0 < camCoord P X0 X1 X2 2 ∧
    (∀ (Pi : List (Mat34 K)) (x_ij : Mat2X K) (A : Mat K) (C : Vec K) (Y0 Y1 Y2 : K),
      EncodeTriangulation Pi x_ij gamma = some (A, C) → Feasible A C [Y0, Y1, Y2] →
      ∀ Q ∈ Pi, (camCoord Q Y0 Y1 Y2 0 = 0 ∧ camCoord Q Y0 Y1 Y2 1 = 0 ∧
        camCoord Q Y0 Y1 Y2 2 = 0) ∧ ¬ 0 < camCoord Q Y0 Y1 Y2 2) := by
  have h0 := viewBound_neg P pt gamma X0 X1 X2 hg
    ((viewRows_feasible_iff P pt gamma X0 X1 X2).1 hrows)
  refine ⟨h0, by rw [h0.2.2]; exact lt_irrefl _, ?_⟩
  intro Pi x_ij A C Y0 Y1 Y2 hE hf Q hQ
  obtain ⟨i, q, hi, hq⟩ := view_of_mem Pi x_ij (encode_some_length Pi x_ij gamma A C hE) Q hQ
  have h1 := viewBound_neg Q q gamma Y0 Y1 Y2 hg
    ((feasible_iff_of_encode Pi x_ij gamma A C hE Y0 Y1 Y2).1 hf i Q q hi hq)
  exact ⟨h1, by rw [h1.2.2]; exact lt_irrefl _⟩

/-- Witness for C21 (amended): the view `[I | 0]` observing `(0, 0)` with bound `-1` and the point
`(0, 0, 0)`. -/
theorem negative_bound_no_visible_point_witness :
    (∀ p ∈ (viewRows identityView (0, 0) (-1)).zip (viewRhs identityView (0, 0) (-1)),
      dot p.1 [0, 0, 0] ≤ p.2) ∧
    (camCoord identityView 0 0 0 0 = 0 ∧ camCoord identityView 0 0 0 1 = 0 ∧
      camCoord identityView 0 0 0 2 = 0) := by
  have hrows : ∀ p ∈ (viewRows identityView (0, 0) (-1)).zip (viewRhs identityView (0, 0) (-1)),
      dot p.1 [0, 0, 0] ≤ p.2 := by
    rw [viewRows_feasible_iff]
    simp [ViewBound, identityView_camCoord]
  exact ⟨hrows, (negative_bound_no_visible_point identityView (0, 0) (-1) 0 0 0
    (by norm_num) hrows).1⟩

end

/-! ## Theorems: the rows in `double` arithmetic -/

theorem feasibleD_finite (rows cols : Nat) (a : List (List Dbl)) (c : List Dbl) (X : List ℚ) :
    FeasibleD ⟨rows, cols, a.map (List.map F64.ofDbl)⟩ (c.map F64.ofDbl) X ↔
      Feasible ⟨rows, cols, a.map (List.map Dbl.toRat)⟩ (c.map Dbl.toRat) X := by
  constructor
  · rintro ⟨a1, c1, ha, hc, hf⟩
    have e1 : a = a1 :=
      (List.map_injective_iff.2 (List.map_injective_iff.2 ofDbl_injective)) ha
    have e2 : c = c1 := (List.map_injective_iff.2 ofDbl_injective) hc
    rw [e1, e2]
    exact hf
  · intro hf
    exact ⟨a, c, rfl, rfl, hf⟩

set_option maxRecDepth 100000 in
theorem encode_double_negative :
    EncodeTriangulation [doubleView identityViewD] [(F64.ofDbl ⟨1, 0⟩, F64.ofDbl ⟨1, 0⟩)]
      (F64.ofDbl ⟨-6490371073168535, -109⟩) =
    some (⟨5, 3, List.map (List.map F64.ofDbl)
      [[⟨1, 0⟩, ⟨0, 0⟩, ⟨-9007199254740992, -53⟩],
       [⟨0, 0⟩, ⟨1, 0⟩, ⟨-9007199254740992, -53⟩],
       [⟨0, 0⟩, ⟨0, 0⟩, ⟨-1, 0⟩],
       [⟨-1, 0⟩, ⟨0, 0⟩, ⟨4503599627370496, -52⟩],
       [⟨0, 0⟩, ⟨-1, 0⟩, ⟨4503599627370496, -52⟩]]⟩,
      List.map F64.ofDbl [⟨0, 0⟩, ⟨0, 0⟩, ⟨0, 0⟩, ⟨0, 0⟩, ⟨0, 0⟩]) := by
  decide

set_option maxRecDepth 100000 in
theorem encode_double_low :
    EncodeTriangulation [doubleView shiftedViewD]
      [(F64.ofDbl ⟨8106479329266893, -53⟩, F64.ofDbl ⟨0, 0⟩)]
      (F64.ofDbl ⟨2589569785738035, -50⟩) =
    some (⟨5, 3, List.map (List.map F64.ofDbl)
      [[⟨1, 0⟩, ⟨0, 0⟩, ⟨-7205759403792793, -51⟩],
       [⟨0, 0⟩, ⟨1, 0⟩, ⟨-2589569785738035, -50⟩],
       [⟨0, 0⟩, ⟨0, 0⟩, ⟨-1, 0⟩],
       [⟨-1, 0⟩, ⟨0, 0⟩, ⟨-6305039478318694, -52⟩],
       [⟨0, 0⟩, ⟨-1, 0⟩, ⟨-2589569785738035, -50⟩]]⟩,
      List.map F64.ofDbl [⟨-5764607523034235, -53⟩, ⟨-8286623314361712, -54⟩,
        ⟨-3602879701896397, -54⟩, ⟨-5044031582654954, -54⟩, ⟨-8286623314361712, -54⟩]) := by
  decide

set_option maxRecDepth 100000 in
theorem encode_double_high :
    EncodeTriangulation [doubleView shiftedViewD]
      [(F64.ofDbl ⟨8106479329266893, -53⟩, F64.ofDbl ⟨0, 0⟩)]
      (F64.ofDbl ⟨5179139571476071, -51⟩) =
    some (⟨5, 3, List.map (List.map F64.ofDbl)
      [[⟨1, 0⟩, ⟨0, 0⟩, ⟨-7205759403792794, -51⟩],
       [⟨0, 0⟩, ⟨1, 0⟩, ⟨-5179139571476071, -51⟩],
       [⟨0, 0⟩, ⟨0, 0⟩, ⟨-1, 0⟩],
       [⟨-1, 0⟩, ⟨0, 0⟩, ⟨-6305039478318696, -52⟩],
       [⟨0, 0⟩, ⟨-1, 0⟩, ⟨-5179139571476071, -51⟩]]⟩,
      List.map F64.ofDbl [⟨-5764607523034236, -53⟩, ⟨-8286623314361714, -54⟩,
        ⟨-3602879701896397, -54⟩, ⟨-5044031582654956, -54⟩, ⟨-8286623314361714, -54⟩]) := by
  decide

set_option maxRecDepth 100000 in
theorem encode_double_skew :
    EncodeTriangulation [doubleView skewViewD] [(F64.ofDbl ⟨1, 0⟩, F64.ofDbl ⟨1, 0⟩)]
      (F64.ofDbl ⟨0, 0⟩) =
    some (⟨5, 3, List.map (List.map F64.ofDbl)
      [[⟨-1, -1⟩, ⟨7205759403792794, -54⟩, ⟨3602879701896397, -54⟩],
       [⟨-3, -1⟩, ⟨8106479329266893, -53⟩, ⟨6305039478318694, -53⟩],
       [⟨-1, 0⟩, ⟨-3602879701896397, -55⟩, ⟨-5404319552844595, -54⟩],
       [⟨1, -1⟩, ⟨-7205759403792794, -54⟩, ⟨-3602879701896397, -54⟩],
       [⟨3, -1⟩, ⟨-8106479329266893, -53⟩, ⟨-6305039478318694, -53⟩]]⟩,
      List.map F64.ofDbl [⟨1, -1⟩, ⟨1, 0⟩, ⟨1, 0⟩, ⟨-1, -1⟩, ⟨-1, 0⟩]) := by
  decide

/-- C21, counterexample: in the `double` arithmetic of the source a negative bound admits a
visible point. For the view `[I | 0]` observing `(1, 1)` and `gamma = -1e-17` (the `double`
`-6490371073168535 * 2 ^ -109`), the rows `EncodeTriangulation` emits are those of
`gamma = 0`, each `1 - gamma` and `-1 - gamma` being rounded to `1` and `-1`; the point
`(1, 1, 1)` satisfies all five, with `R * X + t = (1, 1, 1)` and depth 1. -/
theorem negative_bound_double_visible_point :
    ∃ A C, EncodeTriangulation [doubleView identityViewD]
        [(F64.ofDbl ⟨1, 0⟩, F64.ofDbl ⟨1, 0⟩)] (F64.ofDbl ⟨-6490371073168535, -109⟩) =
        some (A, C) ∧
      Dbl.toRat ⟨-6490371073168535, -109⟩ < 0 ∧
      FeasibleD A C [1, 1, 1] ∧
      camCoord (exactView identityViewD) 1 1 1 0 = 1 ∧
      camCoord (exactView identityViewD) 1 1 1 1 = 1 ∧
      camCoord (exactView identityViewD) 1 1 1 2 = 1 := by
  refine ⟨_, _, encode_double_negative, ?_, ?_, ?_, ?_, ?_⟩
  · norm_num [Dbl.toRat]
  · rw [feasibleD_finite]
    intro p hp
    simp only [List.map_cons, List.map_nil, List.zip_cons_cons, List.zip_nil_right,
      List.mem_cons, List.mem_singleton, List.not_mem_nil, or_false] at hp
    rcases hp with rfl | rfl | rfl | rfl | rfl <;> norm_num [dot, Dbl.toRat]
  · norm_num [camCoord, exactView, identityViewD, Dbl.toRat, show ((3 : Fin 4) : Nat) = 3 from rfl]
  · norm_num [camCoord, exactView, identityViewD, Dbl.toRat, show ((3 : Fin 4) : Nat) = 3 from rfl]
  · norm_num [camCoord, exactView, identityViewD, Dbl.toRat, show ((3 : Fin 4) : Nat) = 3 from rfl]

/-- C20, counterexample: in the `double` arithmetic of the source the feasible set does not
grow with the bound. For the view `[I | (0, 0, -0.2)]` observing `(0.9, 0)`, the point
`(-1261007895663739 * 2 ^ -105, 0, 0.2)` satisfies the five rows built at `gamma1 = 2.3` and
violates the first row built at the next `double`, `gamma2 = 2.3000000000000003`: the
coefficient `-0.9 - gamma` and the right-hand side `-0.2 * 0.9 + -0.2 * gamma` are rounded
apart. -/
theorem encodeTriangulation_double_not_mono :
    ∃ A1 C1 A2 C2,
      EncodeTriangulation [doubleView shiftedViewD]
        [(F64.ofDbl ⟨8106479329266893, -53⟩, F64.ofDbl ⟨0, 0⟩)]
        (F64.ofDbl ⟨2589569785738035, -50⟩) = some (A1, C1) ∧
      EncodeTriangulation [doubleView shiftedViewD]
        [(F64.ofDbl ⟨8106479329266893, -53⟩, F64.ofDbl ⟨0, 0⟩)]
        (F64.ofDbl ⟨5179139571476071, -51⟩) = some (A2, C2) ∧
      Dbl.toRat ⟨2589569785738035, -50⟩ ≤ Dbl.toRat ⟨5179139571476071, -51⟩ ∧
      FeasibleD A1 C1
        [Dbl.toRat ⟨-1261007895663739, -105⟩, 0, Dbl.toRat ⟨3602879701896397, -54⟩] ∧
      ¬ FeasibleD A2 C2
        [Dbl.toRat ⟨-1261007895663739, -105⟩, 0, Dbl.toRat ⟨3602879701896397, -54⟩] := by
  refine ⟨_, _, _, _, encode_double_low, encode_double_high, ?_, ?_, ?_⟩
  · norm_num [Dbl.toRat]
  · rw [feasibleD_finite]
    intro p hp
    simp only [List.map_cons, List.map_nil, List.zip_cons_cons, List.zip_nil_right,
      List.mem_cons, List.mem_singleton, List.not_mem_nil, or_false] at hp
    rcases hp with rfl | rfl | rfl | rfl | rfl <;> norm_num [dot, Dbl.toRat]
  · rw [feasibleD_finite]
    intro hf
    have h0 := hf ([Dbl.toRat ⟨1, 0⟩, Dbl.toRat ⟨0, 0⟩, Dbl.toRat ⟨-7205759403792794, -51⟩],
      Dbl.toRat ⟨-5764607523034236, -53⟩) (by simp)
    norm_num [dot, Dbl.toRat] at h0

/-- C15, counterexample: in the `double` arithmetic of the source a noiseless observation can
violate a row built at `gamma = 0`. For the view of rows `(0.5, 0.5, 0.5 | 0.5)`,
`(-0.5, 1, 1 | 0)`, `(1, 0.1, 0.3 | 1)` (as `double`s), the point `(1, 2, 1)` has depth `5 / 2`
and projects exactly onto `(1, 1)`; with that observation the first row built at `gamma = 0`
is violated by the point, `0.5 - 0.1` and `0.5 - 0.3` being rounded. -/
theorem noiseless_double_row_violated :
    ∃ A C, EncodeTriangulation [doubleView skewViewD] [(F64.ofDbl ⟨1, 0⟩, F64.ofDbl ⟨1, 0⟩)]
        (F64.ofDbl ⟨0, 0⟩) = some (A, C) ∧
      camCoord (exactView skewViewD) 1 2 1 2 = 5 / 2 ∧
      project (exactView skewViewD) 1 2 1 = (Dbl.toRat ⟨1, 0⟩, Dbl.toRat ⟨1, 0⟩) ∧
      ¬ FeasibleD A C [1, 2, 1] := by
  have e3 : ((3 : Fin 4) : Nat) = 3 := rfl
  have hz : camCoord (exactView skewViewD) 1 2 1 2 = 5 / 2 := by
    norm_num [camCoord, exactView, skewViewD, Dbl.toRat, e3]
  have hx : camCoord (exactView skewViewD) 1 2 1 0 = 5 / 2 := by
    norm_num [camCoord, exactView, skewViewD, Dbl.toRat, e3]
  have hy : camCoord (exactView skewViewD) 1 2 1 1 = 5 / 2 := by
    norm_num [camCoord, exactView, skewViewD, Dbl.toRat, e3]
  refine ⟨_, _, encode_double_skew, hz, ?_, ?_⟩
  · rw [project, hx, hy, hz]
    norm_num [Dbl.toRat]
  · rw [feasibleD_finite]
    intro hf
    have h0 := hf ([Dbl.toRat ⟨-1, -1⟩, Dbl.toRat ⟨7205759403792794, -54⟩,
      Dbl.toRat ⟨3602879701896397, -54⟩], Dbl.toRat ⟨1, -1⟩) (by simp)
    norm_num [dot, Dbl.toRat] at h0

/-! ## Theorems: line range of the pair list loader -/

theorem lineLoop_whole_eq (w : Nat) (rs rz : Int) (h : rs = -1 ∨ rz = 0) :
    ∀ (lines : List (List Char)) (uninit : Nat → Nat × Nat) (n m : Nat) (S : PairSet),
      lineLoop w rs rz uninit lines n S = lineLoop w (-1) 0 uninit lines m S := by
  intro lines
  induction lines with
  | nil => intro uninit n m S; simp [lineLoop]
  | cons l rest ih =>
    intro uninit n m S
    rw [lineLoop_whole_cons w rs rz h, lineLoop_whole_cons w (-1) 0 (Or.inl rfl),
      ih _ (n + 1) (m + 1)]

theorem lineLoop_window (w : Nat) (rs rz : Int) (hact : rs ≠ -1 ∧ rz ≠ 0) :
    ∀ (lines : List (List Char)) (uninit : Nat → Nat × Nat) (n : Nat) (S : PairSet),
      lineLoop w rs rz uninit lines n S =
        lineLoop w (-1) 0 uninit
          ((lines.drop (toSizeT rs - n)).take (toSizeT (rs + rz) - max (toSizeT rs) n)) 0 S := by
  intro lines
  induction lines with
  | nil => intro uninit n S; simp [lineLoop]
  | cons l rest ih =>
    intro uninit n S
    by_cases hlow : n < toSizeT rs
    · have e : lineLoop w rs rz uninit (l :: rest) n S =
          lineLoop w rs rz uninit rest (n + 1) S := by
        rw [lineLoop]; simp [hact.1, hact.2, hlow]
      have e1 : toSizeT rs - n = (toSizeT rs - (n + 1)) + 1 := by omega
      have e2 : max (toSizeT rs) n = max (toSizeT rs) (n + 1) := by
        rw [max_eq_left (by omega), max_eq_left (by omega)]
      rw [e, ih uninit (n + 1) S, e1, List.drop_succ_cons, e2]
    · by_cases hhigh : toSizeT (rs + rz) ≤ n
      · have e : lineLoop w rs rz uninit (l :: rest) n S = (true, S) := by
          rw [lineLoop]; simp [hact.1, hact.2, hlow, hhigh]
        have e1 : toSizeT (rs + rz) - max (toSizeT rs) n = 0 := by
          rw [max_eq_right (by omega)]; omega
        rw [e, e1, List.take_zero]
        simp [lineLoop]
      · have e0 : toSizeT rs - n = 0 := by omega
        have e1 : toSizeT (rs + rz) - max (toSizeT rs) n =
            (toSizeT (rs + rz) - (n + 1)) + 1 := by
          rw [max_eq_right (by omega)]; omega
        have e2 : toSizeT rs - (n + 1) = 0 := by omega
        have e3 : max (toSizeT rs) (n + 1) = n + 1 := max_eq_right (by omega)
        rw [lineLoop_step w rs rz uninit l rest n S (fun h => hlow h.2.2)
            (fun h => hhigh h.2.2),
          e0, List.drop_zero, e1, List.take_succ_cons,
          lineLoop_whole_cons w (-1) 0 (Or.inl rfl), ih _ (n + 1), e2, List.drop_zero, e3,
          lineLoop_whole_eq w (-1) 0 (Or.inl rfl) _ _ (0 + 1) 0]

/-- Shared core of the results on the line range: loading a file amounts to running the loop
over the processed lines with the range switched off. -/
theorem loadPairs_processed (w : Nat) (uninit : Nat → Nat × Nat) (content : List Char)
    (S : PairSet) (rs rz : Int) :
    loadPairs w uninit (some content) S rs rz =
      lineLoop w (-1) 0 uninit (processedLines rs rz (getLines content)) 0 S := by
  unfold loadPairs processedLines
  simp only
  by_cases h : rs = -1 ∨ rz = 0
  · rw [if_pos h]
    exact lineLoop_whole_eq w rs rz h _ uninit 0 0 S
  · rw [if_neg h]
    have hact : rs ≠ -1 ∧ rz ≠ 0 := ⟨fun e => h (Or.inl e), fun e => h (Or.inr e)⟩
    rw [lineLoop_window w rs rz hact _ uninit 0 S, Nat.sub_zero, max_eq_left (Nat.zero_le _)]

theorem getLines_no_newline : ∀ (content : List Char), ∀ l ∈ getLines content, '\n' ∉ l := by
  intro content
  induction content with
  | nil => intro l hl; simp [getLines] at hl
  | cons c cs ih =>
    intro l hl
    by_cases hc : c = '\n'
    · simp only [getLines, hc, if_true, List.mem_cons] at hl
      rcases hl with h | h
      · rw [h]; simp
      · exact ih l h
    · simp only [getLines, hc, if_false] at hl
      cases hg : getLines cs with
      | nil =>
        rw [hg] at hl
        simp only [List.mem_singleton] at hl
        rw [hl]
        simpa using fun e : '\n' = c => hc e.symm
      | cons l1 ls =>
        rw [hg] at hl ih
        simp only [List.mem_cons] at hl
        rcases hl with h | h
        · rw [h]
          intro hmem
          rcases List.mem_cons.1 hmem with e | e
          · exact hc e.symm
          · exact ih l1 (List.mem_cons_self _ _) e
        · exact ih l (List.mem_cons_of_mem _ h)

theorem getLines_fileOf_true : ∀ (lines : List (List Char)),
    (∀ l ∈ lines, '\n' ∉ l) → getLines (fileOf true lines) = lines := by
  intro lines
  rw [fileOf_true]
  induction lines with
  | nil => intro _; rfl
  | cons l ls ih =>
    intro h
    rw [List.flatMap_cons, List.append_assoc, List.singleton_append,
      getLines_line_cons l _ (h l (List.mem_cons_self _ _)),
      ih (fun l1 h1 => h l1 (List.mem_cons_of_mem _ h1))]

theorem toSizeT_of_nonneg (x : Int) (h0 : 0 ≤ x) (h1 : x < 2 ^ 64) : toSizeT x = x.toNat := by
  unfold toSizeT
  rw [Int.emod_eq_of_lt h0 h1]

theorem lineLoop_whole_superset (w : Nat) (uninit : Nat → Nat × Nat)
    (lines : List (List Char)) (S : PairSet) :
    S ⊆ (lineLoop w (-1) 0 uninit lines 0 S).2 := by
  by_cases hall : ∀ jl ∈ withUninit uninit lines, WellFormed jl.1 jl.2
  · rw [lineLoop_wellFormed w (-1) 0 (Or.inl rfl) lines uninit 0 S hall]
    exact Finset.subset_union_left
  · have hex : ∃ jl ∈ withUninit uninit lines, ¬ WellFormed jl.1 jl.2 := by
      by_contra hno
      exact hall (fun jl hjl => by
        by_contra hb
        exact hno ⟨jl, hjl, hb⟩)
    obtain ⟨pre, bad, post, e, hpre, hbad⟩ := exists_first_bad lines uninit hex
    rw [e, lineLoop_fail w (-1) 0 (Or.inl rfl) pre uninit bad post 0 S hpre hbad]
    intro p hp
    simp only [Finset.mem_union]
    exact Or.inl (Or.inl hp)

/-- C22: line range of `loadPairs`. With `rangeStart >= 0` and `rangeSize > 0` (both `int`,
so below `2 ^ 31`), loading a file returns the flag and the set that loading, over its whole
range, the file made of just the lines of index in `[rangeStart, rangeStart + rangeSize)`
returns; these are the processed lines, and the lines outside the window are neither inserted
nor validated. With `rangeStart = -1` or `rangeSize = 0` every line is processed: the result
is that of the default range. -/
theorem loadPairs_window (w : Nat) (uninit : Nat → Nat × Nat) (content : List Char)
    (S : PairSet) (rs rz : Int)
    (h0 : 0 ≤ rs) (hz : 0 < rz) (hs : rs < 2 ^ 31) (hsz : rz < 2 ^ 31) :
    loadPairs w uninit (some content) S rs rz =
      loadPairs w uninit
        (some (fileOf true (((getLines content).drop rs.toNat).take rz.toNat))) S (-1) 0 ∧
    processedLines rs rz (getLines content) =
      ((getLines content).drop rs.toNat).take rz.toNat ∧
    (∀ rs1 rz1 : Int, rs1 = -1 ∨ rz1 = 0 →
      processedLines rs1 rz1 (getLines content) = getLines content ∧
      loadPairs w uninit (some content) S rs1 rz1 =
        loadPairs w uninit (some content) S (-1) 0) := by
  have hproc : processedLines rs rz (getLines content) =
      ((getLines content).drop rs.toNat).take rz.toNat := by
    unfold processedLines
    rw [if_neg (by omega), toSizeT_of_nonneg rs h0 (by omega),
      toSizeT_of_nonneg (rs + rz) (by omega) (by omega)]
    congr 1
    omega
  refine ⟨?_, hproc, ?_⟩
  · rw [loadPairs_processed, hproc, loadPairs_processed]
    congr 1
    have hlines : getLines (fileOf true (((getLines content).drop rs.toNat).take rz.toNat)) =
        ((getLines content).drop rs.toNat).take rz.toNat := by
      apply getLines_fileOf_true
      intro l hl
      exact getLines_no_newline content l
        (List.mem_of_mem_drop (List.mem_of_mem_take hl))
    rw [hlines]
    simp [processedLines]
  · intro rs1 rz1 h
    refine ⟨by simp [processedLines, h], ?_⟩
    rw [loadPairs_processed, loadPairs_processed]
    simp [processedLines, h]

/-- Witness for C22: the window made of line 1 alone, between a self pair line and an
under-specified line. -/
theorem loadPairs_window_witness :
    loadPairs 32 (fun _ => (7, 7)) (some "3 3\n1 2\n7\n".toList) ∅ 1 1 =
      loadPairs 32 (fun _ => (7, 7)) (some (fileOf true (((getLines "3 3\n1 2\n7\n".toList).drop
        (1 : Int).toNat).take (1 : Int).toNat))) ∅ (-1) 0 ∧
    loadPairs 32 (fun _ => (7, 7)) (some "3 3\n1 2\n7\n".toList) ∅ 1 1 = (true, {(1, 2)}) :=
  ⟨(loadPairs_window 32 (fun _ => (7, 7)) "3 3\n1 2\n7\n".toList ∅ 1 1 (by decide) (by decide)
    (by decide) (by decide)).1, by decide⟩

theorem toPair_of_lt (w : Nat) (q : Nat × Nat) (h : q.1 < 2 ^ w ∧ q.2 < 2 ^ w) :
    toPair w (min q.1 q.2, max q.1 q.2) = (min q.1 q.2, max q.1 q.2) := by
  unfold toPair
  have h1 : min q.1 q.2 < 2 ^ w := lt_of_le_of_lt (min_le_left _ _) h.1
  have h2 : max q.1 q.2 < 2 ^ w := max_lt h.1 h.2
  simp only [Nat.mod_eq_of_lt h1, Nat.mod_eq_of_lt h2]

/-- C23: `loadPairs` only adds to its output set. Whatever the file, the range and the
returned flag, the set before the call is contained in the set after it; and when the call
returns true every processed line has at least 2 tokens and no self pair, and the set after
the call is exactly the set before it united with the pairs `(min(I, J), max(I, J))`, as the
index type holds them, over the pairs `(I, J)` read from the processed lines; these are the
pairs `(min(I, J), max(I, J))` themselves when the indices read fit the index type. -/
theorem loadPairs_only_adds (w : Nat) (uninit : Nat → Nat × Nat) (file : Option (List Char))
    (S : PairSet) (rs rz : Int) :
    S ⊆ (loadPairs w uninit file S rs rz).2 ∧
    ((loadPairs w uninit file S rs rz).1 = true →
      ∃ content, file = some content ∧
        (∀ jl ∈ withUninit uninit (processedLines rs rz (getLines content)),
          WellFormed jl.1 jl.2) ∧
        (loadPairs w uninit file S rs rz).2 =
          S ∪ (((withUninit uninit (processedLines rs rz (getLines content))).flatMap
            fun jl => rawPairs jl.1 jl.2).map
              fun q => toPair w (min q.1 q.2, max q.1 q.2)).toFinset ∧
        ((∀ q ∈ (withUninit uninit (processedLines rs rz (getLines content))).flatMap
            fun jl => rawPairs jl.1 jl.2, q.1 < 2 ^ w ∧ q.2 < 2 ^ w) →
          (loadPairs w uninit file S rs rz).2 =
            S ∪ (((withUninit uninit (processedLines rs rz (getLines content))).flatMap
              fun jl => rawPairs jl.1 jl.2).map fun q => (min q.1 q.2, max q.1 q.2)).toFinset)) := by
  cases file with
  | none =>
    refine ⟨by simp [loadPairs], fun h => ?_⟩
    simp [loadPairs] at h
  | some content =>
    rw [loadPairs_processed]
    refine ⟨lineLoop_whole_superset w uninit _ S, fun h => ?_⟩
    have hwf := lineLoop_true_wellFormed w (-1) 0 (Or.inl rfl) _ uninit 0 S h
    have hset := lineLoop_wellFormed w (-1) 0 (Or.inl rfl) _ uninit 0 S hwf
    rw [flatMap_linePairs] at hset
    refine ⟨content, rfl, hwf, by rw [hset], fun hfit => ?_⟩
    rw [hset]
    simp only
    congr 2
    apply List.map_congr_left
    intro q hq
    exact toPair_of_lt w q (hfit q hq)

theorem takeWhile_nil_of_all_false {p : Char → Bool} (l : List Char)
    (h : ∀ c ∈ l, p c = false) : l.takeWhile p = [] := by
  cases l with
  | nil => rfl
  | cons c cs => simp [List.takeWhile_cons, h c (List.mem_cons_self _ _)]

theorem extractSizeT_nonNumeric (p : Nat) (tok : List Char) (h : NonNumeric tok)
    (hnb : tok.dropWhile isSpace ≠ []) : extractSizeT p tok = 0 := by
  have hs : ∀ c ∈ tok.dropWhile isSpace, c.isDigit = false :=
    fun c hc => h c ((List.dropWhile_sublist _).subset hc)
  have hbody : ∀ body : List Char, (body = tok.dropWhile isSpace ∨
      body = (tok.dropWhile isSpace).tail) → body.takeWhile Char.isDigit = [] := by
    intro body hb
    apply takeWhile_nil_of_all_false
    intro c hc
    rcases hb with e | e
    · rw [e] at hc; exact hs c hc
    · rw [e] at hc; exact hs c (List.mem_of_mem_tail hc)
  have hne : (tok.dropWhile isSpace).isEmpty = false := by
    cases hd : tok.dropWhile isSpace with
    | nil => exact absurd hd hnb
    | cons a l => rfl
  unfold extractSizeT
  simp only [hne, Bool.false_eq_true, if_false]
  split
  · rw [hbody _ (Or.inr rfl)]; rfl
  · rw [hbody _ (Or.inl rfl)]; rfl

/-- C24, counterexample: a token that is not a decimal number is not always read as 0. The
token `12abc` is read as 12: the line `12abc 7x` loads to true with the pair (7, 12), no
index 0 and no self pair. A token of white space only is not read at all: on the line
`0 1 \r 2` the token `\r` leaves `J` at 1, and the load returns true with the pairs (0, 1)
and (0, 2), where a target read as 0 would be a self pair of image 0. -/
theorem loadPairs_token_not_zero :
    extractSizeT 0 "12abc".toList = 12 ∧
    loadPairs 32 (fun _ => (0, 0)) (some "12abc 7x".toList) ∅ (-1) 0 = (true, {(7, 12)}) ∧
    tokens "0 1 \r 2".toList = ["0".toList, "1".toList, "\r".toList, "2".toList] ∧
    loadPairs 32 (fun _ => (0, 0)) (some "0 1 \r 2".toList) ∅ (-1) 0 =
      (true, {(0, 1), (0, 2)}) := by
  decide

/-- C24, amended: `loadPairs` does not reject non-numeric tokens. A token without any decimal
digit that is not made of white space only is read as index 0; a token made of white space
only leaves the index at the value it had; a token that starts with decimal digits is read as
the number they spell, whatever follows them. So the one-line file `a 1` loads to true and
inserts the pair (0, 1) (for an index type of at least one bit), while any line made of two
tokens of the first kind, `a b` for one, has from index 0 and is a self pair, for which the
load returns false. -/
theorem loadPairs_nonNumeric (w : Nat) (hw : 1 ≤ w) (uninit : Nat → Nat × Nat) (S : PairSet)
    (rs rz : Int) (hr : rs = -1 ∨ rz = 0) :
    (∀ p tok, NonNumeric tok → tok.dropWhile isSpace ≠ [] → extractSizeT p tok = 0) ∧
    (∀ p tok, (∀ c ∈ tok, isSpace c = true) → extractSizeT p tok = p) ∧
    (∀ (p : Nat) (ds rest : List Char), IsNumeral ds →
      (∀ c ∈ rest.head?, c.isDigit = false) →
      ds.foldl (fun a c => 10 * a + digitVal c) 0 < 2 ^ 64 →
      extractSizeT p (ds ++ rest) = ds.foldl (fun a c => 10 * a + digitVal c) 0) ∧
    NonNumeric "a".toList ∧
    loadPairs w uninit (some "a 1".toList) S rs rz = (true, S ∪ {(0, 1)}) ∧
    (∀ line t1 t2, tokens line = [t1, t2] → NonNumeric t1 → NonNumeric t2 →
      t1.dropWhile isSpace ≠ [] → t2.dropWhile isSpace ≠ [] →
      fromIndex line = 0 ∧ ∀ j, SelfPair j line) ∧
    (∀ content, (∃ line ∈ getLines content, ∃ t1 t2, tokens line = [t1, t2] ∧
        NonNumeric t1 ∧ NonNumeric t2 ∧ t1.dropWhile isSpace ≠ [] ∧
        t2.dropWhile isSpace ≠ []) →
      (loadPairs w uninit (some content) S rs rz).1 = false) ∧
    loadPairs w uninit (some "a b".toList) S rs rz = (false, S) := by
  have hself : ∀ line t1 t2, tokens line = [t1, t2] → NonNumeric t1 → NonNumeric t2 →
      t1.dropWhile isSpace ≠ [] → t2.dropWhile isSpace ≠ [] →
      fromIndex line = 0 ∧ ∀ j, SelfPair j line := by
    intro line t1 t2 ht h1 h2 hb1 hb2
    have hf : fromIndex line = 0 := by
      unfold fromIndex; rw [ht]; exact extractSizeT_nonNumeric 0 t1 h1 hb1
    refine ⟨hf, fun j => ?_⟩
    unfold SelfPair targetIndices
    rw [hf, ht]
    simp [readTargets, extractSizeT_nonNumeric j t2 h2 hb2]
  have hpow : 1 < 2 ^ w := Nat.one_lt_two_pow (by omega)
  refine ⟨extractSizeT_nonNumeric, extractSizeT_blank,
    fun p ds rest hn hrest hv => extractSizeT_numeral_prefix hn rest hrest hv p,
    by decide, ?_, hself, ?_, ?_⟩
  · unfold loadPairs
    simp only
    have hl : getLines "a 1".toList = ["a 1".toList] := by decide
    have hu : ¬ UnderSpecified "a 1".toList := by decide
    have hfrom : fromIndex "a 1".toList = 0 := by decide
    have htok : (tokens "a 1".toList).tail = ["1".toList] := by decide
    have htg : ∀ j, targetIndices j "a 1".toList = [1] := by
      intro j
      unfold targetIndices
      rw [htok]
      have : extractSizeT j "1".toList = 1 := by
        rw [extractSizeT_prev j 0 _ (by decide)]; decide
      simp only [readTargets, this]
    have hwf : ∀ j, WellFormed j "a 1".toList := by
      intro j
      refine ⟨hu, ?_⟩
      unfold SelfPair
      rw [hfrom, htg]
      decide
    rw [hl, lineLoop_wellFormed w rs rz hr _ uninit 0 S (by
      intro jl hjl
      simp only [withUninit, List.mem_singleton] at hjl
      rw [hjl]
      exact hwf _)]
    simp only [withUninit, List.flatMap_cons, List.flatMap_nil, List.append_nil, linePairs,
      hfrom, htg, List.map_cons, List.map_nil, pairToInsert, toPair]
    simp [Nat.mod_eq_of_lt hpow, Nat.mod_eq_of_lt (Nat.pos_of_ne_zero (by omega) : 0 < 2 ^ w)]
  · rintro content ⟨line, hline, t1, t2, ht, h1, h2, hb1, hb2⟩
    obtain ⟨j, hj⟩ := withUninit_mem line (getLines content) uninit hline
    exact lineLoop_bad_false w rs rz hr (getLines content) uninit 0 S
      ⟨(j, line), hj, fun hwf => hwf.2 ((hself line t1 t2 ht h1 h2 hb1 hb2).2 j)⟩
  · unfold loadPairs
    simp only
    have hl : getLines "a b".toList = ["a b".toList] := by decide
    have hu : ¬ UnderSpecified "a b".toList := by decide
    have htok : tokens "a b".toList = ["a".toList, "b".toList] := by decide
    have hs := hself "a b".toList _ _ htok (by decide) (by decide) (by decide) (by decide)
    have hpb : pairsBeforeError w (uninit 0).2 "a b".toList = [] := by
      have hj := hs.2 (uninit 0).2
      unfold SelfPair targetIndices at hj
      unfold pairsBeforeError targetIndices
      rw [if_neg hu]
      rw [htok] at hj ⊢
      simp only [List.tail_cons, readTargets, List.mem_singleton] at hj ⊢
      rw [← hj]
      simp
    rw [hl, lineLoop_whole_cons w rs rz hr, if_neg hu, if_pos (hs.2 _), hpb]
    simp

/-- Witness for C24 (amended): 32-bit indices, the default range and an empty set. -/
theorem loadPairs_nonNumeric_witness :
    loadPairs 32 (fun _ => (7, 7)) (some "a 1".toList) ∅ (-1) 0 = (true, ∅ ∪ {(0, 1)}) ∧
    loadPairs 32 (fun _ => (7, 7)) (some "a b".toList) ∅ (-1) 0 = (false, ∅) :=
  ⟨(loadPairs_nonNumeric 32 (by decide) (fun _ => (7, 7)) ∅ (-1) 0 (Or.inl rfl)).2.2.2.2.1,
    (loadPairs_nonNumeric 32 (by decide) (fun _ => (7, 7)) ∅ (-1) 0 (Or.inl rfl)).2.2.2.2.2.2.2⟩

end AliceVision
